import Mathlib

/-
Verification development for the model-guided literal collector
(src/literal_collector.c).

Shallow embedding conventions:
- A term handle (term_t) is a natural number; the polarity is the low bit
  (polarity_of t = t % 2), the index is the high bits (index_of t = t / 2),
  negation is xor with 1 and unsigned_term clears the low bit, exactly as in
  the source.  The distinguished boolean constant sits at index 1, so
  true_term = 2 and false_term = 3 (negate TRUE = FALSE).  Index 0 is the
  reserved index, matching const_idx = 0 used by polynomial descriptors.
- The term table, the model evaluator and the term manager are collaborator
  modules that are not part of the excerpt; they are opaque function fields
  of a context record Ctx.  The descriptor table is keyed by term index.
- The collector state (cache, lit_set, scratch stack) is an explicit record;
  the int_hmap cache is an association list where insertion conses in front
  (so a later insertion for the same key shadows the earlier one, matching
  int_hmap_get overwriting in release builds), the int_hset is an
  insertion-ordered duplicate-free list, and the istack is a list of
  allocated-array sizes.
- The setjmp/longjmp failure channel is an explicit result type VRes that
  carries the error code; partial state travels alongside the result, so
  nothing is rolled back on failure, as in the source.
- C asserts are compiled out (NDEBUG/release semantics): the embedding
  performs no check where the source has only an assert.
- Recursion over the term DAG is fuel-indexed; VRes.out reports fuel
  exhaustion and is distinct from every program outcome.  Any hash-consed
  table (children created before parents) is handled by fuel >= index + 1.
-/

/-! ## Terms: handles with a polarity bit -/



def true_term : Nat := 2

def false_term : Nat := 3

/-- const_idx = 0: sentinel variable of the constant monomial in polynomials. -/
def const_idx : Nat := 0

def polarity_of (t : Nat) : Nat := t % 2

def unsigned_term (t : Nat) : Nat := t - t % 2

def index_of (t : Nat) : Nat := t / 2

def opposite_term (t : Nat) : Nat := t ^^^ 1

def bool2term (b : Bool) : Nat := if b then true_term else false_term

/-! ## Nat descriptors (term table view)

One constructor per term kind reached by the visitor, as enumerated in the
switch of lit_collector_visit.  Composite descriptors carry their children;
n-ary kinds carry a list whose length is the arity.  Polynomial descriptors
keep only the monomial variables (the visitor never reads coefficients);
the constant monomial is represented by the sentinel const_idx. -/

inductive TermDesc where
  | constant                                -- CONSTANT_TERM
  | arithConst                              -- ARITH_CONSTANT
  | bv64Const                               -- BV64_CONSTANT
  | bvConst                                 -- BV_CONSTANT
  | var                                     -- VARIABLE
  | uninterpreted                           -- UNINTERPRETED_TERM
  | arithEq (u : Nat)                      -- ARITH_EQ_ATOM  (u == 0)
  | arithGe (u : Nat)                      -- ARITH_GE_ATOM  (u >= 0)
  | ite (c a b : Nat)                      -- ITE_TERM
  | iteSpecial (c a b : Nat)               -- ITE_SPECIAL
  | app (args : List Nat)                  -- APP_TERM (args = f :: actuals)
  | update (args : List Nat)               -- UPDATE_TERM
  | tuple (args : List Nat)                -- TUPLE_TERM
  | eq (a b : Nat)                         -- EQ_TERM
  | distinct (args : List Nat)             -- DISTINCT_TERM
  | forallT                                 -- FORALL_TERM
  | lambdaT                                 -- LAMBDA_TERM
  | or (args : List Nat)                   -- OR_TERM
  | xor (args : List Nat)                  -- XOR_TERM
  | arithBineq (a b : Nat)                 -- ARITH_BINEQ_ATOM
  | bvArray (args : List Nat)              -- BV_ARRAY
  | bvDiv (a b : Nat)                      -- BV_DIV
  | bvRem (a b : Nat)                      -- BV_REM
  | bvSdiv (a b : Nat)                     -- BV_SDIV
  | bvSrem (a b : Nat)                     -- BV_SREM
  | bvSmod (a b : Nat)                     -- BV_SMOD
  | bvShl (a b : Nat)                      -- BV_SHL
  | bvLshr (a b : Nat)                     -- BV_LSHR
  | bvAshr (a b : Nat)                     -- BV_ASHR
  | bvEq (a b : Nat)                       -- BV_EQ_ATOM
  | bvGe (a b : Nat)                       -- BV_GE_ATOM
  | bvSge (a b : Nat)                      -- BV_SGE_ATOM
  | select (idx : Nat) (arg : Nat)         -- SELECT_TERM
  | bit (idx : Nat) (arg : Nat)            -- BIT_TERM
  | powProd (vars : List Nat)              -- POWER_PRODUCT
  | arithPoly (vars : List Nat)            -- ARITH_POLY
  | bvPoly64 (vars : List Nat)             -- BV64_POLY
  | bvPoly (vars : List Nat)               -- BV_POLY
  | unused                                  -- UNUSED_TERM
  | reserved                                -- RESERVED_TERM
deriving DecidableEq, Repr

/-! ## Context: term table, model evaluator, term manager

Modelled from the spec: the term table accessors (kind, descriptor,
is_boolean), the model evaluator (eval_in_model returning a value handle or
failure, is_true on value handles) and the term manager constructors are
collaborator modules outside the excerpt; each is an opaque function field,
per the interfaces of spec sections 3 and 6.  A constructor for an n-ary
kind receives the array of rebuilt children (mk_application receives a[0]
and a+1 from the same array, so passing the whole array is equivalent); the
pprod/poly constructors also receive the original term, which carries the
descriptor that mk_pprod / mk_arith_poly read coefficients from. -/

structure Ctx where
  desc : Nat → TermDesc                  -- term_kind + descriptor, by index
  isBool : Nat → Bool                    -- is_boolean_term, by index
  evalT : Nat → Option Nat              -- eval_in_model (none = negative code)
  isTrue : Nat → Bool                    -- is_true on a value handle
  mkArithEq0 : Nat → Nat               -- mk_arith_term_eq0
  mkArithGeq0 : Nat → Nat              -- mk_arith_term_geq0
  mkApp : List Nat → Nat               -- mk_application
  mkUpdate : List Nat → Nat            -- mk_update
  mkTuple : List Nat → Nat             -- mk_tuple
  mkEq : Nat → Nat → Nat              -- mk_eq
  mkDistinct : List Nat → Nat          -- mk_distinct
  mkArithEq : Nat → Nat → Nat         -- mk_arith_eq
  mkBvarray : List Nat → Nat           -- mk_bvarray
  mkBvdiv : Nat → Nat → Nat
  mkBvrem : Nat → Nat → Nat
  mkBvsdiv : Nat → Nat → Nat
  mkBvsrem : Nat → Nat → Nat
  mkBvsmod : Nat → Nat → Nat
  mkBvshl : Nat → Nat → Nat
  mkBvlshr : Nat → Nat → Nat
  mkBvashr : Nat → Nat → Nat
  mkBveq : Nat → Nat → Nat
  mkBvge : Nat → Nat → Nat
  mkBvsge : Nat → Nat → Nat
  mkSelect : Nat → Nat → Nat           -- mk_select
  mkBitextract : Nat → Nat → Nat       -- mk_bitextract
  mkPprod : Nat → List Nat → Nat      -- mk_pprod (t carries the pprod_t)
  mkArithPoly : Nat → List Nat → Nat  -- mk_arith_poly (t carries the poly)
  mkBvarith64Poly : Nat → List Nat → Nat
  mkBvarithPoly : Nat → List Nat → Nat

/-! ## Collector state -/

structure Collector where
  cache : List (Nat × Nat)    -- int_hmap: unsigned term -> simplified term
  lit_set : List Nat           -- int_hset: collected literals
  stack : List Nat              -- istack: sizes of live scratch arrays
deriving DecidableEq, Repr

/-- init_lit_collector: fresh empty state (the model is in the context). -/
def init_lit_collector : Collector := ⟨[], [], []⟩

/-- Error codes of literal_collector.h.  Modelled from the spec: the header
is not part of the excerpt; the spec lists five stable negative codes. -/
inductive LitErr where
  | evalFailed      -- LIT_COLLECT_EVAL_FAILED
  | freevar         -- LIT_COLLECT_FREEVAR_IN_TERM
  | quantifier      -- LIT_COLLECT_QUANTIFIER
  | lambdaErr       -- LIT_COLLECT_LAMBDA
  | internal        -- LIT_COLLECT_INTERNAL_ERROR
deriving DecidableEq, Repr

/-- Modelled from the spec: the five codes are distinct negative integers. -/
def errCode : LitErr → Int
  | .evalFailed => -1
  | .freevar => -2
  | .quantifier => -3
  | .lambdaErr => -4
  | .internal => -5

/-- Outcome of a visit step: a value, a longjmp with an error code, or fuel
exhaustion (the latter is an artifact of the fuel-indexed recursion, not a
program outcome). -/
inductive VRes (α : Type) where
  | ok (a : α)
  | fail (e : LitErr)
  | out
deriving DecidableEq, Repr

/-- Sequencing: errors and fuel exhaustion propagate with their state. -/
def vbind {α β : Type} (r : VRes α × Collector)
    (f : α → Collector → VRes β × Collector) : VRes β × Collector :=
  match r with
  | (.ok a, c) => f a c
  | (.fail e, c) => (.fail e, c)
  | (.out, c) => (.out, c)

/-! ## Cache, literal set, scratch stack operations -/

/-- int_hmap_find on the association list (first match wins). -/
def assocFind : List (Nat × Nat) → Nat → Option Nat
  | [], _ => none
  | p :: rest, t => if p.1 = t then some p.2 else assocFind rest t

/-- lit_collector_find_cached_term: NULL_TERM becomes none. -/
def lit_collector_find_cached_term (c : Collector) (t : Nat) : Option Nat :=
  assocFind c.cache t

/-- lit_collector_cache_result: store t -> u. -/
def lit_collector_cache_result (c : Collector) (t u : Nat) : Collector :=
  { c with cache := (t, u) :: c.cache }

/-- int_hset_add: duplicate adds are no-ops, new elements append. -/
def hsetAdd (l : List Nat) (t : Nat) : List Nat :=
  if t ∈ l then l else l ++ [t]

/-- lit_collector_add_literal: do nothing if t is true_term. -/
def lit_collector_add_literal (c : Collector) (t : Nat) : Collector :=
  if t = true_term then c else { c with lit_set := hsetAdd c.lit_set t }

/-- alloc_istack_array of size n. -/
def pushFrame (c : Collector) (n : Nat) : Collector :=
  { c with stack := n :: c.stack }

/-- free_istack_array of the most recent array. -/
def popFrame (c : Collector) : Collector :=
  { c with stack := c.stack.tail }

/-- term_is_true_in_model: evaluate, longjmp EVAL_FAILED on failure,
otherwise test truth of the value handle. -/
def term_is_true_in_model (ctx : Ctx) (t : Nat) (c : Collector) :
    VRes Bool × Collector :=
  match ctx.evalT t with
  | none => (.fail .evalFailed, c)
  | some v => (.ok (ctx.isTrue v), c)

/-- register_atom: add t or not(t) to the literal set, return the value of
t in the model as a boolean constant. -/
def register_atom (ctx : Ctx) (t : Nat) (c : Collector) :
    VRes Nat × Collector :=
  vbind (term_is_true_in_model ctx t c) fun b c =>
    if b then (.ok true_term, lit_collector_add_literal c t)
    else (.ok false_term, lit_collector_add_literal c (opposite_term t))

/-! ## Per-kind visit helpers

Each helper takes the recursive visit function v as a parameter (it is
instantiated with one unit of fuel consumed). -/

/-- Visit every term of a list in order, collecting the results
(the istack array being filled, one slot per child). -/
def visitArgs (v : Nat → Collector → VRes Nat × Collector) :
    List Nat → Collector → VRes (List Nat) × Collector
  | [], c => (.ok [], c)
  | a :: rest, c =>
    vbind (v a c) fun u c =>
      vbind (visitArgs v rest c) fun us c => (.ok (u :: us), c)

/-- lit_collector_visit_eq_atom: t is (u == 0). -/
def lit_collector_visit_eq_atom (ctx : Ctx)
    (v : Nat → Collector → VRes Nat × Collector)
    (t u : Nat) (c : Collector) : VRes Nat × Collector :=
  vbind (v u c) fun w c =>
    register_atom ctx (if w ≠ u then ctx.mkArithEq0 w else t) c

/-- lit_collector_visit_ge_atom: t is (u >= 0). -/
def lit_collector_visit_ge_atom (ctx : Ctx)
    (v : Nat → Collector → VRes Nat × Collector)
    (t u : Nat) (c : Collector) : VRes Nat × Collector :=
  vbind (v u c) fun w c =>
    register_atom ctx (if w ≠ u then ctx.mkArithGeq0 w else t) c

/-- lit_collector_visit_ite: simplify the condition, then visit only the
branch it selects (in release builds any non-true condition result selects
the else branch). -/
def lit_collector_visit_ite
    (v : Nat → Collector → VRes Nat × Collector)
    (c1 a b : Nat) (c : Collector) : VRes Nat × Collector :=
  vbind (v c1 c) fun w c =>
    v (if w = true_term then a else b) c

/-- Shared shape of the binary rebuild-only visits (bvdiv ... bvashr). -/
def visitBinRebuild (mk : Nat → Nat → Nat)
    (v : Nat → Collector → VRes Nat × Collector)
    (t a b : Nat) (c : Collector) : VRes Nat × Collector :=
  vbind (v a c) fun x c =>
    vbind (v b c) fun y c =>
      (.ok (if x ≠ a ∨ y ≠ b then mk x y else t), c)

/-- Shared shape of the binary atom visits (eq, arith_bineq, bveq, bvge,
bvsge): rebuild if a child changed, then register the atom. -/
def visitBinAtom (ctx : Ctx) (mk : Nat → Nat → Nat)
    (v : Nat → Collector → VRes Nat × Collector)
    (t a b : Nat) (c : Collector) : VRes Nat × Collector :=
  vbind (v a c) fun x c =>
    vbind (v b c) fun y c =>
      register_atom ctx (if x ≠ a ∨ y ≠ b then mk x y else t) c

def lit_collector_visit_eq (ctx : Ctx)
    (v : Nat → Collector → VRes Nat × Collector)
    (t a b : Nat) (c : Collector) : VRes Nat × Collector :=
  visitBinAtom ctx ctx.mkEq v t a b c

def lit_collector_visit_arith_bineq (ctx : Ctx)
    (v : Nat → Collector → VRes Nat × Collector)
    (t a b : Nat) (c : Collector) : VRes Nat × Collector :=
  visitBinAtom ctx ctx.mkArithEq v t a b c

def lit_collector_visit_bveq (ctx : Ctx)
    (v : Nat → Collector → VRes Nat × Collector)
    (t a b : Nat) (c : Collector) : VRes Nat × Collector :=
  visitBinAtom ctx ctx.mkBveq v t a b c

def lit_collector_visit_bvge (ctx : Ctx)
    (v : Nat → Collector → VRes Nat × Collector)
    (t a b : Nat) (c : Collector) : VRes Nat × Collector :=
  visitBinAtom ctx ctx.mkBvge v t a b c

def lit_collector_visit_bvsge (ctx : Ctx)
    (v : Nat → Collector → VRes Nat × Collector)
    (t a b : Nat) (c : Collector) : VRes Nat × Collector :=
  visitBinAtom ctx ctx.mkBvsge v t a b c

def lit_collector_visit_bvdiv (ctx : Ctx)
    (v : Nat → Collector → VRes Nat × Collector)
    (t a b : Nat) (c : Collector) : VRes Nat × Collector :=
  visitBinRebuild ctx.mkBvdiv v t a b c

def lit_collector_visit_bvrem (ctx : Ctx)
    (v : Nat → Collector → VRes Nat × Collector)
    (t a b : Nat) (c : Collector) : VRes Nat × Collector :=
  visitBinRebuild ctx.mkBvrem v t a b c

def lit_collector_visit_bvsdiv (ctx : Ctx)
    (v : Nat → Collector → VRes Nat × Collector)
    (t a b : Nat) (c : Collector) : VRes Nat × Collector :=
  visitBinRebuild ctx.mkBvsdiv v t a b c

def lit_collector_visit_bvsrem (ctx : Ctx)
    (v : Nat → Collector → VRes Nat × Collector)
    (t a b : Nat) (c : Collector) : VRes Nat × Collector :=
  visitBinRebuild ctx.mkBvsrem v t a b c

def lit_collector_visit_bvsmod (ctx : Ctx)
    (v : Nat → Collector → VRes Nat × Collector)
    (t a b : Nat) (c : Collector) : VRes Nat × Collector :=
  visitBinRebuild ctx.mkBvsmod v t a b c

def lit_collector_visit_bvshl (ctx : Ctx)
    (v : Nat → Collector → VRes Nat × Collector)
    (t a b : Nat) (c : Collector) : VRes Nat × Collector :=
  visitBinRebuild ctx.mkBvshl v t a b c

def lit_collector_visit_bvlshr (ctx : Ctx)
    (v : Nat → Collector → VRes Nat × Collector)
    (t a b : Nat) (c : Collector) : VRes Nat × Collector :=
  visitBinRebuild ctx.mkBvlshr v t a b c

def lit_collector_visit_bvashr (ctx : Ctx)
    (v : Nat → Collector → VRes Nat × Collector)
    (t a b : Nat) (c : Collector) : VRes Nat × Collector :=
  visitBinRebuild ctx.mkBvashr v t a b c

/-- lit_collector_visit_app: visit every child (scratch array), rebuild if
any changed, register as atom when the (possibly rebuilt) term is boolean,
then free the scratch array. -/
def lit_collector_visit_app (ctx : Ctx)
    (v : Nat → Collector → VRes Nat × Collector)
    (t : Nat) (args : List Nat) (c : Collector) : VRes Nat × Collector :=
  let c := pushFrame c args.length
  vbind (visitArgs v args c) fun a c =>
    let t := if a ≠ args then ctx.mkApp a else t
    if ctx.isBool (index_of t) then
      vbind (register_atom ctx t c) fun u c => (.ok u, popFrame c)
    else
      (.ok t, popFrame c)

/-- lit_collector_visit_update. -/
def lit_collector_visit_update (ctx : Ctx)
    (v : Nat → Collector → VRes Nat × Collector)
    (t : Nat) (args : List Nat) (c : Collector) : VRes Nat × Collector :=
  let c := pushFrame c args.length
  vbind (visitArgs v args c) fun a c =>
    (.ok (if a ≠ args then ctx.mkUpdate a else t), popFrame c)

/-- lit_collector_visit_tuple (the source asserts arity >= 3; the assert is
compiled out here, so any arity is processed). -/
def lit_collector_visit_tuple (ctx : Ctx)
    (v : Nat → Collector → VRes Nat × Collector)
    (t : Nat) (args : List Nat) (c : Collector) : VRes Nat × Collector :=
  let c := pushFrame c args.length
  vbind (visitArgs v args c) fun a c =>
    (.ok (if a ≠ args then ctx.mkTuple a else t), popFrame c)

/-- lit_collector_visit_distinct. -/
def lit_collector_visit_distinct (ctx : Ctx)
    (v : Nat → Collector → VRes Nat × Collector)
    (t : Nat) (args : List Nat) (c : Collector) : VRes Nat × Collector :=
  let c := pushFrame c args.length
  vbind (visitArgs v args c) fun a c =>
    vbind (register_atom ctx (if a ≠ args then ctx.mkDistinct a else t) c)
      fun u c => (.ok u, popFrame c)

/-- The search loop of lit_collector_visit_or: evaluate the disjuncts in
index order and return the first one that is true in the model (none if
all evaluate to false). -/
def findTrueArg (ctx : Ctx) :
    List Nat → Collector → VRes (Option Nat) × Collector
  | [], c => (.ok none, c)
  | a :: rest, c =>
    vbind (term_is_true_in_model ctx a c) fun b c =>
      if b then (.ok (some a), c) else findTrueArg ctx rest c

/-- The all-disjuncts loop of the false branch of visit_or: u starts as
false_term (the silence-the-warning initializer) and each visit overwrites
it, so the last result is returned. -/
def visitFold (v : Nat → Collector → VRes Nat × Collector) :
    List Nat → Nat → Collector → VRes Nat × Collector
  | [], u, c => (.ok u, c)
  | a :: rest, _, c =>
    vbind (v a c) fun u c => visitFold v rest u c

/-- lit_collector_visit_or: if the disjunction is true in the model, visit
only the first true disjunct; otherwise visit every disjunct.  If the
disjunction is true but no disjunct evaluates to true the source runs into
undefined behavior (out-of-bounds read); following the defensive reading of
the spec this is modelled as an internal error. -/
def lit_collector_visit_or (ctx : Ctx)
    (v : Nat → Collector → VRes Nat × Collector)
    (t : Nat) (args : List Nat) (c : Collector) : VRes Nat × Collector :=
  vbind (term_is_true_in_model ctx t c) fun b c =>
    if b then
      vbind (findTrueArg ctx args c) fun oa c =>
        match oa with
        | some a => v a c
        | none => (.fail .internal, c)
    else
      visitFold v args false_term c

/-- The xor loop: b accumulates the parity of the children that reduce to
true_term. -/
def visitXorFold (v : Nat → Collector → VRes Nat × Collector) :
    List Nat → Bool → Collector → VRes Nat × Collector
  | [], b, c => (.ok (bool2term b), c)
  | a :: rest, b, c =>
    vbind (v a c) fun u c =>
      visitXorFold v rest (xor b (u = true_term)) c

/-- lit_collector_visit_xor. -/
def lit_collector_visit_xor
    (v : Nat → Collector → VRes Nat × Collector)
    (args : List Nat) (c : Collector) : VRes Nat × Collector :=
  visitXorFold v args false c

/-- lit_collector_visit_select: visit the argument, rebuild if it changed,
register as atom when boolean. -/
def lit_collector_visit_select (ctx : Ctx)
    (v : Nat → Collector → VRes Nat × Collector)
    (t : Nat) (idx : Nat) (u : Nat) (c : Collector) :
    VRes Nat × Collector :=
  vbind (v u c) fun w c =>
    let t := if w ≠ u then ctx.mkSelect idx w else t
    if ctx.isBool (index_of t) then register_atom ctx t c else (.ok t, c)

/-- lit_collector_visit_bit: visit the argument, rebuild if it changed,
always register (a bit-extract is a boolean atom). -/
def lit_collector_visit_bit (ctx : Ctx)
    (v : Nat → Collector → VRes Nat × Collector)
    (t : Nat) (idx : Nat) (u : Nat) (c : Collector) :
    VRes Nat × Collector :=
  vbind (v u c) fun w c =>
    register_atom ctx (if w ≠ u then ctx.mkBitextract w idx else t) c

/-- lit_collector_visit_pprod: visit every variable of the power product,
rebuild if any changed. -/
def lit_collector_visit_pprod (ctx : Ctx)
    (v : Nat → Collector → VRes Nat × Collector)
    (t : Nat) (vars : List Nat) (c : Collector) : VRes Nat × Collector :=
  let c := pushFrame c vars.length
  vbind (visitArgs v vars c) fun a c =>
    (.ok (if a ≠ vars then ctx.mkPprod t a else t), popFrame c)

/-- Shared shape of the three polynomial visits: skip the constant monomial
(variable = const_idx, always first when present), visit the remaining
monomial variables, rebuild if any changed. -/
def visitPolyGeneric (mk : Nat → List Nat → Nat)
    (v : Nat → Collector → VRes Nat × Collector)
    (t : Nat) (vars : List Nat) (c : Collector) : VRes Nat × Collector :=
  let c := pushFrame c vars.length
  match vars with
  | [] => (.ok t, popFrame c)
  | v0 :: rest =>
    if v0 = const_idx then
      vbind (visitArgs v rest c) fun a c =>
        (.ok (if const_idx :: a ≠ vars then mk t (const_idx :: a) else t),
          popFrame c)
    else
      vbind (visitArgs v vars c) fun a c =>
        (.ok (if a ≠ vars then mk t a else t), popFrame c)

def lit_collector_visit_poly (ctx : Ctx)
    (v : Nat → Collector → VRes Nat × Collector)
    (t : Nat) (vars : List Nat) (c : Collector) : VRes Nat × Collector :=
  visitPolyGeneric ctx.mkArithPoly v t vars c

def lit_collector_visit_bvpoly64 (ctx : Ctx)
    (v : Nat → Collector → VRes Nat × Collector)
    (t : Nat) (vars : List Nat) (c : Collector) : VRes Nat × Collector :=
  visitPolyGeneric ctx.mkBvarith64Poly v t vars c

def lit_collector_visit_bvpoly (ctx : Ctx)
    (v : Nat → Collector → VRes Nat × Collector)
    (t : Nat) (vars : List Nat) (c : Collector) : VRes Nat × Collector :=
  visitPolyGeneric ctx.mkBvarithPoly v t vars c

/-! ## The core visitor -/

/-- The switch of lit_collector_visit: dispatch on the kind of the
(unsigned) term t. -/
def visitKind (ctx : Ctx) (v : Nat → Collector → VRes Nat × Collector)
    (t : Nat) (c : Collector) : VRes Nat × Collector :=
  match ctx.desc (index_of t) with
        | .constant => (.ok t, c)
        | .arithConst => (.ok t, c)
        | .bv64Const => (.ok t, c)
        | .bvConst => (.ok t, c)
        | .var => (.fail .freevar, c)
        | .uninterpreted =>
          if ctx.isBool (index_of t) then register_atom ctx t c
          else (.ok t, c)
        | .arithEq u => lit_collector_visit_eq_atom ctx v t u c
        | .arithGe u => lit_collector_visit_ge_atom ctx v t u c
        | .ite c1 a b => lit_collector_visit_ite v c1 a b c
        | .iteSpecial c1 a b => lit_collector_visit_ite v c1 a b c
        | .app args => lit_collector_visit_app ctx v t args c
        | .update args => lit_collector_visit_update ctx v t args c
        | .tuple args => lit_collector_visit_tuple ctx v t args c
        | .eq a b => lit_collector_visit_eq ctx v t a b c
        | .distinct args => lit_collector_visit_distinct ctx v t args c
        | .forallT => (.fail .quantifier, c)
        | .lambdaT => (.fail .lambdaErr, c)
        | .or args => lit_collector_visit_or ctx v t args c
        | .xor args => lit_collector_visit_xor v args c
        | .arithBineq a b => lit_collector_visit_arith_bineq ctx v t a b c
        | .bvArray args =>
          -- mk_bvarray is applied unconditionally in the source
          let c := pushFrame c args.length
          vbind (visitArgs v args c) fun a c =>
            (.ok (ctx.mkBvarray a), popFrame c)
        | .bvDiv a b => lit_collector_visit_bvdiv ctx v t a b c
        | .bvRem a b => lit_collector_visit_bvrem ctx v t a b c
        | .bvSdiv a b => lit_collector_visit_bvsdiv ctx v t a b c
        | .bvSrem a b => lit_collector_visit_bvsrem ctx v t a b c
        | .bvSmod a b => lit_collector_visit_bvsmod ctx v t a b c
        | .bvShl a b => lit_collector_visit_bvshl ctx v t a b c
        | .bvLshr a b => lit_collector_visit_bvlshr ctx v t a b c
        | .bvAshr a b => lit_collector_visit_bvashr ctx v t a b c
        | .bvEq a b => lit_collector_visit_bveq ctx v t a b c
        | .bvGe a b => lit_collector_visit_bvge ctx v t a b c
        | .bvSge a b => lit_collector_visit_bvsge ctx v t a b c
        | .select i u => lit_collector_visit_select ctx v t i u c
        | .bit i u => lit_collector_visit_bit ctx v t i u c
        | .powProd vars => lit_collector_visit_pprod ctx v t vars c
        | .arithPoly vars => lit_collector_visit_poly ctx v t vars c
        | .bvPoly64 vars => lit_collector_visit_bvpoly64 ctx v t vars c
        | .bvPoly vars => lit_collector_visit_bvpoly ctx v t vars c
        | .unused => (.fail .internal, c)
        | .reserved => (.fail .internal, c)

/-- lit_collector_visit: strip the polarity, consult the cache on the
unsigned form, otherwise dispatch on the term kind, cache the result for
the unsigned form, and re-apply the polarity by xor. -/
def lit_collector_visit (ctx : Ctx) :
    Nat → Nat → Collector → VRes Nat × Collector
  | 0, _, c => (.out, c)
  | fuel + 1, t0, c =>
    let p := polarity_of t0
    let t := unsigned_term t0
    match lit_collector_find_cached_term c t with
    | some u => (.ok (u ^^^ p), c)
    | none =>
      match visitKind ctx (lit_collector_visit ctx fuel) t c with
      | (.ok u, c) => (.ok (u ^^^ p), lit_collector_cache_result c t u)
      | other => other

/-! ## Orchestrator -/

/-- lit_collector_process: install the failure sink (setjmp); on failure
reset the scratch stack and return the error code, on success return the
visit result. -/
def lit_collector_process (ctx : Ctx) (fuel : Nat) (t : Nat)
    (c : Collector) : VRes Nat × Collector :=
  match lit_collector_visit ctx fuel t c with
  | (.fail e, c) => (.fail e, { c with stack := [] })
  | r => r

/-- The assertion loop of get_implicants: process each formula in order,
stopping at the first negative return (the u == true_term assert is
compiled out, so any non-error result continues the loop). -/
def processAll (ctx : Ctx) (fuel : Nat) :
    List Nat → Collector → VRes Unit × Collector
  | [], c => (.ok (), c)
  | a :: rest, c =>
    match lit_collector_process ctx fuel a c with
    | (.ok _, c) => processAll ctx fuel rest c
    | (.fail e, c) => (.fail e, c)
    | (.out, c) => (.out, c)

/-- get_implicants: initialize a fresh collector, process every assertion,
and on success push the elements of lit_set onto the output vector; on
failure return the error code with the vector untouched.  none reports fuel
exhaustion. -/
def get_implicants (ctx : Ctx) (fuel : Nat) (a : List Nat)
    (v : List Nat) : Option (Int × List Nat) :=
  match processAll ctx fuel a init_lit_collector with
  | (.ok _, c) => some (0, v ++ c.lit_set)
  | (.fail e, _) => some (errCode e, v)
  | (.out, _) => none

/-! ## Semantic side conditions

The collaborators (term table, model evaluator, term manager) are opaque
functions; the correctness claims hold under the natural coherence
conditions relating them, collected in SemOK below. -/

/-- Truth of a term in the model: eval_in_model followed by is_true. -/
def evalB (ctx : Ctx) (t : Nat) : Option Bool :=
  (ctx.evalT t).map ctx.isTrue

/-- A boolean visit result: one of the two boolean constants. -/
def BoolRes (u : Nat) : Prop := u = true_term ∨ u = false_term

/-- Postcondition of a visit: the result evaluates like the input, and is a
boolean constant whenever the input is boolean. -/
def ResOK (ctx : Ctx) (t u : Nat) : Prop :=
  ctx.evalT u = ctx.evalT t ∧
  (ctx.isBool (index_of t) = true → BoolRes u)

/-- A well-formed term handle: negative polarity only on boolean terms. -/
def GoodT (ctx : Ctx) (t : Nat) : Prop :=
  polarity_of t = 0 ∨ ctx.isBool (index_of t) = true

/-- Every cache entry satisfies the visit postcondition. -/
def CacheOK (ctx : Ctx) (c : Collector) : Prop :=
  ∀ p ∈ c.cache, ResOK ctx p.1 p.2

/-- Every collected literal is true in the model and is not true_term. -/
def LitOK (ctx : Ctx) (c : Collector) : Prop :=
  ∀ l ∈ c.lit_set, evalB ctx l = some true ∧ l ≠ true_term

/-- The collector invariant. -/
def InvOK (ctx : Ctx) (c : Collector) : Prop :=
  CacheOK ctx c ∧ LitOK ctx c

/-- The children a visit recurses into (for polynomials the leading
constant monomial is skipped). -/
def childrenOf : TermDesc → List Nat
  | .arithEq u => [u]
  | .arithGe u => [u]
  | .ite c a b => [c, a, b]
  | .iteSpecial c a b => [c, a, b]
  | .app args => args
  | .update args => args
  | .tuple args => args
  | .eq a b => [a, b]
  | .distinct args => args
  | .or args => args
  | .xor args => args
  | .arithBineq a b => [a, b]
  | .bvArray args => args
  | .bvDiv a b => [a, b]
  | .bvRem a b => [a, b]
  | .bvSdiv a b => [a, b]
  | .bvSrem a b => [a, b]
  | .bvSmod a b => [a, b]
  | .bvShl a b => [a, b]
  | .bvLshr a b => [a, b]
  | .bvAshr a b => [a, b]
  | .bvEq a b => [a, b]
  | .bvGe a b => [a, b]
  | .bvSge a b => [a, b]
  | .select _ u => [u]
  | .bit _ u => [u]
  | .powProd vars => vars
  | .arithPoly vars =>
    (match vars with
     | v0 :: rest => if v0 = const_idx then rest else vars
     | [] => [])
  | .bvPoly64 vars =>
    (match vars with
     | v0 :: rest => if v0 = const_idx then rest else vars
     | [] => [])
  | .bvPoly vars =>
    (match vars with
     | v0 :: rest => if v0 = const_idx then rest else vars
     | [] => [])
  | _ => []

/-- The sort the table must assign to a term of the given kind, when it is
determined by the kind: boolean for the atoms, non-boolean for the
value-producing composites, unconstrained otherwise. -/
def boolOut : TermDesc → Option Bool
  | .arithConst => some false
  | .bv64Const => some false
  | .bvConst => some false
  | .update _ => some false
  | .tuple _ => some false
  | .bvArray _ => some false
  | .bvDiv _ _ => some false
  | .bvRem _ _ => some false
  | .bvSdiv _ _ => some false
  | .bvSrem _ _ => some false
  | .bvSmod _ _ => some false
  | .bvShl _ _ => some false
  | .bvLshr _ _ => some false
  | .bvAshr _ _ => some false
  | .powProd _ => some false
  | .arithPoly _ => some false
  | .bvPoly64 _ => some false
  | .bvPoly _ => some false
  | .arithEq _ => some true
  | .arithGe _ => some true
  | .eq _ _ => some true
  | .distinct _ => some true
  | .or _ => some true
  | .xor _ => some true
  | .arithBineq _ _ => some true
  | .bvEq _ _ => some true
  | .bvGe _ _ => some true
  | .bvSge _ _ => some true
  | .bit _ _ => some true
  | _ => none

/-- Well-sortedness of the table at index i: children carry a polarity only
when boolean, kinds with a determined sort have it, the only boolean
constant is the distinguished one at index 1, ite conditions are boolean
and a boolean ite has boolean branches, or/xor arguments are boolean. -/
def sortWFAt (ctx : Ctx) (i : Nat) : Prop :=
  (∀ a ∈ childrenOf (ctx.desc i), GoodT ctx a) ∧
  (match boolOut (ctx.desc i) with
   | some b => ctx.isBool i = b
   | none => True) ∧
  (match ctx.desc i with
   | .constant => ctx.isBool i = true → i = 1
   | .ite c a b =>
     ctx.isBool (index_of c) = true ∧
     (ctx.isBool i = true →
       ctx.isBool (index_of a) = true ∧ ctx.isBool (index_of b) = true)
   | .iteSpecial c a b =>
     ctx.isBool (index_of c) = true ∧
     (ctx.isBool i = true →
       ctx.isBool (index_of a) = true ∧ ctx.isBool (index_of b) = true)
   | .or args => ∀ a ∈ args, ctx.isBool (index_of a) = true
   | .xor args => ∀ a ∈ args, ctx.isBool (index_of a) = true
   | _ => True)

/-- Pointwise model-equality of two child arrays. -/
def EvalListEq (ctx : Ctx) : List Nat → List Nat → Prop :=
  List.Forall₂ (fun x y => ctx.evalT x = ctx.evalT y)

/-- Coherence of the model evaluator with the term table and the term
manager at index i (the unsigned term of index i is 2*i): a constructor
applied to children that evaluate like the children of the term yields a
term that evaluates like the term (and has the expected sort), the model
evaluates an ite like its selected branch, a false disjunction has only
false disjuncts and a true one has a true disjunct, and an xor evaluates
to the parity of its arguments. -/
def evalCohAt (ctx : Ctx) (i : Nat) : Prop :=
  match ctx.desc i with
  | .arithEq u => ∀ w, ctx.evalT w = ctx.evalT u →
      evalB ctx (ctx.mkArithEq0 w) = evalB ctx (2 * i) ∧
      ctx.isBool (index_of (ctx.mkArithEq0 w)) = true
  | .arithGe u => ∀ w, ctx.evalT w = ctx.evalT u →
      evalB ctx (ctx.mkArithGeq0 w) = evalB ctx (2 * i) ∧
      ctx.isBool (index_of (ctx.mkArithGeq0 w)) = true
  | .ite c a b =>
      (evalB ctx c = some true → ctx.evalT (2 * i) = ctx.evalT a) ∧
      (evalB ctx c = some false → ctx.evalT (2 * i) = ctx.evalT b)
  | .iteSpecial c a b =>
      (evalB ctx c = some true → ctx.evalT (2 * i) = ctx.evalT a) ∧
      (evalB ctx c = some false → ctx.evalT (2 * i) = ctx.evalT b)
  | .app args => ∀ as, EvalListEq ctx as args →
      ctx.evalT (ctx.mkApp as) = ctx.evalT (2 * i) ∧
      ctx.isBool (index_of (ctx.mkApp as)) = ctx.isBool i
  | .update args => ∀ as, EvalListEq ctx as args →
      ctx.evalT (ctx.mkUpdate as) = ctx.evalT (2 * i)
  | .tuple args => ∀ as, EvalListEq ctx as args →
      ctx.evalT (ctx.mkTuple as) = ctx.evalT (2 * i)
  | .eq a b => ∀ x y, ctx.evalT x = ctx.evalT a → ctx.evalT y = ctx.evalT b →
      evalB ctx (ctx.mkEq x y) = evalB ctx (2 * i) ∧
      ctx.isBool (index_of (ctx.mkEq x y)) = true
  | .distinct args => ∀ as, EvalListEq ctx as args →
      evalB ctx (ctx.mkDistinct as) = evalB ctx (2 * i) ∧
      ctx.isBool (index_of (ctx.mkDistinct as)) = true
  | .or args =>
      (evalB ctx (2 * i) = some false → ∀ a ∈ args, evalB ctx a = some false) ∧
      (evalB ctx (2 * i) = some true → ∃ a ∈ args, evalB ctx a = some true)
  | .xor args => ∀ bs, List.Forall₂ (fun a b => evalB ctx a = some b) args bs →
      evalB ctx (2 * i) = some (bs.foldl xor false)
  | .arithBineq a b => ∀ x y, ctx.evalT x = ctx.evalT a → ctx.evalT y = ctx.evalT b →
      evalB ctx (ctx.mkArithEq x y) = evalB ctx (2 * i) ∧
      ctx.isBool (index_of (ctx.mkArithEq x y)) = true
  | .bvArray args => ∀ as, EvalListEq ctx as args →
      ctx.evalT (ctx.mkBvarray as) = ctx.evalT (2 * i)
  | .bvDiv a b => ∀ x y, ctx.evalT x = ctx.evalT a → ctx.evalT y = ctx.evalT b →
      ctx.evalT (ctx.mkBvdiv x y) = ctx.evalT (2 * i)
  | .bvRem a b => ∀ x y, ctx.evalT x = ctx.evalT a → ctx.evalT y = ctx.evalT b →
      ctx.evalT (ctx.mkBvrem x y) = ctx.evalT (2 * i)
  | .bvSdiv a b => ∀ x y, ctx.evalT x = ctx.evalT a → ctx.evalT y = ctx.evalT b →
      ctx.evalT (ctx.mkBvsdiv x y) = ctx.evalT (2 * i)
  | .bvSrem a b => ∀ x y, ctx.evalT x = ctx.evalT a → ctx.evalT y = ctx.evalT b →
      ctx.evalT (ctx.mkBvsrem x y) = ctx.evalT (2 * i)
  | .bvSmod a b => ∀ x y, ctx.evalT x = ctx.evalT a → ctx.evalT y = ctx.evalT b →
      ctx.evalT (ctx.mkBvsmod x y) = ctx.evalT (2 * i)
  | .bvShl a b => ∀ x y, ctx.evalT x = ctx.evalT a → ctx.evalT y = ctx.evalT b →
      ctx.evalT (ctx.mkBvshl x y) = ctx.evalT (2 * i)
  | .bvLshr a b => ∀ x y, ctx.evalT x = ctx.evalT a → ctx.evalT y = ctx.evalT b →
      ctx.evalT (ctx.mkBvlshr x y) = ctx.evalT (2 * i)
  | .bvAshr a b => ∀ x y, ctx.evalT x = ctx.evalT a → ctx.evalT y = ctx.evalT b →
      ctx.evalT (ctx.mkBvashr x y) = ctx.evalT (2 * i)
  | .bvEq a b => ∀ x y, ctx.evalT x = ctx.evalT a → ctx.evalT y = ctx.evalT b →
      evalB ctx (ctx.mkBveq x y) = evalB ctx (2 * i) ∧
      ctx.isBool (index_of (ctx.mkBveq x y)) = true
  | .bvGe a b => ∀ x y, ctx.evalT x = ctx.evalT a → ctx.evalT y = ctx.evalT b →
      evalB ctx (ctx.mkBvge x y) = evalB ctx (2 * i) ∧
      ctx.isBool (index_of (ctx.mkBvge x y)) = true
  | .bvSge a b => ∀ x y, ctx.evalT x = ctx.evalT a → ctx.evalT y = ctx.evalT b →
      evalB ctx (ctx.mkBvsge x y) = evalB ctx (2 * i) ∧
      ctx.isBool (index_of (ctx.mkBvsge x y)) = true
  | .select k u => ∀ w, ctx.evalT w = ctx.evalT u →
      ctx.evalT (ctx.mkSelect k w) = ctx.evalT (2 * i) ∧
      ctx.isBool (index_of (ctx.mkSelect k w)) = ctx.isBool i
  | .bit k u => ∀ w, ctx.evalT w = ctx.evalT u →
      evalB ctx (ctx.mkBitextract w k) = evalB ctx (2 * i) ∧
      ctx.isBool (index_of (ctx.mkBitextract w k)) = true
  | .powProd vars => ∀ as, EvalListEq ctx as vars →
      ctx.evalT (ctx.mkPprod (2 * i) as) = ctx.evalT (2 * i)
  | .arithPoly vars => ∀ as, EvalListEq ctx as vars →
      ctx.evalT (ctx.mkArithPoly (2 * i) as) = ctx.evalT (2 * i)
  | .bvPoly64 vars => ∀ as, EvalListEq ctx as vars →
      ctx.evalT (ctx.mkBvarith64Poly (2 * i) as) = ctx.evalT (2 * i)
  | .bvPoly vars => ∀ as, EvalListEq ctx as vars →
      ctx.evalT (ctx.mkBvarithPoly (2 * i) as) = ctx.evalT (2 * i)
  | _ => True

/-- The coherence bundle: the boolean constant is at index 1 with TRUE
evaluating true and FALSE false, boolean value handles are canonical,
negation flips evaluation of boolean terms, and the table is well-sorted
and evaluator/manager coherent at every index. -/
structure SemOK (ctx : Ctx) : Prop where
  descOne : ctx.desc 1 = TermDesc.constant
  isBoolOne : ctx.isBool 1 = true
  evalTrue : evalB ctx true_term = some true
  evalFalse : evalB ctx false_term = some false
  boolCanon : ∀ t, ctx.isBool (index_of t) = true → ctx.evalT t ≠ none →
      ctx.evalT t = ctx.evalT true_term ∨ ctx.evalT t = ctx.evalT false_term
  evalNeg : ∀ t, ctx.isBool (index_of t) = true →
      evalB ctx (opposite_term t) = Option.map not (evalB ctx t)
  wf : ∀ i, sortWFAt ctx i
  coh : ∀ i, evalCohAt ctx i

/-- Syntactic admissibility below a bound n, for totality: every index in
[1, n) has a kind the visitor supports, its visited children lie in
[1, i) (hash-consing builds children before parents), and boolean terms of
both polarities are evaluable. -/
def OKBelow (ctx : Ctx) (n : Nat) : Prop :=
  ∀ i, 1 ≤ i → i < n →
    (match ctx.desc i with
     | .var | .forallT | .lambdaT | .unused | .reserved => False
     | _ => True) ∧
    (∀ a ∈ childrenOf (ctx.desc i), 1 ≤ index_of a ∧ index_of a < i) ∧
    (ctx.isBool i = true →
      ctx.evalT (2 * i) ≠ none ∧ ctx.evalT (2 * i + 1) ≠ none)

/-- State extension: the cache and the literal set only grow. -/
def CExt (c c' : Collector) : Prop :=
  (∃ l, c'.cache = l ++ c.cache) ∧ (∃ l, c'.lit_set = c.lit_set ++ l)

/-- Induction hypothesis for the recursive visit: it preserves the
collector invariant and its results satisfy the visit postcondition. -/
def VIH (ctx : Ctx) (v : Nat → Collector → VRes Nat × Collector) : Prop :=
  ∀ t c, InvOK ctx c →
    InvOK ctx (v t c).2 ∧
    ∀ u, (v t c).1 = VRes.ok u → GoodT ctx t → ResOK ctx t u

/-- Totality hypothesis for the recursive visit: on terms of index below
the bound it succeeds. -/
def VTot (ctx : Ctx) (v : Nat → Collector → VRes Nat × Collector)
    (bound : Nat) : Prop :=
  ∀ a c, InvOK ctx c → 1 ≤ index_of a → index_of a < bound →
    ∃ u c', v a c = (VRes.ok u, c')

/-! ## A concrete instance

A small term table used to exercise the theorems on closed inputs:
p, q boolean and x, y integer uninterpreted terms, with model
p = true, q = false; a tuple of arity 2 and an equality over it; the
disjunctions (or p q) and (or q q); the if-then-else (ite p x y).
Value handles: 1 is the true value, 0 the false value, 5/6/7 others. -/

def descW : Nat → TermDesc
  | 1 => .constant          -- the boolean constant
  | 2 => .uninterpreted     -- p : Bool, true in the model
  | 3 => .uninterpreted     -- q : Bool, false in the model
  | 4 => .uninterpreted     -- x : Int
  | 5 => .uninterpreted     -- y : Int
  | 6 => .tuple [8, 10]     -- (tuple x y), arity 2
  | 7 => .eq 12 12          -- (eq (tuple x y) (tuple x y))
  | 8 => .or [4, 6]         -- (or p q)
  | 9 => .ite 4 8 10        -- (ite p x y)
  | 10 => .or [6, 6]        -- (or q q)
  | _ => .reserved

def isBoolW : Nat → Bool
  | 1 | 2 | 3 | 7 | 8 | 10 => true
  | _ => false

def evalW : Nat → Option Nat
  | 2 => some 1 | 3 => some 0
  | 4 => some 1 | 5 => some 0
  | 6 => some 0 | 7 => some 1
  | 8 => some 5 | 10 => some 6
  | 12 => some 7
  | 14 => some 1 | 15 => some 0
  | 16 => some 1 | 17 => some 0
  | 18 => some 5
  | 20 => some 0 | 21 => some 1
  | _ => none

/-- The constructors return the canonical representative already in the
table for the kinds it contains (hash-consing); the other constructors are
never relevant here. -/
def ctxW : Ctx where
  desc := descW
  isBool := isBoolW
  evalT := evalW
  isTrue := fun v => v == 1
  mkArithEq0 := fun _ => 0
  mkArithGeq0 := fun _ => 0
  mkApp := fun _ => 0
  mkUpdate := fun _ => 0
  mkTuple := fun _ => 12
  mkEq := fun _ _ => 14
  mkDistinct := fun _ => 0
  mkArithEq := fun _ _ => 0
  mkBvarray := fun _ => 0
  mkBvdiv := fun _ _ => 0
  mkBvrem := fun _ _ => 0
  mkBvsdiv := fun _ _ => 0
  mkBvsrem := fun _ _ => 0
  mkBvsmod := fun _ _ => 0
  mkBvshl := fun _ _ => 0
  mkBvlshr := fun _ _ => 0
  mkBvashr := fun _ _ => 0
  mkBveq := fun _ _ => 0
  mkBvge := fun _ _ => 0
  mkBvsge := fun _ _ => 0
  mkSelect := fun _ _ => 0
  mkBitextract := fun _ _ => 0
  mkPprod := fun _ _ => 0
  mkArithPoly := fun _ _ => 0
  mkBvarith64Poly := fun _ _ => 0
  mkBvarithPoly := fun _ _ => 0

/-! # Theorems -/

/-! ## Nat handle arithmetic -/

theorem xor_one_eq (t : Nat) : t ^^^ 1 = 2 * (t / 2) + (1 - t % 2) := by
  apply Nat.eq_of_testBit_eq
  intro i
  cases i with
  | zero =>
    rw [Nat.testBit_xor]
    simp only [Nat.testBit_zero]
    have h2 : (2 * (t / 2) + (1 - t % 2)) % 2 = (1 - t % 2) % 2 := by omega
    rw [h2]
    rcases Nat.mod_two_eq_zero_or_one t with h | h <;> simp [h]
  | succ j =>
    rw [Nat.testBit_xor]
    have h1 : Nat.testBit 1 (j + 1) = false := by simp [Nat.testBit_succ]
    rw [h1, Nat.testBit_succ, Nat.testBit_succ]
    have h2 : (2 * (t / 2) + (1 - t % 2)) / 2 = t / 2 := by omega
    rw [h2]
    simp

theorem xor_one_xor_one (u : Nat) : u ^^^ 1 ^^^ 1 = u := by
  rw [Nat.xor_assoc, Nat.xor_self, Nat.xor_zero]

theorem polarity_lt (t : Nat) : polarity_of t < 2 :=
  Nat.mod_lt _ (by omega)

theorem unsigned_polarity (t : Nat) : polarity_of (unsigned_term t) = 0 := by
  unfold polarity_of unsigned_term
  omega

theorem unsigned_eq_self {t : Nat} (h : polarity_of t = 0) :
    unsigned_term t = t := by
  unfold polarity_of at h
  unfold unsigned_term
  omega

theorem index_unsigned (t : Nat) : index_of (unsigned_term t) = index_of t := by
  unfold index_of unsigned_term
  omega

theorem unsigned_xor_polarity (t : Nat) :
    unsigned_term t ^^^ polarity_of t = t := by
  unfold unsigned_term polarity_of
  rcases Nat.mod_two_eq_zero_or_one t with h | h
  · simp [h]
  · rw [h, xor_one_eq]
    omega

theorem opposite_eq (t : Nat) :
    opposite_term t = if t % 2 = 0 then t + 1 else t - 1 := by
  unfold opposite_term
  rw [xor_one_eq]
  split <;> omega

theorem index_opposite (t : Nat) :
    index_of (opposite_term t) = index_of t := by
  rw [opposite_eq]
  unfold index_of
  split <;> omega

theorem polarity_opposite (t : Nat) :
    polarity_of (opposite_term t) = 1 - polarity_of t := by
  rw [opposite_eq]
  unfold polarity_of
  split <;> omega

theorem unsigned_opposite (t : Nat) :
    unsigned_term (opposite_term t) = unsigned_term t := by
  rw [opposite_eq]
  unfold unsigned_term
  split <;> omega

theorem two_mul_index {t : Nat} (h : polarity_of t = 0) :
    2 * index_of t = t := by
  unfold polarity_of at h
  unfold index_of
  omega

theorem opposite_of_unsigned {t : Nat} (h : polarity_of t = 1) :
    opposite_term (unsigned_term t) = t := by
  rw [opposite_eq]
  unfold polarity_of at h
  unfold unsigned_term
  split <;> omega

theorem opposite_true_term : opposite_term true_term = false_term := by decide

theorem opposite_false_term : opposite_term false_term = true_term := by decide

theorem opposite_ne_self (t : Nat) : opposite_term t ≠ t := by
  rw [opposite_eq]
  split <;> omega

/-! ## Container lemmas -/

theorem assocFind_mem {l : List (Nat × Nat)} {t u : Nat}
    (h : assocFind l t = some u) : (t, u) ∈ l := by
  induction l with
  | nil => simp [assocFind] at h
  | cons p rest ih =>
    rw [assocFind] at h
    split at h
    · rename_i heq
      obtain ⟨p1, p2⟩ := p
      simp_all
    · exact List.mem_cons_of_mem _ (ih h)

theorem assocFind_cons_self (l : List (Nat × Nat)) (t u : Nat) :
    assocFind ((t, u) :: l) t = some u := by
  simp [assocFind]

theorem hsetAdd_mem {l : List Nat} {t x : Nat} (h : x ∈ hsetAdd l t) :
    x ∈ l ∨ x = t := by
  unfold hsetAdd at h
  split at h
  · exact Or.inl h
  · rcases List.mem_append.mp h with h | h
    · exact Or.inl h
    · simp at h
      exact Or.inr h

theorem hsetAdd_append (l : List Nat) (t : Nat) :
    ∃ l2, hsetAdd l t = l ++ l2 := by
  unfold hsetAdd
  split
  · exact ⟨[], by simp⟩
  · exact ⟨[t], rfl⟩

/-! ## State extension -/

theorem CExt_refl (c : Collector) : CExt c c :=
  ⟨⟨[], rfl⟩, ⟨[], by simp⟩⟩

theorem CExt_trans {a b c : Collector} (h1 : CExt a b) (h2 : CExt b c) :
    CExt a c := by
  obtain ⟨⟨l1, e1⟩, ⟨m1, f1⟩⟩ := h1
  obtain ⟨⟨l2, e2⟩, ⟨m2, f2⟩⟩ := h2
  exact ⟨⟨l2 ++ l1, by rw [e2, e1, List.append_assoc]⟩,
         ⟨m1 ++ m2, by rw [f2, f1, List.append_assoc]⟩⟩

theorem CExt_cache_result (c : Collector) (t u : Nat) :
    CExt c (lit_collector_cache_result c t u) :=
  ⟨⟨[(t, u)], rfl⟩, ⟨[], by simp [lit_collector_cache_result]⟩⟩

theorem CExt_add_literal (c : Collector) (t : Nat) :
    CExt c (lit_collector_add_literal c t) := by
  unfold lit_collector_add_literal
  split
  · exact CExt_refl c
  · obtain ⟨l2, h⟩ := hsetAdd_append c.lit_set t
    exact ⟨⟨[], rfl⟩, ⟨l2, h⟩⟩

theorem CExt_pushFrame (c : Collector) (n : Nat) : CExt c (pushFrame c n) :=
  ⟨⟨[], rfl⟩, ⟨[], by simp [pushFrame]⟩⟩

theorem CExt_popFrame (c : Collector) : CExt c (popFrame c) :=
  ⟨⟨[], rfl⟩, ⟨[], by simp [popFrame]⟩⟩

theorem CExt_register_atom (ctx : Ctx) (t : Nat) (c : Collector) :
    CExt c (register_atom ctx t c).2 := by
  unfold register_atom term_is_true_in_model vbind
  cases ctx.evalT t with
  | none => exact CExt_refl c
  | some v =>
    simp only
    split
    · exact CExt_add_literal c t
    · exact CExt_add_literal c (opposite_term t)

theorem CExt_vbind {α β : Type} {c : Collector} {m : VRes α × Collector}
    {f : α → Collector → VRes β × Collector}
    (h1 : CExt c m.2) (h2 : ∀ a, CExt m.2 (f a m.2).2) :
    CExt c (vbind m f).2 := by
  obtain ⟨r, c'⟩ := m
  cases r with
  | ok a => exact CExt_trans h1 (h2 a)
  | fail e => exact h1
  | out => exact h1

theorem term_is_true_state (ctx : Ctx) (t : Nat) (c : Collector) :
    (term_is_true_in_model ctx t c).2 = c := by
  unfold term_is_true_in_model
  cases ctx.evalT t <;> rfl

theorem visitArgs_CExt {v : Nat → Collector → VRes Nat × Collector}
    (hv : ∀ t c, CExt c (v t c).2) :
    ∀ args c, CExt c (visitArgs v args c).2 := by
  intro args
  induction args with
  | nil => intro c; exact CExt_refl c
  | cons a rest ih =>
    intro c
    unfold visitArgs
    apply CExt_vbind (hv a c)
    intro u
    apply CExt_vbind (ih _)
    intro us
    exact CExt_refl _

theorem visitFold_CExt {v : Nat → Collector → VRes Nat × Collector}
    (hv : ∀ t c, CExt c (v t c).2) :
    ∀ args u c, CExt c (visitFold v args u c).2 := by
  intro args
  induction args with
  | nil => intro u c; exact CExt_refl c
  | cons a rest ih =>
    intro u c
    unfold visitFold
    apply CExt_vbind (hv a c)
    intro u'
    exact ih u' _

theorem visitXorFold_CExt {v : Nat → Collector → VRes Nat × Collector}
    (hv : ∀ t c, CExt c (v t c).2) :
    ∀ args b c, CExt c (visitXorFold v args b c).2 := by
  intro args
  induction args with
  | nil => intro b c; exact CExt_refl c
  | cons a rest ih =>
    intro b c
    unfold visitXorFold
    apply CExt_vbind (hv a c)
    intro u
    exact ih _ _

theorem findTrueArg_state (ctx : Ctx) :
    ∀ args c, (findTrueArg ctx args c).2 = c := by
  intro args
  induction args with
  | nil => intro c; rfl
  | cons a rest ih =>
    intro c
    unfold findTrueArg
    rcases he : term_is_true_in_model ctx a c with ⟨r, c1⟩
    have hc1 : c1 = c := by
      have hs := term_is_true_state ctx a c
      rw [he] at hs
      exact hs
    rw [hc1]
    cases r with
    | ok b =>
      simp only [vbind]
      split
      · rfl
      · exact ih c
    | fail e => rfl
    | out => rfl

theorem CExt_stack_irrelevant {c c' : Collector} (h : CExt c c')
    (s : List Nat) : CExt c { c' with stack := s } := by
  obtain ⟨⟨l1, e1⟩, ⟨l2, e2⟩⟩ := h
  exact ⟨⟨l1, e1⟩, ⟨l2, e2⟩⟩

theorem visitBinRebuild_CExt {mk : Nat → Nat → Nat}
    {v : Nat → Collector → VRes Nat × Collector}
    (hv : ∀ t c, CExt c (v t c).2) (t a b : Nat) (c : Collector) :
    CExt c (visitBinRebuild mk v t a b c).2 := by
  unfold visitBinRebuild
  apply CExt_vbind (hv a c)
  intro x
  apply CExt_vbind (hv b _)
  intro y
  exact CExt_refl _

theorem visitBinAtom_CExt {ctx : Ctx} {mk : Nat → Nat → Nat}
    {v : Nat → Collector → VRes Nat × Collector}
    (hv : ∀ t c, CExt c (v t c).2) (t a b : Nat) (c : Collector) :
    CExt c (visitBinAtom ctx mk v t a b c).2 := by
  unfold visitBinAtom
  apply CExt_vbind (hv a c)
  intro x
  apply CExt_vbind (hv b _)
  intro y
  exact CExt_register_atom ctx _ _

theorem visitPolyGeneric_CExt {mk : Nat → List Nat → Nat}
    {v : Nat → Collector → VRes Nat × Collector}
    (hv : ∀ t c, CExt c (v t c).2) (t : Nat) (vars : List Nat)
    (c : Collector) : CExt c (visitPolyGeneric mk v t vars c).2 := by
  unfold visitPolyGeneric
  cases vars with
  | nil => exact CExt_stack_irrelevant (CExt_refl c) _
  | cons v0 rest =>
    simp only
    split
    · apply CExt_vbind
        (CExt_trans (CExt_pushFrame c _) (visitArgs_CExt hv rest _))
      intro a
      exact CExt_popFrame _
    · apply CExt_vbind
        (CExt_trans (CExt_pushFrame c _) (visitArgs_CExt hv (v0 :: rest) _))
      intro a
      exact CExt_popFrame _

theorem visitKind_CExt {ctx : Ctx} {v : Nat → Collector → VRes Nat × Collector}
    (hv : ∀ t c, CExt c (v t c).2) (t : Nat) (c : Collector) :
    CExt c (visitKind ctx v t c).2 := by
  unfold visitKind
  cases hd : ctx.desc (index_of t) with
  | constant => exact CExt_refl c
  | arithConst => exact CExt_refl c
  | bv64Const => exact CExt_refl c
  | bvConst => exact CExt_refl c
  | var => exact CExt_refl c
  | uninterpreted =>
    simp only
    split
    · exact CExt_register_atom ctx t c
    · exact CExt_refl c
  | arithEq u =>
    unfold lit_collector_visit_eq_atom
    apply CExt_vbind (hv u c)
    intro w
    exact CExt_register_atom ctx _ _
  | arithGe u =>
    unfold lit_collector_visit_ge_atom
    apply CExt_vbind (hv u c)
    intro w
    exact CExt_register_atom ctx _ _
  | ite c1 a b =>
    unfold lit_collector_visit_ite
    apply CExt_vbind (hv c1 c)
    intro w
    exact hv _ _
  | iteSpecial c1 a b =>
    unfold lit_collector_visit_ite
    apply CExt_vbind (hv c1 c)
    intro w
    exact hv _ _
  | app args =>
    unfold lit_collector_visit_app
    apply CExt_vbind
      (CExt_trans (CExt_pushFrame c _) (visitArgs_CExt hv args _))
    intro a
    simp only
    split <;> split
    · apply CExt_vbind (CExt_register_atom ctx _ _)
      intro u
      exact CExt_popFrame _
    · exact CExt_popFrame _
    · apply CExt_vbind (CExt_register_atom ctx _ _)
      intro u
      exact CExt_popFrame _
    · exact CExt_popFrame _
  | update args =>
    unfold lit_collector_visit_update
    apply CExt_vbind
      (CExt_trans (CExt_pushFrame c _) (visitArgs_CExt hv args _))
    intro a
    exact CExt_popFrame _
  | tuple args =>
    unfold lit_collector_visit_tuple
    apply CExt_vbind
      (CExt_trans (CExt_pushFrame c _) (visitArgs_CExt hv args _))
    intro a
    exact CExt_popFrame _
  | eq a b => exact visitBinAtom_CExt hv t a b c
  | distinct args =>
    unfold lit_collector_visit_distinct
    apply CExt_vbind
      (CExt_trans (CExt_pushFrame c _) (visitArgs_CExt hv args _))
    intro a
    apply CExt_vbind (CExt_register_atom ctx _ _)
    intro u
    exact CExt_popFrame _
  | forallT => exact CExt_refl c
  | lambdaT => exact CExt_refl c
  | or args =>
    unfold lit_collector_visit_or
    rcases he : term_is_true_in_model ctx t c with ⟨r, c1⟩
    have hc1 : c1 = c := by
      have hs := term_is_true_state ctx t c
      rw [he] at hs
      exact hs
    rw [hc1]
    cases r with
    | ok b =>
      simp only [vbind]
      split
      · rcases hf : findTrueArg ctx args c with ⟨r2, c2⟩
        have hc2 : c2 = c := by
          have hs := findTrueArg_state ctx args c
          rw [hf] at hs
          exact hs
        rw [hc2]
        cases r2 with
        | ok oa =>
          simp only [vbind]
          cases oa with
          | some a => exact hv a c
          | none => exact CExt_refl c
        | fail e => exact CExt_refl c
        | out => exact CExt_refl c
      · exact visitFold_CExt hv args false_term c
    | fail e => exact CExt_refl c
    | out => exact CExt_refl c
  | xor args => exact visitXorFold_CExt hv args false c
  | arithBineq a b => exact visitBinAtom_CExt hv t a b c
  | bvArray args =>
    apply CExt_vbind
      (CExt_trans (CExt_pushFrame c _) (visitArgs_CExt hv args _))
    intro a
    exact CExt_popFrame _
  | bvDiv a b => exact visitBinRebuild_CExt hv t a b c
  | bvRem a b => exact visitBinRebuild_CExt hv t a b c
  | bvSdiv a b => exact visitBinRebuild_CExt hv t a b c
  | bvSrem a b => exact visitBinRebuild_CExt hv t a b c
  | bvSmod a b => exact visitBinRebuild_CExt hv t a b c
  | bvShl a b => exact visitBinRebuild_CExt hv t a b c
  | bvLshr a b => exact visitBinRebuild_CExt hv t a b c
  | bvAshr a b => exact visitBinRebuild_CExt hv t a b c
  | bvEq a b => exact visitBinAtom_CExt hv t a b c
  | bvGe a b => exact visitBinAtom_CExt hv t a b c
  | bvSge a b => exact visitBinAtom_CExt hv t a b c
  | select i u =>
    unfold lit_collector_visit_select
    apply CExt_vbind (hv u c)
    intro w
    simp only
    split <;> split
    · exact CExt_register_atom ctx _ _
    · exact CExt_refl _
    · exact CExt_register_atom ctx _ _
    · exact CExt_refl _
  | bit i u =>
    unfold lit_collector_visit_bit
    apply CExt_vbind (hv u c)
    intro w
    exact CExt_register_atom ctx _ _
  | powProd vars =>
    unfold lit_collector_visit_pprod
    apply CExt_vbind
      (CExt_trans (CExt_pushFrame c _) (visitArgs_CExt hv vars _))
    intro a
    exact CExt_popFrame _
  | arithPoly vars => exact visitPolyGeneric_CExt hv t vars c
  | bvPoly64 vars => exact visitPolyGeneric_CExt hv t vars c
  | bvPoly vars => exact visitPolyGeneric_CExt hv t vars c
  | unused => exact CExt_refl c
  | reserved => exact CExt_refl c

/-- The visitor only extends the cache and the literal set. -/
theorem visit_CExt (ctx : Ctx) :
    ∀ fuel t c, CExt c (lit_collector_visit ctx fuel t c).2 := by
  intro fuel
  induction fuel with
  | zero => intro t c; exact CExt_refl c
  | succ fuel ih =>
    intro t c
    unfold lit_collector_visit
    simp only
    cases lit_collector_find_cached_term c (unsigned_term t) with
    | some u => exact CExt_refl c
    | none =>
      simp only
      rcases hk : visitKind ctx (lit_collector_visit ctx fuel)
          (unsigned_term t) c with ⟨r, c2⟩
      have hx : CExt c c2 := by
        have := @visitKind_CExt ctx (lit_collector_visit ctx fuel) ih (unsigned_term t) c
        rw [hk] at this
        exact this
      cases r with
      | ok u => exact CExt_trans hx (CExt_cache_result c2 _ u)
      | fail e => exact hx
      | out => exact hx

/-! ## Soundness: auxiliary semantic lemmas -/

theorem evalB_congr {ctx : Ctx} {u t : Nat} (h : ctx.evalT u = ctx.evalT t) :
    evalB ctx u = evalB ctx t := by
  unfold evalB
  rw [h]

theorem evalB_none_iff {ctx : Ctx} {t : Nat} :
    evalB ctx t = none ↔ ctx.evalT t = none := by
  unfold evalB
  cases ctx.evalT t <;> simp

theorem index_true_term : index_of true_term = 1 := by decide

theorem index_false_term : index_of false_term = 1 := by decide

theorem evalB_bool2term {ctx : Ctx} (hS : SemOK ctx) (b : Bool) :
    evalB ctx (bool2term b) = some b := by
  cases b
  · exact hS.evalFalse
  · exact hS.evalTrue

theorem isBool_bool2term {ctx : Ctx} (hS : SemOK ctx) (b : Bool) :
    ctx.isBool (index_of (bool2term b)) = true := by
  cases b <;> simp [bool2term, index_true_term, index_false_term, hS.isBoolOne]

theorem evalT_eq_of_evalB_eq {ctx : Ctx} {t u : Nat} (hS : SemOK ctx)
    (hbt : ctx.isBool (index_of t) = true)
    (hbu : ctx.isBool (index_of u) = true)
    (h : evalB ctx u = evalB ctx t) (hne : evalB ctx t ≠ none) :
    ctx.evalT u = ctx.evalT t := by
  have hnet : ctx.evalT t ≠ none := fun hh => hne (evalB_none_iff.mpr hh)
  have hneu : ctx.evalT u ≠ none := by
    intro hh
    rw [evalB_none_iff.mpr hh] at h
    exact hne h.symm
  have hTF : evalB ctx true_term ≠ evalB ctx false_term := by
    rw [hS.evalTrue, hS.evalFalse]
    simp
  rcases hS.boolCanon t hbt hnet with ht | ht <;>
    rcases hS.boolCanon u hbu hneu with hu | hu
  · rw [ht, hu]
  · exfalso
    rw [evalB_congr ht, evalB_congr hu] at h
    exact hTF h.symm
  · exfalso
    rw [evalB_congr ht, evalB_congr hu] at h
    exact hTF h
  · rw [ht, hu]

theorem resok_of_bool2term {ctx : Ctx} {t : Nat} {b : Bool} (hS : SemOK ctx)
    (hb : ctx.isBool (index_of t) = true) (he : evalB ctx t = some b) :
    ResOK ctx t (bool2term b) := by
  constructor
  · apply evalT_eq_of_evalB_eq hS hb (isBool_bool2term hS b)
    · rw [evalB_bool2term hS, he]
    · rw [he]
      simp
  · intro _
    cases b
    · exact Or.inr rfl
    · exact Or.inl rfl

theorem resok_true_of {ctx : Ctx} {t u : Nat} (hS : SemOK ctx)
    (h : ResOK ctx t u) (hb : ctx.isBool (index_of t) = true)
    (he : evalB ctx t = some true) : u = true_term := by
  rcases h.2 hb with hu | hu
  · exact hu
  · exfalso
    have := evalB_congr h.1
    rw [hu, hS.evalFalse, he] at this
    simp at this

theorem resok_false_of {ctx : Ctx} {t u : Nat} (hS : SemOK ctx)
    (h : ResOK ctx t u) (hb : ctx.isBool (index_of t) = true)
    (he : evalB ctx t = some false) : u = false_term := by
  rcases h.2 hb with hu | hu
  · exfalso
    have := evalB_congr h.1
    rw [hu, hS.evalTrue, he] at this
    simp at this
  · exact hu

/-! ## Soundness of the state operations -/

theorem LitOK_add {ctx : Ctx} {c : Collector} {x : Nat} (hL : LitOK ctx c)
    (hx : evalB ctx x = some true) :
    LitOK ctx (lit_collector_add_literal c x) := by
  unfold lit_collector_add_literal
  split
  · exact hL
  · rename_i hne
    intro l hl
    rcases hsetAdd_mem hl with h | h
    · exact hL l h
    · subst h
      exact ⟨hx, hne⟩

theorem CacheOK_add_literal {ctx : Ctx} {c : Collector} (x : Nat)
    (hC : CacheOK ctx c) : CacheOK ctx (lit_collector_add_literal c x) := by
  unfold lit_collector_add_literal
  split
  · exact hC
  · exact hC

theorem InvOK_stack {ctx : Ctx} {c : Collector} (h : InvOK ctx c)
    (s : List Nat) : InvOK ctx { c with stack := s } := h

theorem InvOK_pushFrame {ctx : Ctx} {c : Collector} (h : InvOK ctx c)
    (n : Nat) : InvOK ctx (pushFrame c n) := h

theorem InvOK_popFrame {ctx : Ctx} {c : Collector} (h : InvOK ctx c) :
    InvOK ctx (popFrame c) := h

theorem register_atom_sound {ctx : Ctx} {t : Nat} {c : Collector}
    (hS : SemOK ctx) (hb : ctx.isBool (index_of t) = true)
    (hI : InvOK ctx c) :
    InvOK ctx (register_atom ctx t c).2 ∧
    ∀ u, (register_atom ctx t c).1 = VRes.ok u →
      ∃ bb, evalB ctx t = some bb ∧ u = bool2term bb ∧ ResOK ctx t u := by
  unfold register_atom term_is_true_in_model
  cases he : ctx.evalT t with
  | none =>
    refine ⟨hI, ?_⟩
    intro u hu
    simp [vbind] at hu
  | some v =>
    simp only [vbind]
    have heB : evalB ctx t = some (ctx.isTrue v) := by
      unfold evalB
      rw [he]
      rfl
    split
    · rename_i hv
      refine ⟨⟨CacheOK_add_literal t hI.1, LitOK_add hI.2 (by rw [heB, hv])⟩, ?_⟩
      intro u hu
      simp only at hu
      cases hu
      refine ⟨true, by rw [heB, hv], rfl, ?_⟩
      exact resok_of_bool2term hS hb (by rw [heB, hv])
    · rename_i hv
      have hvf : ctx.isTrue v = false := by
        revert hv
        cases ctx.isTrue v <;> simp
      have hopp : evalB ctx (opposite_term t) = some true := by
        rw [hS.evalNeg t hb, heB, hvf]
        rfl
      refine ⟨⟨CacheOK_add_literal _ hI.1, LitOK_add hI.2 hopp⟩, ?_⟩
      intro u hu
      simp only at hu
      cases hu
      refine ⟨false, by rw [heB, hvf], rfl, ?_⟩
      exact resok_of_bool2term hS hb (by rw [heB, hvf])

theorem VIH_elim {ctx : Ctx} {v : Nat → Collector → VRes Nat × Collector}
    (hv : VIH ctx v) {t : Nat} {c : Collector} {r : VRes Nat} {c' : Collector}
    (h : v t c = (r, c')) (hI : InvOK ctx c) :
    InvOK ctx c' ∧ ∀ u, r = VRes.ok u → GoodT ctx t → ResOK ctx t u := by
  have hh := hv t c hI
  rw [h] at hh
  exact hh

theorem CacheOK_cache_result {ctx : Ctx} {c : Collector} {t u : Nat}
    (hC : CacheOK ctx c) (h : ResOK ctx t u) :
    CacheOK ctx (lit_collector_cache_result c t u) := by
  intro p hp
  unfold lit_collector_cache_result at hp
  simp only [List.mem_cons] at hp
  rcases hp with hp | hp
  · subst hp
    exact h
  · exact hC p hp

theorem InvOK_cache_result {ctx : Ctx} {c : Collector} {t u : Nat}
    (hI : InvOK ctx c) (h : ResOK ctx t u) :
    InvOK ctx (lit_collector_cache_result c t u) :=
  ⟨CacheOK_cache_result hI.1 h, hI.2⟩

theorem boolres_index {u : Nat} (h : BoolRes u) : index_of u = 1 := by
  rcases h with h | h <;> subst h <;> decide

theorem boolres_evalT_ne_none {ctx : Ctx} {u : Nat} (hS : SemOK ctx)
    (h : BoolRes u) : ctx.evalT u ≠ none := by
  intro hn
  have : evalB ctx u = none := evalB_none_iff.mpr hn
  rcases h with h | h <;> subst h
  · rw [hS.evalTrue] at this
    simp at this
  · rw [hS.evalFalse] at this
    simp at this

theorem resok_flip {ctx : Ctx} {t u : Nat} (hS : SemOK ctx)
    (hb : ctx.isBool (index_of t) = true) (h : ResOK ctx t u) :
    ResOK ctx (opposite_term t) (opposite_term u) := by
  have hbr : BoolRes u := h.2 hb
  have hbru : BoolRes (opposite_term u) := by
    rcases hbr with hu | hu <;> subst hu
    · exact Or.inr opposite_true_term
    · exact Or.inl opposite_false_term
  constructor
  · -- evalT (opp u) = evalT (opp t)
    have hnet : ctx.evalT t ≠ none := by
      intro hn
      exact boolres_evalT_ne_none hS hbr (h.1.trans hn)
    have hbu : ctx.isBool (index_of u) = true := by
      rw [boolres_index hbr]
      exact hS.isBoolOne
    have h1 : evalB ctx (opposite_term u) = evalB ctx (opposite_term t) := by
      rw [hS.evalNeg u hbu, hS.evalNeg t hb, evalB_congr h.1]
    have h2 : evalB ctx (opposite_term t) ≠ none := by
      rw [hS.evalNeg t hb]
      intro hx
      rcases hy : evalB ctx t with _ | b
      · exact hnet (evalB_none_iff.mp hy)
      · rw [hy] at hx
        simp at hx
    apply evalT_eq_of_evalB_eq hS _ _ h1 h2
    · rw [index_opposite]
      exact hb
    · rw [index_opposite]
      exact hbu
  · intro _
    exact hbru

theorem resok_reapply {ctx : Ctx} {t0 u : Nat} (hS : SemOK ctx)
    (hG : GoodT ctx t0) (h : ResOK ctx (unsigned_term t0) u) :
    ResOK ctx t0 (u ^^^ polarity_of t0) := by
  rcases Nat.mod_two_eq_zero_or_one t0 with hp | hp
  · have hp' : polarity_of t0 = 0 := hp
    rw [hp', Nat.xor_zero]
    rw [unsigned_eq_self hp'] at h
    exact h
  · have hp' : polarity_of t0 = 1 := hp
    have hb : ctx.isBool (index_of t0) = true := by
      rcases hG with hG | hG
      · rw [hp'] at hG
        cases hG
      · exact hG
    have hbu : ctx.isBool (index_of (unsigned_term t0)) = true := by
      rw [index_unsigned]
      exact hb
    have hflip := resok_flip hS hbu h
    rw [opposite_of_unsigned hp'] at hflip
    rw [hp']
    exact hflip

theorem visitArgs_sound {ctx : Ctx} {v : Nat → Collector → VRes Nat × Collector}
    (hv : VIH ctx v) :
    ∀ args c, (∀ a ∈ args, GoodT ctx a) → InvOK ctx c →
      InvOK ctx (visitArgs v args c).2 ∧
      ∀ as, (visitArgs v args c).1 = VRes.ok as → EvalListEq ctx as args := by
  intro args
  induction args with
  | nil =>
    intro c _ hI
    refine ⟨hI, ?_⟩
    intro as has
    simp only [visitArgs] at has
    cases has
    exact List.Forall₂.nil
  | cons a rest ih =>
    intro c hg hI
    unfold visitArgs
    rcases hva : v a c with ⟨ra, c1⟩
    obtain ⟨hI1, hres1⟩ := VIH_elim hv hva hI
    cases ra with
    | fail e =>
      refine ⟨hI1, ?_⟩
      intro as has
      simp [vbind] at has
    | out =>
      refine ⟨hI1, ?_⟩
      intro as has
      simp [vbind] at has
    | ok u =>
      simp only [vbind]
      rcases hrest : visitArgs v rest c1 with ⟨rr, c2⟩
      have hih := ih c1 (fun x hx => hg x (List.mem_cons_of_mem a hx)) hI1
      rw [hrest] at hih
      obtain ⟨hI2, hres2⟩ := hih
      cases rr with
      | fail e =>
        refine ⟨hI2, ?_⟩
        intro as has
        simp [vbind] at has
      | out =>
        refine ⟨hI2, ?_⟩
        intro as has
        simp [vbind] at has
      | ok us =>
        refine ⟨hI2, ?_⟩
        intro as has
        simp only [vbind] at has
        cases has
        exact List.Forall₂.cons
          ((hres1 u rfl (hg a (List.mem_cons_self a rest))).1)
          (hres2 us rfl)

theorem visitBinRebuild_sound {ctx : Ctx} {v : Nat → Collector → VRes Nat × Collector}
    {mk : Nat → Nat → Nat} (hv : VIH ctx v) (t a b : Nat) (c : Collector)
    (hnb : ctx.isBool (index_of t) = false)
    (hga : GoodT ctx a) (hgb : GoodT ctx b)
    (hcoh : ∀ x y, ctx.evalT x = ctx.evalT a → ctx.evalT y = ctx.evalT b →
      ctx.evalT (mk x y) = ctx.evalT t)
    (hI : InvOK ctx c) :
    InvOK ctx (visitBinRebuild mk v t a b c).2 ∧
    ∀ u, (visitBinRebuild mk v t a b c).1 = VRes.ok u → ResOK ctx t u := by
  unfold visitBinRebuild
  rcases hx : v a c with ⟨rx, c1⟩
  obtain ⟨hI1, hres1⟩ := VIH_elim hv hx hI
  cases rx with
  | fail e => exact ⟨hI1, fun u hu => by simp [vbind] at hu⟩
  | out => exact ⟨hI1, fun u hu => by simp [vbind] at hu⟩
  | ok x =>
    simp only [vbind]
    rcases hy : v b c1 with ⟨ry, c2⟩
    obtain ⟨hI2, hres2⟩ := VIH_elim hv hy hI1
    cases ry with
    | fail e => exact ⟨hI2, fun u hu => by simp [vbind] at hu⟩
    | out => exact ⟨hI2, fun u hu => by simp [vbind] at hu⟩
    | ok y =>
      simp only [vbind]
      refine ⟨hI2, ?_⟩
      intro u hu
      cases hu
      constructor
      · split
        · exact hcoh x y (hres1 x rfl hga).1 (hres2 y rfl hgb).1
        · rfl
      · intro hbool
        rw [hnb] at hbool
        cases hbool

theorem visitBinAtom_sound {ctx : Ctx} {v : Nat → Collector → VRes Nat × Collector}
    {mk : Nat → Nat → Nat} (hS : SemOK ctx) (hv : VIH ctx v)
    (t a b : Nat) (c : Collector)
    (hb : ctx.isBool (index_of t) = true)
    (hga : GoodT ctx a) (hgb : GoodT ctx b)
    (hcoh : ∀ x y, ctx.evalT x = ctx.evalT a → ctx.evalT y = ctx.evalT b →
      evalB ctx (mk x y) = evalB ctx t ∧ ctx.isBool (index_of (mk x y)) = true)
    (hI : InvOK ctx c) :
    InvOK ctx (visitBinAtom ctx mk v t a b c).2 ∧
    ∀ u, (visitBinAtom ctx mk v t a b c).1 = VRes.ok u →
      ∃ bb, evalB ctx t = some bb ∧ u = bool2term bb ∧ ResOK ctx t u := by
  unfold visitBinAtom
  rcases hx : v a c with ⟨rx, c1⟩
  obtain ⟨hI1, hres1⟩ := VIH_elim hv hx hI
  cases rx with
  | fail e => exact ⟨hI1, fun u hu => by simp [vbind] at hu⟩
  | out => exact ⟨hI1, fun u hu => by simp [vbind] at hu⟩
  | ok x =>
    simp only [vbind]
    rcases hy : v b c1 with ⟨ry, c2⟩
    obtain ⟨hI2, hres2⟩ := VIH_elim hv hy hI1
    cases ry with
    | fail e => exact ⟨hI2, fun u hu => by simp [vbind] at hu⟩
    | out => exact ⟨hI2, fun u hu => by simp [vbind] at hu⟩
    | ok y =>
      simp only [vbind]
      have hprops : evalB ctx (if x ≠ a ∨ y ≠ b then mk x y else t) = evalB ctx t ∧
          ctx.isBool (index_of (if x ≠ a ∨ y ≠ b then mk x y else t)) = true := by
        split
        · exact hcoh x y (hres1 x rfl hga).1 (hres2 y rfl hgb).1
        · exact ⟨rfl, hb⟩
      obtain ⟨hIr, hresr⟩ := register_atom_sound hS hprops.2 hI2
      refine ⟨hIr, ?_⟩
      intro u hu
      obtain ⟨bb, hbb, hub, _⟩ := hresr u hu
      rw [hprops.1] at hbb
      exact ⟨bb, hbb, hub, hub ▸ resok_of_bool2term hS hb hbb⟩

theorem unaryAtom_sound {ctx : Ctx} {v : Nat → Collector → VRes Nat × Collector}
    {mk : Nat → Nat} (hS : SemOK ctx) (hv : VIH ctx v)
    (t u0 : Nat) (c : Collector)
    (hb : ctx.isBool (index_of t) = true)
    (hgu : GoodT ctx u0)
    (hcoh : ∀ w, ctx.evalT w = ctx.evalT u0 →
      evalB ctx (mk w) = evalB ctx t ∧ ctx.isBool (index_of (mk w)) = true)
    (hI : InvOK ctx c) :
    InvOK ctx (vbind (v u0 c)
      (fun w c => register_atom ctx (if w ≠ u0 then mk w else t) c)).2 ∧
    ∀ u, (vbind (v u0 c)
      (fun w c => register_atom ctx (if w ≠ u0 then mk w else t) c)).1 = VRes.ok u →
      ∃ bb, evalB ctx t = some bb ∧ u = bool2term bb ∧ ResOK ctx t u := by
  rcases hw : v u0 c with ⟨rw1, c1⟩
  obtain ⟨hI1, hres1⟩ := VIH_elim hv hw hI
  cases rw1 with
  | fail e => exact ⟨hI1, fun u hu => by simp [vbind] at hu⟩
  | out => exact ⟨hI1, fun u hu => by simp [vbind] at hu⟩
  | ok w =>
    simp only [vbind]
    have hprops : evalB ctx (if w ≠ u0 then mk w else t) = evalB ctx t ∧
        ctx.isBool (index_of (if w ≠ u0 then mk w else t)) = true := by
      split
      · exact hcoh w (hres1 w rfl hgu).1
      · exact ⟨rfl, hb⟩
    obtain ⟨hIr, hresr⟩ := register_atom_sound hS hprops.2 hI1
    refine ⟨hIr, ?_⟩
    intro u hu
    obtain ⟨bb, hbb, hub, _⟩ := hresr u hu
    rw [hprops.1] at hbb
    exact ⟨bb, hbb, hub, hub ▸ resok_of_bool2term hS hb hbb⟩

theorem listRebuild_sound {ctx : Ctx} {v : Nat → Collector → VRes Nat × Collector}
    {mk : List Nat → Nat} (hv : VIH ctx v) (t : Nat) (args : List Nat)
    (c : Collector)
    (hnb : ctx.isBool (index_of t) = false)
    (hg : ∀ a ∈ args, GoodT ctx a)
    (hcoh : ∀ as, EvalListEq ctx as args → ctx.evalT (mk as) = ctx.evalT t)
    (hI : InvOK ctx c) :
    InvOK ctx (vbind (visitArgs v args (pushFrame c args.length))
      (fun a c => (VRes.ok (if a ≠ args then mk a else t), popFrame c))).2 ∧
    ∀ u, (vbind (visitArgs v args (pushFrame c args.length))
      (fun a c => (VRes.ok (if a ≠ args then mk a else t), popFrame c))).1 =
        VRes.ok u → ResOK ctx t u := by
  rcases has : visitArgs v args (pushFrame c args.length) with ⟨ra, c1⟩
  have hsound := visitArgs_sound hv args (pushFrame c args.length) hg
    (InvOK_pushFrame hI _)
  rw [has] at hsound
  obtain ⟨hI1, hres1⟩ := hsound
  cases ra with
  | fail e => exact ⟨hI1, fun u hu => by simp [vbind] at hu⟩
  | out => exact ⟨hI1, fun u hu => by simp [vbind] at hu⟩
  | ok as =>
    simp only [vbind]
    refine ⟨InvOK_popFrame hI1, ?_⟩
    intro u hu
    cases hu
    constructor
    · split
      · exact hcoh as (hres1 as rfl)
      · rfl
    · intro hbool
      rw [hnb] at hbool
      cases hbool

theorem listRebuildAlways_sound {ctx : Ctx}
    {v : Nat → Collector → VRes Nat × Collector}
    {mk : List Nat → Nat} (hv : VIH ctx v) (t : Nat) (args : List Nat)
    (c : Collector)
    (hnb : ctx.isBool (index_of t) = false)
    (hg : ∀ a ∈ args, GoodT ctx a)
    (hcoh : ∀ as, EvalListEq ctx as args → ctx.evalT (mk as) = ctx.evalT t)
    (hI : InvOK ctx c) :
    InvOK ctx (vbind (visitArgs v args (pushFrame c args.length))
      (fun a c => (VRes.ok (mk a), popFrame c))).2 ∧
    ∀ u, (vbind (visitArgs v args (pushFrame c args.length))
      (fun a c => (VRes.ok (mk a), popFrame c))).1 = VRes.ok u →
      ResOK ctx t u := by
  rcases has : visitArgs v args (pushFrame c args.length) with ⟨ra, c1⟩
  have hsound := visitArgs_sound hv args (pushFrame c args.length) hg
    (InvOK_pushFrame hI _)
  rw [has] at hsound
  obtain ⟨hI1, hres1⟩ := hsound
  cases ra with
  | fail e => exact ⟨hI1, fun u hu => by simp [vbind] at hu⟩
  | out => exact ⟨hI1, fun u hu => by simp [vbind] at hu⟩
  | ok as =>
    simp only [vbind]
    refine ⟨InvOK_popFrame hI1, ?_⟩
    intro u hu
    cases hu
    constructor
    · exact hcoh as (hres1 as rfl)
    · intro hbool
      rw [hnb] at hbool
      cases hbool

theorem listAtom_sound {ctx : Ctx} {v : Nat → Collector → VRes Nat × Collector}
    {mk : List Nat → Nat} (hS : SemOK ctx) (hv : VIH ctx v) (t : Nat)
    (args : List Nat) (c : Collector)
    (hb : ctx.isBool (index_of t) = true)
    (hg : ∀ a ∈ args, GoodT ctx a)
    (hcoh : ∀ as, EvalListEq ctx as args →
      evalB ctx (mk as) = evalB ctx t ∧
      ctx.isBool (index_of (mk as)) = true)
    (hI : InvOK ctx c) :
    InvOK ctx (vbind (visitArgs v args (pushFrame c args.length))
      (fun a c => vbind (register_atom ctx (if a ≠ args then mk a else t) c)
        (fun u c => (VRes.ok u, popFrame c)))).2 ∧
    ∀ u, (vbind (visitArgs v args (pushFrame c args.length))
      (fun a c => vbind (register_atom ctx (if a ≠ args then mk a else t) c)
        (fun u c => (VRes.ok u, popFrame c)))).1 = VRes.ok u →
      ∃ bb, evalB ctx t = some bb ∧ u = bool2term bb ∧ ResOK ctx t u := by
  rcases has : visitArgs v args (pushFrame c args.length) with ⟨ra, c1⟩
  have hsound := visitArgs_sound hv args (pushFrame c args.length) hg
    (InvOK_pushFrame hI _)
  rw [has] at hsound
  obtain ⟨hI1, hres1⟩ := hsound
  cases ra with
  | fail e => exact ⟨hI1, fun u hu => by simp [vbind] at hu⟩
  | out => exact ⟨hI1, fun u hu => by simp [vbind] at hu⟩
  | ok as =>
    simp only [vbind]
    have hprops : evalB ctx (if as ≠ args then mk as else t) = evalB ctx t ∧
        ctx.isBool (index_of (if as ≠ args then mk as else t)) = true := by
      split
      · exact hcoh as (hres1 as rfl)
      · exact ⟨rfl, hb⟩
    obtain ⟨hIr, hresr⟩ := register_atom_sound hS hprops.2 hI1
    rcases hreg : register_atom ctx (if as ≠ args then mk as else t) c1
      with ⟨rr, c2⟩
    rw [hreg] at hIr hresr
    cases rr with
    | fail e => exact ⟨hIr, fun u hu => by simp [vbind] at hu⟩
    | out => exact ⟨hIr, fun u hu => by simp [vbind] at hu⟩
    | ok w =>
      simp only [vbind]
      refine ⟨InvOK_popFrame hIr, ?_⟩
      intro u hu
      cases hu
      obtain ⟨bb, hbb, hub, _⟩ := hresr w rfl
      rw [hprops.1] at hbb
      exact ⟨bb, hbb, hub, hub ▸ resok_of_bool2term hS hb hbb⟩

theorem visit_app_sound {ctx : Ctx} {v : Nat → Collector → VRes Nat × Collector}
    (hS : SemOK ctx) (hv : VIH ctx v) (t : Nat) (args : List Nat)
    (c : Collector)
    (hg : ∀ a ∈ args, GoodT ctx a)
    (hcoh : ∀ as, EvalListEq ctx as args →
      ctx.evalT (ctx.mkApp as) = ctx.evalT t ∧
      ctx.isBool (index_of (ctx.mkApp as)) = ctx.isBool (index_of t))
    (hI : InvOK ctx c) :
    InvOK ctx (lit_collector_visit_app ctx v t args c).2 ∧
    ∀ u, (lit_collector_visit_app ctx v t args c).1 = VRes.ok u →
      ResOK ctx t u := by
  simp only [lit_collector_visit_app]
  rcases has : visitArgs v args (pushFrame c args.length) with ⟨ra, c1⟩
  have hsound := visitArgs_sound hv args (pushFrame c args.length) hg
    (InvOK_pushFrame hI _)
  rw [has] at hsound
  obtain ⟨hI1, hres1⟩ := hsound
  cases ra with
  | fail e => exact ⟨hI1, fun u hu => by simp [vbind] at hu⟩
  | out => exact ⟨hI1, fun u hu => by simp [vbind] at hu⟩
  | ok as =>
    simp only [vbind]
    have key : ∀ t', ctx.evalT t' = ctx.evalT t →
        ctx.isBool (index_of t') = ctx.isBool (index_of t) →
        InvOK ctx (if ctx.isBool (index_of t') = true then
            vbind (register_atom ctx t' c1) (fun u c => (VRes.ok u, popFrame c))
          else (VRes.ok t', popFrame c1)).2 ∧
        ∀ u, (if ctx.isBool (index_of t') = true then
            vbind (register_atom ctx t' c1) (fun u c => (VRes.ok u, popFrame c))
          else (VRes.ok t', popFrame c1)).1 = VRes.ok u → ResOK ctx t u := by
      intro t' h1 h2
      split
      · rename_i hbt'
        have hbt : ctx.isBool (index_of t) = true := by
          rw [← h2]
          exact hbt'
        obtain ⟨hIr, hresr⟩ := register_atom_sound hS hbt' hI1
        rcases hreg : register_atom ctx t' c1 with ⟨rr, c2⟩
        rw [hreg] at hIr hresr
        cases rr with
        | fail e => exact ⟨hIr, fun u hu => by simp [vbind] at hu⟩
        | out => exact ⟨hIr, fun u hu => by simp [vbind] at hu⟩
        | ok w =>
          simp only [vbind]
          refine ⟨InvOK_popFrame hIr, ?_⟩
          intro u hu
          cases hu
          obtain ⟨bb, hbb, hub, _⟩ := hresr w rfl
          rw [evalB_congr h1] at hbb
          exact hub ▸ resok_of_bool2term hS hbt hbb
      · rename_i hbt'
        refine ⟨InvOK_popFrame hI1, ?_⟩
        intro u hu
        cases hu
        exact ⟨h1, fun hbool => absurd (h2.trans hbool) hbt'⟩
    exact key (if as ≠ args then ctx.mkApp as else t)
      (by
        split
        · exact (hcoh as (hres1 as rfl)).1
        · rfl)
      (by
        split
        · exact (hcoh as (hres1 as rfl)).2
        · rfl)

theorem visit_select_sound {ctx : Ctx} {v : Nat → Collector → VRes Nat × Collector}
    (hS : SemOK ctx) (hv : VIH ctx v) (t : Nat) (idx : Nat) (u0 : Nat)
    (c : Collector)
    (hgu : GoodT ctx u0)
    (hcoh : ∀ w, ctx.evalT w = ctx.evalT u0 →
      ctx.evalT (ctx.mkSelect idx w) = ctx.evalT t ∧
      ctx.isBool (index_of (ctx.mkSelect idx w)) = ctx.isBool (index_of t))
    (hI : InvOK ctx c) :
    InvOK ctx (lit_collector_visit_select ctx v t idx u0 c).2 ∧
    ∀ u, (lit_collector_visit_select ctx v t idx u0 c).1 = VRes.ok u →
      ResOK ctx t u := by
  simp only [lit_collector_visit_select]
  rcases hw : v u0 c with ⟨rw1, c1⟩
  obtain ⟨hI1, hres1⟩ := VIH_elim hv hw hI
  cases rw1 with
  | fail e => exact ⟨hI1, fun u hu => by simp [vbind] at hu⟩
  | out => exact ⟨hI1, fun u hu => by simp [vbind] at hu⟩
  | ok w =>
    simp only [vbind]
    have key : ∀ t', ctx.evalT t' = ctx.evalT t →
        ctx.isBool (index_of t') = ctx.isBool (index_of t) →
        InvOK ctx (if ctx.isBool (index_of t') = true then
            register_atom ctx t' c1 else (VRes.ok t', c1)).2 ∧
        ∀ u, (if ctx.isBool (index_of t') = true then
            register_atom ctx t' c1 else (VRes.ok t', c1)).1 = VRes.ok u →
          ResOK ctx t u := by
      intro t' h1 h2
      split
      · rename_i hbt'
        have hbt : ctx.isBool (index_of t) = true := by
          rw [← h2]
          exact hbt'
        obtain ⟨hIr, hresr⟩ := register_atom_sound hS hbt' hI1
        refine ⟨hIr, ?_⟩
        intro u hu
        obtain ⟨bb, hbb, hub, _⟩ := hresr u hu
        rw [evalB_congr h1] at hbb
        exact hub ▸ resok_of_bool2term hS hbt hbb
      · rename_i hbt'
        refine ⟨hI1, ?_⟩
        intro u hu
        cases hu
        exact ⟨h1, fun hbool => absurd (h2.trans hbool) hbt'⟩
    exact key (if w ≠ u0 then ctx.mkSelect idx w else t)
      (by
        split
        · exact (hcoh w (hres1 w rfl hgu).1).1
        · rfl)
      (by
        split
        · exact (hcoh w (hres1 w rfl hgu).1).2
        · rfl)

theorem visit_ite_sound {ctx : Ctx} {v : Nat → Collector → VRes Nat × Collector}
    (hS : SemOK ctx) (hv : VIH ctx v) (t c1 a b : Nat) (c : Collector)
    (hcb : ctx.isBool (index_of c1) = true)
    (hga : GoodT ctx a) (hgb : GoodT ctx b)
    (hbab : ctx.isBool (index_of t) = true →
      ctx.isBool (index_of a) = true ∧ ctx.isBool (index_of b) = true)
    (hcoh : (evalB ctx c1 = some true → ctx.evalT t = ctx.evalT a) ∧
      (evalB ctx c1 = some false → ctx.evalT t = ctx.evalT b))
    (hI : InvOK ctx c) :
    InvOK ctx (lit_collector_visit_ite v c1 a b c).2 ∧
    ∀ u, (lit_collector_visit_ite v c1 a b c).1 = VRes.ok u →
      ResOK ctx t u := by
  unfold lit_collector_visit_ite
  rcases hw : v c1 c with ⟨rw1, cc1⟩
  obtain ⟨hI1, hres1⟩ := VIH_elim hv hw hI
  cases rw1 with
  | fail e => exact ⟨hI1, fun u hu => by simp [vbind] at hu⟩
  | out => exact ⟨hI1, fun u hu => by simp [vbind] at hu⟩
  | ok w =>
    simp only [vbind]
    have hresw := hres1 w rfl (Or.inr hcb)
    have hbrw : BoolRes w := hresw.2 hcb
    have hec : evalB ctx c1 = evalB ctx w := (evalB_congr hresw.1).symm
    rcases hbrw with hwt | hwt
    · -- condition is true: the then branch is visited
      have hct : evalB ctx c1 = some true := by
        rw [hec, hwt, hS.evalTrue]
      have hta : ctx.evalT t = ctx.evalT a := hcoh.1 hct
      have hif : (if w = true_term then a else b) = a := by
        rw [hwt]
        simp
      rw [hif]
      rcases hva : v a cc1 with ⟨rva, cc2⟩
      obtain ⟨hI2, hres2⟩ := VIH_elim hv hva hI1
      cases rva with
      | fail e => exact ⟨hI2, fun u hu => by simp at hu⟩
      | out => exact ⟨hI2, fun u hu => by simp at hu⟩
      | ok u =>
        refine ⟨hI2, ?_⟩
        intro u' hu'
        cases hu'
        have hru := hres2 u rfl hga
        constructor
        · rw [hru.1, hta]
        · intro hbool
          exact hru.2 (hbab hbool).1
    · -- condition is false: the else branch is visited
      have hcf : evalB ctx c1 = some false := by
        rw [hec, hwt, hS.evalFalse]
      have htb : ctx.evalT t = ctx.evalT b := hcoh.2 hcf
      have hif : (if w = true_term then a else b) = b := by
        rw [hwt]
        simp [false_term, true_term]
      rw [hif]
      rcases hvb : v b cc1 with ⟨rvb, cc2⟩
      obtain ⟨hI2, hres2⟩ := VIH_elim hv hvb hI1
      cases rvb with
      | fail e => exact ⟨hI2, fun u hu => by simp at hu⟩
      | out => exact ⟨hI2, fun u hu => by simp at hu⟩
      | ok u =>
        refine ⟨hI2, ?_⟩
        intro u' hu'
        cases hu'
        have hru := hres2 u rfl hgb
        constructor
        · rw [hru.1, htb]
        · intro hbool
          exact hru.2 (hbab hbool).2

theorem findTrueArg_sound (ctx : Ctx) :
    ∀ args (c : Collector) (a : Nat),
      (findTrueArg ctx args c).1 = VRes.ok (some a) →
      a ∈ args ∧ evalB ctx a = some true := by
  intro args
  induction args with
  | nil =>
    intro c a h
    simp [findTrueArg] at h
  | cons x rest ih =>
    intro c a h
    unfold findTrueArg term_is_true_in_model at h
    cases he : ctx.evalT x with
    | none =>
      rw [he] at h
      simp [vbind] at h
    | some v =>
      rw [he] at h
      simp only [vbind] at h
      split at h
      · rename_i hv
        cases h
        refine ⟨List.mem_cons_self x rest, ?_⟩
        unfold evalB
        rw [he]
        simp [hv]
      · obtain ⟨hm, he2⟩ := ih c a h
        exact ⟨List.mem_cons_of_mem x hm, he2⟩

theorem visitFold_sound {ctx : Ctx} {v : Nat → Collector → VRes Nat × Collector}
    (hS : SemOK ctx) (hv : VIH ctx v) :
    ∀ args (u0 : Nat) (c : Collector),
      (∀ a ∈ args, ctx.isBool (index_of a) = true ∧ evalB ctx a = some false) →
      InvOK ctx c →
      InvOK ctx (visitFold v args u0 c).2 ∧
      ∀ u, (visitFold v args u0 c).1 = VRes.ok u → u = false_term ∨ u = u0 := by
  intro args
  induction args with
  | nil =>
    intro u0 c _ hI
    refine ⟨hI, ?_⟩
    intro u hu
    cases hu
    exact Or.inr rfl
  | cons a rest ih =>
    intro u0 c hall hI
    unfold visitFold
    rcases hva : v a c with ⟨ra, c1⟩
    obtain ⟨hI1, hres1⟩ := VIH_elim hv hva hI
    cases ra with
    | fail e => exact ⟨hI1, fun u hu => by simp [vbind] at hu⟩
    | out => exact ⟨hI1, fun u hu => by simp [vbind] at hu⟩
    | ok w =>
      simp only [vbind]
      obtain ⟨hba, hfa⟩ := hall a (List.mem_cons_self a rest)
      have hw : w = false_term :=
        resok_false_of hS (hres1 w rfl (Or.inr hba)) hba hfa
      have hih := ih w c1 (fun x hx => hall x (List.mem_cons_of_mem a hx)) hI1
      refine ⟨hih.1, ?_⟩
      intro u hu
      rcases hih.2 u hu with h | h
      · exact Or.inl h
      · exact Or.inl (h.trans hw)

theorem visitXorFold_sound {ctx : Ctx}
    {v : Nat → Collector → VRes Nat × Collector}
    (hS : SemOK ctx) (hv : VIH ctx v) :
    ∀ args (b0 : Bool) (c : Collector),
      (∀ a ∈ args, ctx.isBool (index_of a) = true) →
      InvOK ctx c →
      InvOK ctx (visitXorFold v args b0 c).2 ∧
      ∀ u, (visitXorFold v args b0 c).1 = VRes.ok u →
        ∃ bs, List.Forall₂ (fun a bb => evalB ctx a = some bb) args bs ∧
          u = bool2term (bs.foldl xor b0) := by
  intro args
  induction args with
  | nil =>
    intro b0 c _ hI
    refine ⟨hI, ?_⟩
    intro u hu
    cases hu
    exact ⟨[], List.Forall₂.nil, rfl⟩
  | cons a rest ih =>
    intro b0 c hall hI
    unfold visitXorFold
    rcases hva : v a c with ⟨ra, c1⟩
    obtain ⟨hI1, hres1⟩ := VIH_elim hv hva hI
    cases ra with
    | fail e => exact ⟨hI1, fun u hu => by simp [vbind] at hu⟩
    | out => exact ⟨hI1, fun u hu => by simp [vbind] at hu⟩
    | ok w =>
      simp only [vbind]
      have hba : ctx.isBool (index_of a) = true :=
        hall a (List.mem_cons_self a rest)
      have hresw := hres1 w rfl (Or.inr hba)
      have hbrw : BoolRes w := hresw.2 hba
      have heva : evalB ctx a = some (decide (w = true_term)) := by
        rcases hbrw with hw | hw <;> subst hw
        · rw [← evalB_congr hresw.1, hS.evalTrue]
          simp
        · rw [← evalB_congr hresw.1, hS.evalFalse]
          simp [false_term, true_term]
      have hih := ih (xor b0 (decide (w = true_term))) c1
        (fun x hx => hall x (List.mem_cons_of_mem a hx)) hI1
      refine ⟨hih.1, ?_⟩
      intro u hu
      obtain ⟨bs, hbs, hfold⟩ := hih.2 u hu
      refine ⟨decide (w = true_term) :: bs, List.Forall₂.cons heva hbs, ?_⟩
      rw [List.foldl_cons]
      exact hfold

theorem visit_or_sound {ctx : Ctx} {v : Nat → Collector → VRes Nat × Collector}
    (hS : SemOK ctx) (hv : VIH ctx v) (t : Nat) (args : List Nat)
    (c : Collector)
    (hb : ctx.isBool (index_of t) = true)
    (hargsb : ∀ a ∈ args, ctx.isBool (index_of a) = true)
    (hcohF : evalB ctx t = some false → ∀ a ∈ args, evalB ctx a = some false)
    (hI : InvOK ctx c) :
    InvOK ctx (lit_collector_visit_or ctx v t args c).2 ∧
    ∀ u, (lit_collector_visit_or ctx v t args c).1 = VRes.ok u →
      ∃ bb, evalB ctx t = some bb ∧ u = bool2term bb ∧ ResOK ctx t u := by
  unfold lit_collector_visit_or term_is_true_in_model
  cases he : ctx.evalT t with
  | none => exact ⟨hI, fun u hu => by simp [vbind] at hu⟩
  | some w =>
    simp only [vbind]
    have het : evalB ctx t = some (ctx.isTrue w) := by
      unfold evalB
      rw [he]
      rfl
    split
    · rename_i hw
      -- the disjunction is true in the model
      rcases hf : findTrueArg ctx args c with ⟨rf, c1⟩
      have hc1 : c1 = c := by
        have hs := findTrueArg_state ctx args c
        rw [hf] at hs
        exact hs
      rw [hc1]
      cases rf with
      | fail e => exact ⟨hI, fun u hu => by simp [vbind] at hu⟩
      | out => exact ⟨hI, fun u hu => by simp [vbind] at hu⟩
      | ok oa =>
        simp only [vbind]
        cases oa with
        | none => exact ⟨hI, fun u hu => by simp at hu⟩
        | some a =>
          show InvOK ctx (v a c).2 ∧ ∀ u, (v a c).1 = VRes.ok u →
            ∃ bb, evalB ctx t = some bb ∧ u = bool2term bb ∧ ResOK ctx t u
          have hfind : a ∈ args ∧ evalB ctx a = some true := by
            apply findTrueArg_sound ctx args c a
            rw [hf, hc1]
          rcases hva : v a c with ⟨ra, c2⟩
          obtain ⟨hI2, hres2⟩ := VIH_elim hv hva hI
          refine ⟨hI2, ?_⟩
          intro u hu
          cases ra with
          | fail e => simp at hu
          | out => simp at hu
          | ok u1 =>
            cases hu
            have hba : ctx.isBool (index_of a) = true := hargsb a hfind.1
            have hu1 : u = true_term :=
              resok_true_of hS (hres2 u rfl (Or.inr hba)) hba hfind.2
            refine ⟨true, by rw [het, hw], ?_, ?_⟩
            · exact hu1
            · exact hu1 ▸ @resok_of_bool2term ctx t true hS hb (by rw [het, hw])
    · rename_i hw
      have hwf : ctx.isTrue w = false := by
        revert hw
        cases ctx.isTrue w <;> simp
      have hef : evalB ctx t = some false := by
        rw [het, hwf]
      have hfold := visitFold_sound hS hv args false_term c
        (fun a ha => ⟨hargsb a ha, hcohF hef a ha⟩) hI
      refine ⟨hfold.1, ?_⟩
      intro u hu
      have hu' : u = false_term := by
        rcases hfold.2 u hu with h | h <;> exact h
      refine ⟨false, hef, hu', hu' ▸ resok_of_bool2term hS hb hef⟩

theorem visitPolyGeneric_sound {ctx : Ctx}
    {v : Nat → Collector → VRes Nat × Collector}
    {mk : Nat → List Nat → Nat} (hv : VIH ctx v) (t : Nat) (vars : List Nat)
    (c : Collector)
    (hnb : ctx.isBool (index_of t) = false)
    (hg : ∀ a ∈ (match vars with
      | v0 :: rest => if v0 = const_idx then rest else vars
      | [] => ([] : List Nat)), GoodT ctx a)
    (hcoh : ∀ as, EvalListEq ctx as vars → ctx.evalT (mk t as) = ctx.evalT t)
    (hI : InvOK ctx c) :
    InvOK ctx (visitPolyGeneric mk v t vars c).2 ∧
    ∀ u, (visitPolyGeneric mk v t vars c).1 = VRes.ok u → ResOK ctx t u := by
  unfold visitPolyGeneric
  cases vars with
  | nil =>
    refine ⟨hI, ?_⟩
    intro u hu
    cases hu
    refine ⟨rfl, ?_⟩
    intro hbool
    rw [hnb] at hbool
    cases hbool
  | cons v0 rest =>
    simp only
    split
    · rename_i hv0
      subst hv0
      rcases has : visitArgs v rest (pushFrame c (const_idx :: rest).length)
        with ⟨ra, c1⟩
      have hsound := visitArgs_sound hv rest
        (pushFrame c (const_idx :: rest).length)
        (by
          intro a ha
          apply hg
          simpa using ha) hI
      rw [has] at hsound
      obtain ⟨hI1, hres1⟩ := hsound
      cases ra with
      | fail e => exact ⟨hI1, fun u hu => by simp [vbind] at hu⟩
      | out => exact ⟨hI1, fun u hu => by simp [vbind] at hu⟩
      | ok as =>
        simp only [vbind]
        refine ⟨InvOK_popFrame hI1, ?_⟩
        intro u hu
        cases hu
        constructor
        · split
          · exact hcoh (const_idx :: as)
              (List.Forall₂.cons rfl (hres1 as rfl))
          · rfl
        · intro hbool
          rw [hnb] at hbool
          cases hbool
    · rename_i hv0
      rcases has : visitArgs v (v0 :: rest)
          (pushFrame c (v0 :: rest).length) with ⟨ra, c1⟩
      have hsound := visitArgs_sound hv (v0 :: rest)
        (pushFrame c (v0 :: rest).length)
        (by
          intro a ha
          apply hg
          simp only
          rw [if_neg hv0]
          exact ha) hI
      rw [has] at hsound
      obtain ⟨hI1, hres1⟩ := hsound
      cases ra with
      | fail e => exact ⟨hI1, fun u hu => by simp [vbind] at hu⟩
      | out => exact ⟨hI1, fun u hu => by simp [vbind] at hu⟩
      | ok as =>
        simp only [vbind]
        refine ⟨InvOK_popFrame hI1, ?_⟩
        intro u hu
        cases hu
        constructor
        · split
          · exact hcoh as (hres1 as rfl)
          · rfl
        · intro hbool
          rw [hnb] at hbool
          cases hbool

theorem visitKind_sound {ctx : Ctx} {v : Nat → Collector → VRes Nat × Collector}
    (hS : SemOK ctx) (hv : VIH ctx v) (t : Nat) (c : Collector)
    (hp : polarity_of t = 0) (hI : InvOK ctx c) :
    InvOK ctx (visitKind ctx v t c).2 ∧
    ∀ u, (visitKind ctx v t c).1 = VRes.ok u → ResOK ctx t u := by
  unfold visitKind
  cases hd : ctx.desc (index_of t) with
  | constant =>
    refine ⟨hI, ?_⟩
    intro u hu
    cases hu
    refine ⟨rfl, ?_⟩
    intro hbool
    have hi : index_of t = 1 := by
      have h3 := (hS.wf (index_of t)).2.2
      rw [hd] at h3
      exact h3 hbool
    have ht : t = 2 := by
      have h2 := two_mul_index hp
      omega
    exact Or.inl ht
  | arithConst =>
    refine ⟨hI, ?_⟩
    intro u hu
    cases hu
    refine ⟨rfl, ?_⟩
    intro hbool
    have hb2 : ctx.isBool (index_of t) = false := by
      have h2 := (hS.wf (index_of t)).2.1
      rw [hd] at h2
      exact h2
    rw [hb2] at hbool
    cases hbool
  | bv64Const =>
    refine ⟨hI, ?_⟩
    intro u hu
    cases hu
    refine ⟨rfl, ?_⟩
    intro hbool
    have hb2 : ctx.isBool (index_of t) = false := by
      have h2 := (hS.wf (index_of t)).2.1
      rw [hd] at h2
      exact h2
    rw [hb2] at hbool
    cases hbool
  | bvConst =>
    refine ⟨hI, ?_⟩
    intro u hu
    cases hu
    refine ⟨rfl, ?_⟩
    intro hbool
    have hb2 : ctx.isBool (index_of t) = false := by
      have h2 := (hS.wf (index_of t)).2.1
      rw [hd] at h2
      exact h2
    rw [hb2] at hbool
    cases hbool
  | var =>
    exact ⟨hI, fun u hu => by simp at hu⟩
  | uninterpreted =>
    simp only
    split
    · rename_i hb
      have h := register_atom_sound hS hb hI
      refine ⟨h.1, ?_⟩
      intro u hu
      obtain ⟨bb, _, _, hr⟩ := h.2 u hu
      exact hr
    · rename_i hb
      refine ⟨hI, ?_⟩
      intro u hu
      cases hu
      exact ⟨rfl, fun hbool => absurd hbool hb⟩
  | arithEq u0 =>
    have hb : ctx.isBool (index_of t) = true := by
      have h2 := (hS.wf (index_of t)).2.1
      rw [hd] at h2
      exact h2
    have hgu : GoodT ctx u0 := by
      have h1 := (hS.wf (index_of t)).1
      rw [hd] at h1
      exact h1 u0 (by simp [childrenOf])
    have hco : ∀ w, ctx.evalT w = ctx.evalT u0 →
        evalB ctx (ctx.mkArithEq0 w) = evalB ctx (2 * index_of t) ∧
        ctx.isBool (index_of (ctx.mkArithEq0 w)) = true := by
      have h3 := hS.coh (index_of t)
      unfold evalCohAt at h3
      rw [hd] at h3
      exact h3
    rw [two_mul_index hp] at hco
    unfold lit_collector_visit_eq_atom
    have h := unaryAtom_sound hS hv t u0 c hb hgu hco hI
    refine ⟨h.1, ?_⟩
    intro u hu
    obtain ⟨bb, _, _, hr⟩ := h.2 u hu
    exact hr
  | arithGe u0 =>
    have hb : ctx.isBool (index_of t) = true := by
      have h2 := (hS.wf (index_of t)).2.1
      rw [hd] at h2
      exact h2
    have hgu : GoodT ctx u0 := by
      have h1 := (hS.wf (index_of t)).1
      rw [hd] at h1
      exact h1 u0 (by simp [childrenOf])
    have hco : ∀ w, ctx.evalT w = ctx.evalT u0 →
        evalB ctx (ctx.mkArithGeq0 w) = evalB ctx (2 * index_of t) ∧
        ctx.isBool (index_of (ctx.mkArithGeq0 w)) = true := by
      have h3 := hS.coh (index_of t)
      unfold evalCohAt at h3
      rw [hd] at h3
      exact h3
    rw [two_mul_index hp] at hco
    unfold lit_collector_visit_ge_atom
    have h := unaryAtom_sound hS hv t u0 c hb hgu hco hI
    refine ⟨h.1, ?_⟩
    intro u hu
    obtain ⟨bb, _, _, hr⟩ := h.2 u hu
    exact hr
  | ite c1 a b =>
    have hwf : ctx.isBool (index_of c1) = true ∧
        (ctx.isBool (index_of t) = true →
          ctx.isBool (index_of a) = true ∧ ctx.isBool (index_of b) = true) := by
      have h3 := (hS.wf (index_of t)).2.2
      rw [hd] at h3
      exact h3
    have hch : ∀ x ∈ [c1, a, b], GoodT ctx x := by
      have h1 := (hS.wf (index_of t)).1
      rw [hd] at h1
      exact h1
    have hco : (evalB ctx c1 = some true →
        ctx.evalT (2 * index_of t) = ctx.evalT a) ∧
        (evalB ctx c1 = some false →
          ctx.evalT (2 * index_of t) = ctx.evalT b) := by
      have h3 := hS.coh (index_of t)
      unfold evalCohAt at h3
      rw [hd] at h3
      exact h3
    rw [two_mul_index hp] at hco
    exact visit_ite_sound hS hv t c1 a b c hwf.1
      (hch a (by simp)) (hch b (by simp)) hwf.2 hco hI
  | iteSpecial c1 a b =>
    have hwf : ctx.isBool (index_of c1) = true ∧
        (ctx.isBool (index_of t) = true →
          ctx.isBool (index_of a) = true ∧ ctx.isBool (index_of b) = true) := by
      have h3 := (hS.wf (index_of t)).2.2
      rw [hd] at h3
      exact h3
    have hch : ∀ x ∈ [c1, a, b], GoodT ctx x := by
      have h1 := (hS.wf (index_of t)).1
      rw [hd] at h1
      exact h1
    have hco : (evalB ctx c1 = some true →
        ctx.evalT (2 * index_of t) = ctx.evalT a) ∧
        (evalB ctx c1 = some false →
          ctx.evalT (2 * index_of t) = ctx.evalT b) := by
      have h3 := hS.coh (index_of t)
      unfold evalCohAt at h3
      rw [hd] at h3
      exact h3
    rw [two_mul_index hp] at hco
    exact visit_ite_sound hS hv t c1 a b c hwf.1
      (hch a (by simp)) (hch b (by simp)) hwf.2 hco hI
  | app args =>
    have hch : ∀ x ∈ args, GoodT ctx x := by
      have h1 := (hS.wf (index_of t)).1
      rw [hd] at h1
      exact h1
    have hco : ∀ as, EvalListEq ctx as args →
        ctx.evalT (ctx.mkApp as) = ctx.evalT (2 * index_of t) ∧
        ctx.isBool (index_of (ctx.mkApp as)) = ctx.isBool (index_of t) := by
      have h3 := hS.coh (index_of t)
      unfold evalCohAt at h3
      rw [hd] at h3
      exact h3
    rw [two_mul_index hp] at hco
    exact visit_app_sound hS hv t args c hch hco hI
  | update args =>
    have hnb : ctx.isBool (index_of t) = false := by
      have h2 := (hS.wf (index_of t)).2.1
      rw [hd] at h2
      exact h2
    have hch : ∀ x ∈ args, GoodT ctx x := by
      have h1 := (hS.wf (index_of t)).1
      rw [hd] at h1
      exact h1
    have hco : ∀ as, EvalListEq ctx as args →
        ctx.evalT (ctx.mkUpdate as) = ctx.evalT (2 * index_of t) := by
      have h3 := hS.coh (index_of t)
      unfold evalCohAt at h3
      rw [hd] at h3
      exact h3
    rw [two_mul_index hp] at hco
    exact listRebuild_sound hv t args c hnb hch hco hI
  | tuple args =>
    have hnb : ctx.isBool (index_of t) = false := by
      have h2 := (hS.wf (index_of t)).2.1
      rw [hd] at h2
      exact h2
    have hch : ∀ x ∈ args, GoodT ctx x := by
      have h1 := (hS.wf (index_of t)).1
      rw [hd] at h1
      exact h1
    have hco : ∀ as, EvalListEq ctx as args →
        ctx.evalT (ctx.mkTuple as) = ctx.evalT (2 * index_of t) := by
      have h3 := hS.coh (index_of t)
      unfold evalCohAt at h3
      rw [hd] at h3
      exact h3
    rw [two_mul_index hp] at hco
    exact listRebuild_sound hv t args c hnb hch hco hI
  | eq a b =>
    have hb : ctx.isBool (index_of t) = true := by
      have h2 := (hS.wf (index_of t)).2.1
      rw [hd] at h2
      exact h2
    have hch : ∀ x ∈ [a, b], GoodT ctx x := by
      have h1 := (hS.wf (index_of t)).1
      rw [hd] at h1
      exact h1
    have hco : ∀ x y, ctx.evalT x = ctx.evalT a → ctx.evalT y = ctx.evalT b →
        evalB ctx (ctx.mkEq x y) = evalB ctx (2 * index_of t) ∧
        ctx.isBool (index_of (ctx.mkEq x y)) = true := by
      have h3 := hS.coh (index_of t)
      unfold evalCohAt at h3
      rw [hd] at h3
      exact h3
    rw [two_mul_index hp] at hco
    unfold lit_collector_visit_eq
    have h := visitBinAtom_sound hS hv t a b c hb
      (hch a (by simp)) (hch b (by simp)) hco hI
    refine ⟨h.1, ?_⟩
    intro u hu
    obtain ⟨bb, _, _, hr⟩ := h.2 u hu
    exact hr
  | distinct args =>
    have hb : ctx.isBool (index_of t) = true := by
      have h2 := (hS.wf (index_of t)).2.1
      rw [hd] at h2
      exact h2
    have hch : ∀ x ∈ args, GoodT ctx x := by
      have h1 := (hS.wf (index_of t)).1
      rw [hd] at h1
      exact h1
    have hco : ∀ as, EvalListEq ctx as args →
        evalB ctx (ctx.mkDistinct as) = evalB ctx (2 * index_of t) ∧
        ctx.isBool (index_of (ctx.mkDistinct as)) = true := by
      have h3 := hS.coh (index_of t)
      unfold evalCohAt at h3
      rw [hd] at h3
      exact h3
    rw [two_mul_index hp] at hco
    unfold lit_collector_visit_distinct
    have h := listAtom_sound hS hv t args c hb hch hco hI
    refine ⟨h.1, ?_⟩
    intro u hu
    obtain ⟨bb, _, _, hr⟩ := h.2 u hu
    exact hr
  | forallT =>
    exact ⟨hI, fun u hu => by simp at hu⟩
  | lambdaT =>
    exact ⟨hI, fun u hu => by simp at hu⟩
  | or args =>
    have hb : ctx.isBool (index_of t) = true := by
      have h2 := (hS.wf (index_of t)).2.1
      rw [hd] at h2
      exact h2
    have hargsb : ∀ x ∈ args, ctx.isBool (index_of x) = true := by
      have h3 := (hS.wf (index_of t)).2.2
      rw [hd] at h3
      exact h3
    have hco : (evalB ctx (2 * index_of t) = some false →
        ∀ a ∈ args, evalB ctx a = some false) ∧
        (evalB ctx (2 * index_of t) = some true →
          ∃ a ∈ args, evalB ctx a = some true) := by
      have h3 := hS.coh (index_of t)
      unfold evalCohAt at h3
      rw [hd] at h3
      exact h3
    rw [two_mul_index hp] at hco
    have h := visit_or_sound hS hv t args c hb hargsb hco.1 hI
    refine ⟨h.1, ?_⟩
    intro u hu
    obtain ⟨bb, _, _, hr⟩ := h.2 u hu
    exact hr
  | xor args =>
    have hb : ctx.isBool (index_of t) = true := by
      have h2 := (hS.wf (index_of t)).2.1
      rw [hd] at h2
      exact h2
    have hargsb : ∀ x ∈ args, ctx.isBool (index_of x) = true := by
      have h3 := (hS.wf (index_of t)).2.2
      rw [hd] at h3
      exact h3
    have hco : ∀ bs, List.Forall₂ (fun a bb => evalB ctx a = some bb) args bs →
        evalB ctx (2 * index_of t) = some (bs.foldl xor false) := by
      have h3 := hS.coh (index_of t)
      unfold evalCohAt at h3
      rw [hd] at h3
      exact h3
    rw [two_mul_index hp] at hco
    unfold lit_collector_visit_xor
    have h := visitXorFold_sound hS hv args false c hargsb hI
    refine ⟨h.1, ?_⟩
    intro u hu
    obtain ⟨bs, hbs, hfold⟩ := h.2 u hu
    exact hfold ▸ resok_of_bool2term hS hb (hco bs hbs)
  | arithBineq a b =>
    have hb : ctx.isBool (index_of t) = true := by
      have h2 := (hS.wf (index_of t)).2.1
      rw [hd] at h2
      exact h2
    have hch : ∀ x ∈ [a, b], GoodT ctx x := by
      have h1 := (hS.wf (index_of t)).1
      rw [hd] at h1
      exact h1
    have hco : ∀ x y, ctx.evalT x = ctx.evalT a → ctx.evalT y = ctx.evalT b →
        evalB ctx (ctx.mkArithEq x y) = evalB ctx (2 * index_of t) ∧
        ctx.isBool (index_of (ctx.mkArithEq x y)) = true := by
      have h3 := hS.coh (index_of t)
      unfold evalCohAt at h3
      rw [hd] at h3
      exact h3
    rw [two_mul_index hp] at hco
    unfold lit_collector_visit_arith_bineq
    have h := visitBinAtom_sound hS hv t a b c hb
      (hch a (by simp)) (hch b (by simp)) hco hI
    refine ⟨h.1, ?_⟩
    intro u hu
    obtain ⟨bb, _, _, hr⟩ := h.2 u hu
    exact hr
  | bvArray args =>
    have hnb : ctx.isBool (index_of t) = false := by
      have h2 := (hS.wf (index_of t)).2.1
      rw [hd] at h2
      exact h2
    have hch : ∀ x ∈ args, GoodT ctx x := by
      have h1 := (hS.wf (index_of t)).1
      rw [hd] at h1
      exact h1
    have hco : ∀ as, EvalListEq ctx as args →
        ctx.evalT (ctx.mkBvarray as) = ctx.evalT (2 * index_of t) := by
      have h3 := hS.coh (index_of t)
      unfold evalCohAt at h3
      rw [hd] at h3
      exact h3
    rw [two_mul_index hp] at hco
    exact listRebuildAlways_sound hv t args c hnb hch hco hI
  | bvDiv a b =>
    have hnb : ctx.isBool (index_of t) = false := by
      have h2 := (hS.wf (index_of t)).2.1
      rw [hd] at h2
      exact h2
    have hch : ∀ x ∈ [a, b], GoodT ctx x := by
      have h1 := (hS.wf (index_of t)).1
      rw [hd] at h1
      exact h1
    have hco : ∀ x y, ctx.evalT x = ctx.evalT a → ctx.evalT y = ctx.evalT b →
        ctx.evalT (ctx.mkBvdiv x y) = ctx.evalT (2 * index_of t) := by
      have h3 := hS.coh (index_of t)
      unfold evalCohAt at h3
      rw [hd] at h3
      exact h3
    rw [two_mul_index hp] at hco
    unfold lit_collector_visit_bvdiv
    exact visitBinRebuild_sound hv t a b c hnb
      (hch a (by simp)) (hch b (by simp)) hco hI
  | bvRem a b =>
    have hnb : ctx.isBool (index_of t) = false := by
      have h2 := (hS.wf (index_of t)).2.1
      rw [hd] at h2
      exact h2
    have hch : ∀ x ∈ [a, b], GoodT ctx x := by
      have h1 := (hS.wf (index_of t)).1
      rw [hd] at h1
      exact h1
    have hco : ∀ x y, ctx.evalT x = ctx.evalT a → ctx.evalT y = ctx.evalT b →
        ctx.evalT (ctx.mkBvrem x y) = ctx.evalT (2 * index_of t) := by
      have h3 := hS.coh (index_of t)
      unfold evalCohAt at h3
      rw [hd] at h3
      exact h3
    rw [two_mul_index hp] at hco
    unfold lit_collector_visit_bvrem
    exact visitBinRebuild_sound hv t a b c hnb
      (hch a (by simp)) (hch b (by simp)) hco hI
  | bvSdiv a b =>
    have hnb : ctx.isBool (index_of t) = false := by
      have h2 := (hS.wf (index_of t)).2.1
      rw [hd] at h2
      exact h2
    have hch : ∀ x ∈ [a, b], GoodT ctx x := by
      have h1 := (hS.wf (index_of t)).1
      rw [hd] at h1
      exact h1
    have hco : ∀ x y, ctx.evalT x = ctx.evalT a → ctx.evalT y = ctx.evalT b →
        ctx.evalT (ctx.mkBvsdiv x y) = ctx.evalT (2 * index_of t) := by
      have h3 := hS.coh (index_of t)
      unfold evalCohAt at h3
      rw [hd] at h3
      exact h3
    rw [two_mul_index hp] at hco
    unfold lit_collector_visit_bvsdiv
    exact visitBinRebuild_sound hv t a b c hnb
      (hch a (by simp)) (hch b (by simp)) hco hI
  | bvSrem a b =>
    have hnb : ctx.isBool (index_of t) = false := by
      have h2 := (hS.wf (index_of t)).2.1
      rw [hd] at h2
      exact h2
    have hch : ∀ x ∈ [a, b], GoodT ctx x := by
      have h1 := (hS.wf (index_of t)).1
      rw [hd] at h1
      exact h1
    have hco : ∀ x y, ctx.evalT x = ctx.evalT a → ctx.evalT y = ctx.evalT b →
        ctx.evalT (ctx.mkBvsrem x y) = ctx.evalT (2 * index_of t) := by
      have h3 := hS.coh (index_of t)
      unfold evalCohAt at h3
      rw [hd] at h3
      exact h3
    rw [two_mul_index hp] at hco
    unfold lit_collector_visit_bvsrem
    exact visitBinRebuild_sound hv t a b c hnb
      (hch a (by simp)) (hch b (by simp)) hco hI
  | bvSmod a b =>
    have hnb : ctx.isBool (index_of t) = false := by
      have h2 := (hS.wf (index_of t)).2.1
      rw [hd] at h2
      exact h2
    have hch : ∀ x ∈ [a, b], GoodT ctx x := by
      have h1 := (hS.wf (index_of t)).1
      rw [hd] at h1
      exact h1
    have hco : ∀ x y, ctx.evalT x = ctx.evalT a → ctx.evalT y = ctx.evalT b →
        ctx.evalT (ctx.mkBvsmod x y) = ctx.evalT (2 * index_of t) := by
      have h3 := hS.coh (index_of t)
      unfold evalCohAt at h3
      rw [hd] at h3
      exact h3
    rw [two_mul_index hp] at hco
    unfold lit_collector_visit_bvsmod
    exact visitBinRebuild_sound hv t a b c hnb
      (hch a (by simp)) (hch b (by simp)) hco hI
  | bvShl a b =>
    have hnb : ctx.isBool (index_of t) = false := by
      have h2 := (hS.wf (index_of t)).2.1
      rw [hd] at h2
      exact h2
    have hch : ∀ x ∈ [a, b], GoodT ctx x := by
      have h1 := (hS.wf (index_of t)).1
      rw [hd] at h1
      exact h1
    have hco : ∀ x y, ctx.evalT x = ctx.evalT a → ctx.evalT y = ctx.evalT b →
        ctx.evalT (ctx.mkBvshl x y) = ctx.evalT (2 * index_of t) := by
      have h3 := hS.coh (index_of t)
      unfold evalCohAt at h3
      rw [hd] at h3
      exact h3
    rw [two_mul_index hp] at hco
    unfold lit_collector_visit_bvshl
    exact visitBinRebuild_sound hv t a b c hnb
      (hch a (by simp)) (hch b (by simp)) hco hI
  | bvLshr a b =>
    have hnb : ctx.isBool (index_of t) = false := by
      have h2 := (hS.wf (index_of t)).2.1
      rw [hd] at h2
      exact h2
    have hch : ∀ x ∈ [a, b], GoodT ctx x := by
      have h1 := (hS.wf (index_of t)).1
      rw [hd] at h1
      exact h1
    have hco : ∀ x y, ctx.evalT x = ctx.evalT a → ctx.evalT y = ctx.evalT b →
        ctx.evalT (ctx.mkBvlshr x y) = ctx.evalT (2 * index_of t) := by
      have h3 := hS.coh (index_of t)
      unfold evalCohAt at h3
      rw [hd] at h3
      exact h3
    rw [two_mul_index hp] at hco
    unfold lit_collector_visit_bvlshr
    exact visitBinRebuild_sound hv t a b c hnb
      (hch a (by simp)) (hch b (by simp)) hco hI
  | bvAshr a b =>
    have hnb : ctx.isBool (index_of t) = false := by
      have h2 := (hS.wf (index_of t)).2.1
      rw [hd] at h2
      exact h2
    have hch : ∀ x ∈ [a, b], GoodT ctx x := by
      have h1 := (hS.wf (index_of t)).1
      rw [hd] at h1
      exact h1
    have hco : ∀ x y, ctx.evalT x = ctx.evalT a → ctx.evalT y = ctx.evalT b →
        ctx.evalT (ctx.mkBvashr x y) = ctx.evalT (2 * index_of t) := by
      have h3 := hS.coh (index_of t)
      unfold evalCohAt at h3
      rw [hd] at h3
      exact h3
    rw [two_mul_index hp] at hco
    unfold lit_collector_visit_bvashr
    exact visitBinRebuild_sound hv t a b c hnb
      (hch a (by simp)) (hch b (by simp)) hco hI
  | bvEq a b =>
    have hb : ctx.isBool (index_of t) = true := by
      have h2 := (hS.wf (index_of t)).2.1
      rw [hd] at h2
      exact h2
    have hch : ∀ x ∈ [a, b], GoodT ctx x := by
      have h1 := (hS.wf (index_of t)).1
      rw [hd] at h1
      exact h1
    have hco : ∀ x y, ctx.evalT x = ctx.evalT a → ctx.evalT y = ctx.evalT b →
        evalB ctx (ctx.mkBveq x y) = evalB ctx (2 * index_of t) ∧
        ctx.isBool (index_of (ctx.mkBveq x y)) = true := by
      have h3 := hS.coh (index_of t)
      unfold evalCohAt at h3
      rw [hd] at h3
      exact h3
    rw [two_mul_index hp] at hco
    unfold lit_collector_visit_bveq
    have h := visitBinAtom_sound hS hv t a b c hb
      (hch a (by simp)) (hch b (by simp)) hco hI
    refine ⟨h.1, ?_⟩
    intro u hu
    obtain ⟨bb, _, _, hr⟩ := h.2 u hu
    exact hr
  | bvGe a b =>
    have hb : ctx.isBool (index_of t) = true := by
      have h2 := (hS.wf (index_of t)).2.1
      rw [hd] at h2
      exact h2
    have hch : ∀ x ∈ [a, b], GoodT ctx x := by
      have h1 := (hS.wf (index_of t)).1
      rw [hd] at h1
      exact h1
    have hco : ∀ x y, ctx.evalT x = ctx.evalT a → ctx.evalT y = ctx.evalT b →
        evalB ctx (ctx.mkBvge x y) = evalB ctx (2 * index_of t) ∧
        ctx.isBool (index_of (ctx.mkBvge x y)) = true := by
      have h3 := hS.coh (index_of t)
      unfold evalCohAt at h3
      rw [hd] at h3
      exact h3
    rw [two_mul_index hp] at hco
    unfold lit_collector_visit_bvge
    have h := visitBinAtom_sound hS hv t a b c hb
      (hch a (by simp)) (hch b (by simp)) hco hI
    refine ⟨h.1, ?_⟩
    intro u hu
    obtain ⟨bb, _, _, hr⟩ := h.2 u hu
    exact hr
  | bvSge a b =>
    have hb : ctx.isBool (index_of t) = true := by
      have h2 := (hS.wf (index_of t)).2.1
      rw [hd] at h2
      exact h2
    have hch : ∀ x ∈ [a, b], GoodT ctx x := by
      have h1 := (hS.wf (index_of t)).1
      rw [hd] at h1
      exact h1
    have hco : ∀ x y, ctx.evalT x = ctx.evalT a → ctx.evalT y = ctx.evalT b →
        evalB ctx (ctx.mkBvsge x y) = evalB ctx (2 * index_of t) ∧
        ctx.isBool (index_of (ctx.mkBvsge x y)) = true := by
      have h3 := hS.coh (index_of t)
      unfold evalCohAt at h3
      rw [hd] at h3
      exact h3
    rw [two_mul_index hp] at hco
    unfold lit_collector_visit_bvsge
    have h := visitBinAtom_sound hS hv t a b c hb
      (hch a (by simp)) (hch b (by simp)) hco hI
    refine ⟨h.1, ?_⟩
    intro u hu
    obtain ⟨bb, _, _, hr⟩ := h.2 u hu
    exact hr
  | select i u0 =>
    have hgu : GoodT ctx u0 := by
      have h1 := (hS.wf (index_of t)).1
      rw [hd] at h1
      exact h1 u0 (by simp [childrenOf])
    have hco : ∀ w, ctx.evalT w = ctx.evalT u0 →
        ctx.evalT (ctx.mkSelect i w) = ctx.evalT (2 * index_of t) ∧
        ctx.isBool (index_of (ctx.mkSelect i w)) = ctx.isBool (index_of t) := by
      have h3 := hS.coh (index_of t)
      unfold evalCohAt at h3
      rw [hd] at h3
      exact h3
    rw [two_mul_index hp] at hco
    exact visit_select_sound hS hv t i u0 c hgu hco hI
  | bit i u0 =>
    have hb : ctx.isBool (index_of t) = true := by
      have h2 := (hS.wf (index_of t)).2.1
      rw [hd] at h2
      exact h2
    have hgu : GoodT ctx u0 := by
      have h1 := (hS.wf (index_of t)).1
      rw [hd] at h1
      exact h1 u0 (by simp [childrenOf])
    have hco : ∀ w, ctx.evalT w = ctx.evalT u0 →
        evalB ctx (ctx.mkBitextract w i) = evalB ctx (2 * index_of t) ∧
        ctx.isBool (index_of (ctx.mkBitextract w i)) = true := by
      have h3 := hS.coh (index_of t)
      unfold evalCohAt at h3
      rw [hd] at h3
      exact h3
    rw [two_mul_index hp] at hco
    unfold lit_collector_visit_bit
    have h := unaryAtom_sound hS hv t u0 c hb hgu hco hI
    refine ⟨h.1, ?_⟩
    intro u hu
    obtain ⟨bb, _, _, hr⟩ := h.2 u hu
    exact hr
  | powProd vars =>
    have hnb : ctx.isBool (index_of t) = false := by
      have h2 := (hS.wf (index_of t)).2.1
      rw [hd] at h2
      exact h2
    have hch : ∀ x ∈ vars, GoodT ctx x := by
      have h1 := (hS.wf (index_of t)).1
      rw [hd] at h1
      exact h1
    have hco : ∀ as, EvalListEq ctx as vars →
        ctx.evalT (ctx.mkPprod (2 * index_of t) as) = ctx.evalT (2 * index_of t) := by
      have h3 := hS.coh (index_of t)
      unfold evalCohAt at h3
      rw [hd] at h3
      exact h3
    rw [two_mul_index hp] at hco
    unfold lit_collector_visit_pprod
    exact listRebuild_sound hv t vars c hnb hch hco hI
  | arithPoly vars =>
    have hnb : ctx.isBool (index_of t) = false := by
      have h2 := (hS.wf (index_of t)).2.1
      rw [hd] at h2
      exact h2
    have hch : ∀ x ∈ (match vars with
        | v0 :: rest => if v0 = const_idx then rest else vars
        | [] => ([] : List Nat)), GoodT ctx x := by
      have h1 := (hS.wf (index_of t)).1
      rw [hd] at h1
      exact h1
    have hco : ∀ as, EvalListEq ctx as vars →
        ctx.evalT (ctx.mkArithPoly (2 * index_of t) as) = ctx.evalT (2 * index_of t) := by
      have h3 := hS.coh (index_of t)
      unfold evalCohAt at h3
      rw [hd] at h3
      exact h3
    rw [two_mul_index hp] at hco
    unfold lit_collector_visit_poly
    exact visitPolyGeneric_sound hv t vars c hnb hch hco hI
  | bvPoly64 vars =>
    have hnb : ctx.isBool (index_of t) = false := by
      have h2 := (hS.wf (index_of t)).2.1
      rw [hd] at h2
      exact h2
    have hch : ∀ x ∈ (match vars with
        | v0 :: rest => if v0 = const_idx then rest else vars
        | [] => ([] : List Nat)), GoodT ctx x := by
      have h1 := (hS.wf (index_of t)).1
      rw [hd] at h1
      exact h1
    have hco : ∀ as, EvalListEq ctx as vars →
        ctx.evalT (ctx.mkBvarith64Poly (2 * index_of t) as) = ctx.evalT (2 * index_of t) := by
      have h3 := hS.coh (index_of t)
      unfold evalCohAt at h3
      rw [hd] at h3
      exact h3
    rw [two_mul_index hp] at hco
    unfold lit_collector_visit_bvpoly64
    exact visitPolyGeneric_sound hv t vars c hnb hch hco hI
  | bvPoly vars =>
    have hnb : ctx.isBool (index_of t) = false := by
      have h2 := (hS.wf (index_of t)).2.1
      rw [hd] at h2
      exact h2
    have hch : ∀ x ∈ (match vars with
        | v0 :: rest => if v0 = const_idx then rest else vars
        | [] => ([] : List Nat)), GoodT ctx x := by
      have h1 := (hS.wf (index_of t)).1
      rw [hd] at h1
      exact h1
    have hco : ∀ as, EvalListEq ctx as vars →
        ctx.evalT (ctx.mkBvarithPoly (2 * index_of t) as) = ctx.evalT (2 * index_of t) := by
      have h3 := hS.coh (index_of t)
      unfold evalCohAt at h3
      rw [hd] at h3
      exact h3
    rw [two_mul_index hp] at hco
    unfold lit_collector_visit_bvpoly
    exact visitPolyGeneric_sound hv t vars c hnb hch hco hI
  | unused =>
    exact ⟨hI, fun u hu => by simp at hu⟩
  | reserved =>
    exact ⟨hI, fun u hu => by simp at hu⟩

/-- Main soundness invariant: the visitor preserves the collector
invariant, and every result evaluates like its input (a boolean constant
equal to the model value for boolean inputs). -/
theorem visit_sound (ctx : Ctx) (hS : SemOK ctx) :
    ∀ fuel, VIH ctx (lit_collector_visit ctx fuel) := by
  intro fuel
  induction fuel with
  | zero =>
    intro t c hI
    exact ⟨hI, fun u hu => by simp [lit_collector_visit] at hu⟩
  | succ fuel ih =>
    intro t c hI
    unfold lit_collector_visit
    simp only
    cases hc : lit_collector_find_cached_term c (unsigned_term t) with
    | some u0 =>
      refine ⟨hI, ?_⟩
      intro u hu
      cases hu
      intro hG
      have hmem := assocFind_mem hc
      have hres : ResOK ctx (unsigned_term t) u0 := hI.1 _ hmem
      exact resok_reapply hS hG hres
    | none =>
      rcases hk : visitKind ctx (lit_collector_visit ctx fuel)
          (unsigned_term t) c with ⟨r, c2⟩
      have hks := visitKind_sound hS ih (unsigned_term t) c
        (unsigned_polarity t) hI
      rw [hk] at hks
      obtain ⟨hI2, hres2⟩ := hks
      cases r with
      | fail e => exact ⟨hI2, fun u hu => by simp at hu⟩
      | out => exact ⟨hI2, fun u hu => by simp at hu⟩
      | ok u0 =>
        have hres0 : ResOK ctx (unsigned_term t) u0 := hres2 u0 rfl
        refine ⟨InvOK_cache_result hI2 hres0, ?_⟩
        intro u hu
        cases hu
        intro hG
        exact resok_reapply hS hG hres0

/-! ## Orchestrator-level soundness -/

theorem InvOK_init (ctx : Ctx) : InvOK ctx init_lit_collector := by
  constructor
  · intro p hp
    simp [init_lit_collector] at hp
  · intro l hl
    simp [init_lit_collector] at hl

theorem errCode_neg (e : LitErr) : errCode e < 0 := by
  cases e <;> decide

theorem process_InvOK {ctx : Ctx} (hS : SemOK ctx) (fuel : Nat) (t : Nat)
    {c : Collector} (hI : InvOK ctx c) :
    InvOK ctx (lit_collector_process ctx fuel t c).2 := by
  unfold lit_collector_process
  rcases hvis : lit_collector_visit ctx fuel t c with ⟨r, cv⟩
  have h := (visit_sound ctx hS fuel t c hI).1
  rw [hvis] at h
  cases r with
  | fail e => exact h
  | ok u => exact h
  | out => exact h

theorem processAll_InvOK {ctx : Ctx} (hS : SemOK ctx) (fuel : Nat) :
    ∀ (as : List Nat) (c : Collector), InvOK ctx c →
      InvOK ctx (processAll ctx fuel as c).2 := by
  intro as
  induction as with
  | nil => intro c hI; exact hI
  | cons a rest ih =>
    intro c hI
    unfold processAll
    rcases hp : lit_collector_process ctx fuel a c with ⟨r, c1⟩
    have h1 : InvOK ctx c1 := by
      have := process_InvOK hS fuel a hI
      rw [hp] at this
      exact this
    cases r with
    | ok u => exact ih c1 h1
    | fail e => exact h1
    | out => exact h1

/-! ## Totality -/

theorem term_decomp (t : Nat) : t = 2 * index_of t + polarity_of t := by
  unfold index_of polarity_of
  omega

theorem evalT_ne_none_both {ctx : Ctx} {a : Nat}
    (h : ctx.evalT (2 * index_of a) ≠ none ∧
      ctx.evalT (2 * index_of a + 1) ≠ none) : ctx.evalT a ≠ none := by
  have hd := term_decomp a
  rcases Nat.mod_two_eq_zero_or_one a with hp | hp
  · have : a = 2 * index_of a := by
      unfold polarity_of at hd
      omega
    rw [this]
    exact h.1
  · have : a = 2 * index_of a + 1 := by
      unfold polarity_of at hd
      omega
    rw [this]
    exact h.2

theorem register_atom_total {ctx : Ctx} {t : Nat} (hne : evalB ctx t ≠ none)
    (c : Collector) : ∃ u c', register_atom ctx t c = (VRes.ok u, c') := by
  unfold register_atom term_is_true_in_model
  cases he : ctx.evalT t with
  | none => exact absurd (evalB_none_iff.mpr he) hne
  | some v =>
    simp only [vbind]
    split
    · exact ⟨_, _, rfl⟩
    · exact ⟨_, _, rfl⟩

theorem visitArgs_total {ctx : Ctx} {v : Nat → Collector → VRes Nat × Collector}
    (hv : VIH ctx v) {bound : Nat} (hvt : VTot ctx v bound) :
    ∀ args c, (∀ a ∈ args, 1 ≤ index_of a ∧ index_of a < bound) →
      InvOK ctx c →
      ∃ as c', visitArgs v args c = (VRes.ok as, c') := by
  intro args
  induction args with
  | nil => intro c _ _; exact ⟨[], c, rfl⟩
  | cons a rest ih =>
    intro c hb hI
    obtain ⟨u, c1, hu⟩ := hvt a c hI (hb a (by simp)).1 (hb a (by simp)).2
    have hI1 : InvOK ctx c1 := by
      have h := (hv a c hI).1
      rw [hu] at h
      exact h
    obtain ⟨as, c2, has⟩ :=
      ih c1 (fun x hx => hb x (List.mem_cons_of_mem a hx)) hI1
    refine ⟨u :: as, c2, ?_⟩
    unfold visitArgs
    rw [hu]
    simp only [vbind]
    rw [has]

theorem visitFold_total {ctx : Ctx} {v : Nat → Collector → VRes Nat × Collector}
    (hv : VIH ctx v) {bound : Nat} (hvt : VTot ctx v bound) :
    ∀ args u0 c, (∀ a ∈ args, 1 ≤ index_of a ∧ index_of a < bound) →
      InvOK ctx c →
      ∃ u c', visitFold v args u0 c = (VRes.ok u, c') := by
  intro args
  induction args with
  | nil => intro u0 c _ _; exact ⟨u0, c, rfl⟩
  | cons a rest ih =>
    intro u0 c hb hI
    obtain ⟨u, c1, hu⟩ := hvt a c hI (hb a (by simp)).1 (hb a (by simp)).2
    have hI1 : InvOK ctx c1 := by
      have h := (hv a c hI).1
      rw [hu] at h
      exact h
    obtain ⟨u2, c2, h2⟩ :=
      ih u c1 (fun x hx => hb x (List.mem_cons_of_mem a hx)) hI1
    refine ⟨u2, c2, ?_⟩
    unfold visitFold
    rw [hu]
    simp only [vbind]
    exact h2

theorem visitXorFold_total {ctx : Ctx}
    {v : Nat → Collector → VRes Nat × Collector}
    (hv : VIH ctx v) {bound : Nat} (hvt : VTot ctx v bound) :
    ∀ args b0 c, (∀ a ∈ args, 1 ≤ index_of a ∧ index_of a < bound) →
      InvOK ctx c →
      ∃ u c', visitXorFold v args b0 c = (VRes.ok u, c') := by
  intro args
  induction args with
  | nil => intro b0 c _ _; exact ⟨bool2term b0, c, rfl⟩
  | cons a rest ih =>
    intro b0 c hb hI
    obtain ⟨u, c1, hu⟩ := hvt a c hI (hb a (by simp)).1 (hb a (by simp)).2
    have hI1 : InvOK ctx c1 := by
      have h := (hv a c hI).1
      rw [hu] at h
      exact h
    obtain ⟨u2, c2, h2⟩ :=
      ih (xor b0 (decide (u = true_term))) c1
        (fun x hx => hb x (List.mem_cons_of_mem a hx)) hI1
    refine ⟨u2, c2, ?_⟩
    unfold visitXorFold
    rw [hu]
    simp only [vbind]
    exact h2

theorem findTrueArg_total {ctx : Ctx} :
    ∀ args (c : Collector), (∀ a ∈ args, evalB ctx a ≠ none) →
      (∃ a ∈ args, evalB ctx a = some true) →
      ∃ a, findTrueArg ctx args c = (VRes.ok (some a), c) := by
  intro args
  induction args with
  | nil =>
    intro c _ hex
    obtain ⟨a, ha, _⟩ := hex
    simp at ha
  | cons x rest ih =>
    intro c hall hex
    have hx : evalB ctx x ≠ none := hall x (by simp)
    cases he : ctx.evalT x with
    | none => exact absurd (evalB_none_iff.mpr he) hx
    | some w =>
      unfold findTrueArg term_is_true_in_model
      rw [he]
      simp only [vbind]
      split
      · exact ⟨x, rfl⟩
      · rename_i hw
        have hwf : ctx.isTrue w = false := by
          revert hw
          cases ctx.isTrue w <;> simp
        apply ih c (fun a ha => hall a (List.mem_cons_of_mem x ha))
        obtain ⟨a, ha, hat⟩ := hex
        rcases List.mem_cons.mp ha with rfl | ha
        · exfalso
          have : evalB ctx a = some false := by
            unfold evalB
            rw [he]
            simp [hwf]
          rw [hat] at this
          simp at this
        · exact ⟨a, ha, hat⟩

theorem evalB_ne_none_of_evalT {ctx : Ctx} {t : Nat}
    (h : ctx.evalT t ≠ none) : evalB ctx t ≠ none :=
  fun hh => h (evalB_none_iff.mp hh)

theorem visitKind_total {ctx : Ctx} {v : Nat → Collector → VRes Nat × Collector}
    (hS : SemOK ctx) (hv : VIH ctx v) {n : Nat} (hOK : OKBelow ctx n)
    (t : Nat) (c : Collector) (hvt : VTot ctx v (index_of t))
    (hp : polarity_of t = 0) (h1 : 1 ≤ index_of t) (hn : index_of t < n)
    (hI : InvOK ctx c) :
    ∃ u c', visitKind ctx v t c = (VRes.ok u, c') := by
  obtain ⟨hgood, hch, hev⟩ := hOK (index_of t) h1 hn
  rw [two_mul_index hp] at hev
  unfold visitKind
  cases hd : ctx.desc (index_of t) with
  | constant => exact ⟨t, c, rfl⟩
  | arithConst => exact ⟨t, c, rfl⟩
  | bv64Const => exact ⟨t, c, rfl⟩
  | bvConst => exact ⟨t, c, rfl⟩
  | var =>
    rw [hd] at hgood
    exact hgood.elim
  | forallT =>
    rw [hd] at hgood
    exact hgood.elim
  | lambdaT =>
    rw [hd] at hgood
    exact hgood.elim
  | unused =>
    rw [hd] at hgood
    exact hgood.elim
  | reserved =>
    rw [hd] at hgood
    exact hgood.elim
  | uninterpreted =>
    simp only
    split
    · rename_i hb
      exact register_atom_total (evalB_ne_none_of_evalT (hev hb).1) c
    · exact ⟨t, c, rfl⟩
  | arithEq u0 =>
    show ∃ u c', lit_collector_visit_eq_atom ctx v t u0 c = (VRes.ok u, c')
    rw [hd] at hch
    simp only [childrenOf] at hch
    obtain ⟨w, c1, hw⟩ := hvt u0 c hI (hch u0 (by simp)).1 (hch u0 (by simp)).2
    have hgu : GoodT ctx u0 := by
      have h := (hS.wf (index_of t)).1
      rw [hd] at h
      exact h u0 (by simp [childrenOf])
    have hb : ctx.isBool (index_of t) = true := by
      have h := (hS.wf (index_of t)).2.1
      rw [hd] at h
      exact h
    have hco : ∀ w, ctx.evalT w = ctx.evalT u0 →
        evalB ctx (ctx.mkArithEq0 w) = evalB ctx (2 * index_of t) ∧
        ctx.isBool (index_of (ctx.mkArithEq0 w)) = true := by
      have h3 := hS.coh (index_of t)
      unfold evalCohAt at h3
      rw [hd] at h3
      exact h3
    rw [two_mul_index hp] at hco
    have hresw : ResOK ctx u0 w := by
      have h := (hv u0 c hI).2 w (by rw [hw]) hgu
      exact h
    have hne : evalB ctx (if w ≠ u0 then ctx.mkArithEq0 w else t) ≠ none := by
      split
      · rw [(hco w hresw.1).1]
        exact evalB_ne_none_of_evalT (hev hb).1
      · exact evalB_ne_none_of_evalT (hev hb).1
    unfold lit_collector_visit_eq_atom
    rw [hw]
    simp only [vbind]
    exact register_atom_total hne c1
  | arithGe u0 =>
    show ∃ u c', lit_collector_visit_ge_atom ctx v t u0 c = (VRes.ok u, c')
    rw [hd] at hch
    simp only [childrenOf] at hch
    obtain ⟨w, c1, hw⟩ := hvt u0 c hI (hch u0 (by simp)).1 (hch u0 (by simp)).2
    have hgu : GoodT ctx u0 := by
      have h := (hS.wf (index_of t)).1
      rw [hd] at h
      exact h u0 (by simp [childrenOf])
    have hb : ctx.isBool (index_of t) = true := by
      have h := (hS.wf (index_of t)).2.1
      rw [hd] at h
      exact h
    have hco : ∀ w, ctx.evalT w = ctx.evalT u0 →
        evalB ctx (ctx.mkArithGeq0 w) = evalB ctx (2 * index_of t) ∧
        ctx.isBool (index_of (ctx.mkArithGeq0 w)) = true := by
      have h3 := hS.coh (index_of t)
      unfold evalCohAt at h3
      rw [hd] at h3
      exact h3
    rw [two_mul_index hp] at hco
    have hresw : ResOK ctx u0 w := by
      have h := (hv u0 c hI).2 w (by rw [hw]) hgu
      exact h
    have hne : evalB ctx (if w ≠ u0 then ctx.mkArithGeq0 w else t) ≠ none := by
      split
      · rw [(hco w hresw.1).1]
        exact evalB_ne_none_of_evalT (hev hb).1
      · exact evalB_ne_none_of_evalT (hev hb).1
    unfold lit_collector_visit_ge_atom
    rw [hw]
    simp only [vbind]
    exact register_atom_total hne c1
  | ite c1 a b =>
    show ∃ u c', lit_collector_visit_ite v c1 a b c = (VRes.ok u, c')
    rw [hd] at hch
    simp only [childrenOf] at hch
    obtain ⟨w, cc1, hw⟩ := hvt c1 c hI (hch c1 (by simp)).1 (hch c1 (by simp)).2
    have hI1 : InvOK ctx cc1 := by
      have h := (hv c1 c hI).1
      rw [hw] at h
      exact h
    have hbounds : 1 ≤ index_of (if w = true_term then a else b) ∧
        index_of (if w = true_term then a else b) < index_of t := by
      split
      · exact hch a (by simp)
      · exact hch b (by simp)
    obtain ⟨u, cc2, hu⟩ := hvt _ cc1 hI1 hbounds.1 hbounds.2
    refine ⟨u, cc2, ?_⟩
    unfold lit_collector_visit_ite
    rw [hw]
    simp only [vbind]
    exact hu
  | iteSpecial c1 a b =>
    show ∃ u c', lit_collector_visit_ite v c1 a b c = (VRes.ok u, c')
    rw [hd] at hch
    simp only [childrenOf] at hch
    obtain ⟨w, cc1, hw⟩ := hvt c1 c hI (hch c1 (by simp)).1 (hch c1 (by simp)).2
    have hI1 : InvOK ctx cc1 := by
      have h := (hv c1 c hI).1
      rw [hw] at h
      exact h
    have hbounds : 1 ≤ index_of (if w = true_term then a else b) ∧
        index_of (if w = true_term then a else b) < index_of t := by
      split
      · exact hch a (by simp)
      · exact hch b (by simp)
    obtain ⟨u, cc2, hu⟩ := hvt _ cc1 hI1 hbounds.1 hbounds.2
    refine ⟨u, cc2, ?_⟩
    unfold lit_collector_visit_ite
    rw [hw]
    simp only [vbind]
    exact hu
  | app args =>
    show ∃ u c', lit_collector_visit_app ctx v t args c = (VRes.ok u, c')
    rw [hd] at hch
    simp only [childrenOf] at hch
    have hwfch : ∀ a ∈ args, GoodT ctx a := by
      have h := (hS.wf (index_of t)).1
      rw [hd] at h
      exact h
    have hco : ∀ as, EvalListEq ctx as args →
        ctx.evalT (ctx.mkApp as) = ctx.evalT (2 * index_of t) ∧
        ctx.isBool (index_of (ctx.mkApp as)) = ctx.isBool (index_of t) := by
      have h3 := hS.coh (index_of t)
      unfold evalCohAt at h3
      rw [hd] at h3
      exact h3
    rw [two_mul_index hp] at hco
    obtain ⟨as, c1, has⟩ :=
      visitArgs_total hv hvt args (pushFrame c args.length) hch
        (InvOK_pushFrame hI _)
    have hsound := visitArgs_sound hv args (pushFrame c args.length) hwfch
      (InvOK_pushFrame hI _)
    rw [has] at hsound
    have hle : EvalListEq ctx as args := hsound.2 as rfl
    simp only [lit_collector_visit_app]
    rw [has]
    simp only [vbind]
    have key : ∀ t', evalB ctx t' = evalB ctx t →
        ctx.isBool (index_of t') = ctx.isBool (index_of t) →
        ∃ u c', (if ctx.isBool (index_of t') = true then
            vbind (register_atom ctx t' c1) (fun u c => (VRes.ok u, popFrame c))
          else (VRes.ok t', popFrame c1)) = (VRes.ok u, c') := by
      intro t' h1 h2
      split
      · rename_i hbt'
        have hbt : ctx.isBool (index_of t) = true := by
          rw [← h2]
          exact hbt'
        have hne : evalB ctx t' ≠ none := by
          rw [h1]
          exact evalB_ne_none_of_evalT (hev hbt).1
        obtain ⟨w, c2, hreg⟩ := register_atom_total hne c1
        rw [hreg]
        simp only [vbind]
        exact ⟨w, popFrame c2, rfl⟩
      · exact ⟨t', popFrame c1, rfl⟩
    exact key (if as ≠ args then ctx.mkApp as else t)
      (by
        split
        · exact evalB_congr (hco as hle).1
        · rfl)
      (by
        split
        · exact (hco as hle).2
        · rfl)
  | update args =>
    show ∃ u c', lit_collector_visit_update ctx v t args c = (VRes.ok u, c')
    rw [hd] at hch
    simp only [childrenOf] at hch
    obtain ⟨as, c1, has⟩ :=
      visitArgs_total hv hvt args (pushFrame c args.length) hch
        (InvOK_pushFrame hI _)
    simp only [lit_collector_visit_update]
    rw [has]
    simp only [vbind]
    exact ⟨_, popFrame c1, rfl⟩
  | tuple args =>
    show ∃ u c', lit_collector_visit_tuple ctx v t args c = (VRes.ok u, c')
    rw [hd] at hch
    simp only [childrenOf] at hch
    obtain ⟨as, c1, has⟩ :=
      visitArgs_total hv hvt args (pushFrame c args.length) hch
        (InvOK_pushFrame hI _)
    simp only [lit_collector_visit_tuple]
    rw [has]
    simp only [vbind]
    exact ⟨_, popFrame c1, rfl⟩
  | eq a b =>
    show ∃ u c', lit_collector_visit_eq ctx v t a b c = (VRes.ok u, c')
    rw [hd] at hch
    simp only [childrenOf] at hch
    have hwfch : ∀ x ∈ [a, b], GoodT ctx x := by
      have h := (hS.wf (index_of t)).1
      rw [hd] at h
      exact h
    have hb : ctx.isBool (index_of t) = true := by
      have h := (hS.wf (index_of t)).2.1
      rw [hd] at h
      exact h
    have hco : ∀ x y, ctx.evalT x = ctx.evalT a → ctx.evalT y = ctx.evalT b →
        evalB ctx (ctx.mkEq x y) = evalB ctx (2 * index_of t) ∧
        ctx.isBool (index_of (ctx.mkEq x y)) = true := by
      have h3 := hS.coh (index_of t)
      unfold evalCohAt at h3
      rw [hd] at h3
      exact h3
    rw [two_mul_index hp] at hco
    obtain ⟨x, cx, hx⟩ := hvt a c hI (hch a (by simp)).1 (hch a (by simp)).2
    have hIx : InvOK ctx cx := by
      have h := (hv a c hI).1
      rw [hx] at h
      exact h
    have hrx : ResOK ctx a x := (hv a c hI).2 x (by rw [hx]) (hwfch a (by simp))
    obtain ⟨y, cy, hy⟩ := hvt b cx hIx (hch b (by simp)).1 (hch b (by simp)).2
    have hry : ResOK ctx b y := (hv b cx hIx).2 y (by rw [hy]) (hwfch b (by simp))
    have hne : evalB ctx (if x ≠ a ∨ y ≠ b then ctx.mkEq x y else t) ≠ none := by
      split
      · rw [(hco x y hrx.1 hry.1).1]
        exact evalB_ne_none_of_evalT (hev hb).1
      · exact evalB_ne_none_of_evalT (hev hb).1
    unfold lit_collector_visit_eq visitBinAtom
    rw [hx]
    simp only [vbind]
    rw [hy]
    simp only [vbind]
    exact register_atom_total hne cy
  | arithBineq a b =>
    show ∃ u c', lit_collector_visit_arith_bineq ctx v t a b c = (VRes.ok u, c')
    rw [hd] at hch
    simp only [childrenOf] at hch
    have hwfch : ∀ x ∈ [a, b], GoodT ctx x := by
      have h := (hS.wf (index_of t)).1
      rw [hd] at h
      exact h
    have hb : ctx.isBool (index_of t) = true := by
      have h := (hS.wf (index_of t)).2.1
      rw [hd] at h
      exact h
    have hco : ∀ x y, ctx.evalT x = ctx.evalT a → ctx.evalT y = ctx.evalT b →
        evalB ctx (ctx.mkArithEq x y) = evalB ctx (2 * index_of t) ∧
        ctx.isBool (index_of (ctx.mkArithEq x y)) = true := by
      have h3 := hS.coh (index_of t)
      unfold evalCohAt at h3
      rw [hd] at h3
      exact h3
    rw [two_mul_index hp] at hco
    obtain ⟨x, cx, hx⟩ := hvt a c hI (hch a (by simp)).1 (hch a (by simp)).2
    have hIx : InvOK ctx cx := by
      have h := (hv a c hI).1
      rw [hx] at h
      exact h
    have hrx : ResOK ctx a x := (hv a c hI).2 x (by rw [hx]) (hwfch a (by simp))
    obtain ⟨y, cy, hy⟩ := hvt b cx hIx (hch b (by simp)).1 (hch b (by simp)).2
    have hry : ResOK ctx b y := (hv b cx hIx).2 y (by rw [hy]) (hwfch b (by simp))
    have hne : evalB ctx (if x ≠ a ∨ y ≠ b then ctx.mkArithEq x y else t) ≠ none := by
      split
      · rw [(hco x y hrx.1 hry.1).1]
        exact evalB_ne_none_of_evalT (hev hb).1
      · exact evalB_ne_none_of_evalT (hev hb).1
    unfold lit_collector_visit_arith_bineq visitBinAtom
    rw [hx]
    simp only [vbind]
    rw [hy]
    simp only [vbind]
    exact register_atom_total hne cy
  | bvEq a b =>
    show ∃ u c', lit_collector_visit_bveq ctx v t a b c = (VRes.ok u, c')
    rw [hd] at hch
    simp only [childrenOf] at hch
    have hwfch : ∀ x ∈ [a, b], GoodT ctx x := by
      have h := (hS.wf (index_of t)).1
      rw [hd] at h
      exact h
    have hb : ctx.isBool (index_of t) = true := by
      have h := (hS.wf (index_of t)).2.1
      rw [hd] at h
      exact h
    have hco : ∀ x y, ctx.evalT x = ctx.evalT a → ctx.evalT y = ctx.evalT b →
        evalB ctx (ctx.mkBveq x y) = evalB ctx (2 * index_of t) ∧
        ctx.isBool (index_of (ctx.mkBveq x y)) = true := by
      have h3 := hS.coh (index_of t)
      unfold evalCohAt at h3
      rw [hd] at h3
      exact h3
    rw [two_mul_index hp] at hco
    obtain ⟨x, cx, hx⟩ := hvt a c hI (hch a (by simp)).1 (hch a (by simp)).2
    have hIx : InvOK ctx cx := by
      have h := (hv a c hI).1
      rw [hx] at h
      exact h
    have hrx : ResOK ctx a x := (hv a c hI).2 x (by rw [hx]) (hwfch a (by simp))
    obtain ⟨y, cy, hy⟩ := hvt b cx hIx (hch b (by simp)).1 (hch b (by simp)).2
    have hry : ResOK ctx b y := (hv b cx hIx).2 y (by rw [hy]) (hwfch b (by simp))
    have hne : evalB ctx (if x ≠ a ∨ y ≠ b then ctx.mkBveq x y else t) ≠ none := by
      split
      · rw [(hco x y hrx.1 hry.1).1]
        exact evalB_ne_none_of_evalT (hev hb).1
      · exact evalB_ne_none_of_evalT (hev hb).1
    unfold lit_collector_visit_bveq visitBinAtom
    rw [hx]
    simp only [vbind]
    rw [hy]
    simp only [vbind]
    exact register_atom_total hne cy
  | bvGe a b =>
    show ∃ u c', lit_collector_visit_bvge ctx v t a b c = (VRes.ok u, c')
    rw [hd] at hch
    simp only [childrenOf] at hch
    have hwfch : ∀ x ∈ [a, b], GoodT ctx x := by
      have h := (hS.wf (index_of t)).1
      rw [hd] at h
      exact h
    have hb : ctx.isBool (index_of t) = true := by
      have h := (hS.wf (index_of t)).2.1
      rw [hd] at h
      exact h
    have hco : ∀ x y, ctx.evalT x = ctx.evalT a → ctx.evalT y = ctx.evalT b →
        evalB ctx (ctx.mkBvge x y) = evalB ctx (2 * index_of t) ∧
        ctx.isBool (index_of (ctx.mkBvge x y)) = true := by
      have h3 := hS.coh (index_of t)
      unfold evalCohAt at h3
      rw [hd] at h3
      exact h3
    rw [two_mul_index hp] at hco
    obtain ⟨x, cx, hx⟩ := hvt a c hI (hch a (by simp)).1 (hch a (by simp)).2
    have hIx : InvOK ctx cx := by
      have h := (hv a c hI).1
      rw [hx] at h
      exact h
    have hrx : ResOK ctx a x := (hv a c hI).2 x (by rw [hx]) (hwfch a (by simp))
    obtain ⟨y, cy, hy⟩ := hvt b cx hIx (hch b (by simp)).1 (hch b (by simp)).2
    have hry : ResOK ctx b y := (hv b cx hIx).2 y (by rw [hy]) (hwfch b (by simp))
    have hne : evalB ctx (if x ≠ a ∨ y ≠ b then ctx.mkBvge x y else t) ≠ none := by
      split
      · rw [(hco x y hrx.1 hry.1).1]
        exact evalB_ne_none_of_evalT (hev hb).1
      · exact evalB_ne_none_of_evalT (hev hb).1
    unfold lit_collector_visit_bvge visitBinAtom
    rw [hx]
    simp only [vbind]
    rw [hy]
    simp only [vbind]
    exact register_atom_total hne cy
  | bvSge a b =>
    show ∃ u c', lit_collector_visit_bvsge ctx v t a b c = (VRes.ok u, c')
    rw [hd] at hch
    simp only [childrenOf] at hch
    have hwfch : ∀ x ∈ [a, b], GoodT ctx x := by
      have h := (hS.wf (index_of t)).1
      rw [hd] at h
      exact h
    have hb : ctx.isBool (index_of t) = true := by
      have h := (hS.wf (index_of t)).2.1
      rw [hd] at h
      exact h
    have hco : ∀ x y, ctx.evalT x = ctx.evalT a → ctx.evalT y = ctx.evalT b →
        evalB ctx (ctx.mkBvsge x y) = evalB ctx (2 * index_of t) ∧
        ctx.isBool (index_of (ctx.mkBvsge x y)) = true := by
      have h3 := hS.coh (index_of t)
      unfold evalCohAt at h3
      rw [hd] at h3
      exact h3
    rw [two_mul_index hp] at hco
    obtain ⟨x, cx, hx⟩ := hvt a c hI (hch a (by simp)).1 (hch a (by simp)).2
    have hIx : InvOK ctx cx := by
      have h := (hv a c hI).1
      rw [hx] at h
      exact h
    have hrx : ResOK ctx a x := (hv a c hI).2 x (by rw [hx]) (hwfch a (by simp))
    obtain ⟨y, cy, hy⟩ := hvt b cx hIx (hch b (by simp)).1 (hch b (by simp)).2
    have hry : ResOK ctx b y := (hv b cx hIx).2 y (by rw [hy]) (hwfch b (by simp))
    have hne : evalB ctx (if x ≠ a ∨ y ≠ b then ctx.mkBvsge x y else t) ≠ none := by
      split
      · rw [(hco x y hrx.1 hry.1).1]
        exact evalB_ne_none_of_evalT (hev hb).1
      · exact evalB_ne_none_of_evalT (hev hb).1
    unfold lit_collector_visit_bvsge visitBinAtom
    rw [hx]
    simp only [vbind]
    rw [hy]
    simp only [vbind]
    exact register_atom_total hne cy
  | distinct args =>
    show ∃ u c', lit_collector_visit_distinct ctx v t args c = (VRes.ok u, c')
    rw [hd] at hch
    simp only [childrenOf] at hch
    have hwfch : ∀ x ∈ args, GoodT ctx x := by
      have h := (hS.wf (index_of t)).1
      rw [hd] at h
      exact h
    have hb : ctx.isBool (index_of t) = true := by
      have h := (hS.wf (index_of t)).2.1
      rw [hd] at h
      exact h
    have hco : ∀ as, EvalListEq ctx as args →
        evalB ctx (ctx.mkDistinct as) = evalB ctx (2 * index_of t) ∧
        ctx.isBool (index_of (ctx.mkDistinct as)) = true := by
      have h3 := hS.coh (index_of t)
      unfold evalCohAt at h3
      rw [hd] at h3
      exact h3
    rw [two_mul_index hp] at hco
    obtain ⟨as, c1, has⟩ :=
      visitArgs_total hv hvt args (pushFrame c args.length) hch
        (InvOK_pushFrame hI _)
    have hsound := visitArgs_sound hv args (pushFrame c args.length) hwfch
      (InvOK_pushFrame hI _)
    rw [has] at hsound
    have hle : EvalListEq ctx as args := hsound.2 as rfl
    have hne : evalB ctx (if as ≠ args then ctx.mkDistinct as else t) ≠ none := by
      split
      · rw [(hco as hle).1]
        exact evalB_ne_none_of_evalT (hev hb).1
      · exact evalB_ne_none_of_evalT (hev hb).1
    simp only [lit_collector_visit_distinct]
    rw [has]
    simp only [vbind]
    obtain ⟨w, c2, hreg⟩ := register_atom_total hne c1
    rw [hreg]
    simp only [vbind]
    exact ⟨w, popFrame c2, rfl⟩
  | or args =>
    show ∃ u c', lit_collector_visit_or ctx v t args c = (VRes.ok u, c')
    have hb : ctx.isBool (index_of t) = true := by
      have h := (hS.wf (index_of t)).2.1
      rw [hd] at h
      exact h
    have hargsb : ∀ x ∈ args, ctx.isBool (index_of x) = true := by
      have h3 := (hS.wf (index_of t)).2.2
      rw [hd] at h3
      exact h3
    rw [hd] at hch
    simp only [childrenOf] at hch
    have hallne : ∀ a ∈ args, evalB ctx a ≠ none := by
      intro a ha
      obtain ⟨_, _, hevj⟩ :=
        hOK (index_of a) (hch a ha).1 (Nat.lt_trans (hch a ha).2 hn)
      exact evalB_ne_none_of_evalT (evalT_ne_none_both (hevj (hargsb a ha)))
    have hco : (evalB ctx (2 * index_of t) = some false →
        ∀ a ∈ args, evalB ctx a = some false) ∧
        (evalB ctx (2 * index_of t) = some true →
          ∃ a ∈ args, evalB ctx a = some true) := by
      have h3 := hS.coh (index_of t)
      unfold evalCohAt at h3
      rw [hd] at h3
      exact h3
    rw [two_mul_index hp] at hco
    unfold lit_collector_visit_or term_is_true_in_model
    cases he : ctx.evalT t with
    | none => exact absurd he (hev hb).1
    | some w =>
      simp only [vbind]
      have het : evalB ctx t = some (ctx.isTrue w) := by
        unfold evalB
        rw [he]
        rfl
      split
      · rename_i hw
        have htrue : evalB ctx t = some true := by
          rw [het, hw]
        obtain ⟨a, hfind⟩ := findTrueArg_total args c hallne (hco.2 htrue)
        rw [hfind]
        simp only [vbind]
        have hmem : a ∈ args ∧ evalB ctx a = some true := by
          apply findTrueArg_sound ctx args c a
          rw [hfind]
        show ∃ u c', v a c = (VRes.ok u, c')
        exact hvt a c hI (hch a hmem.1).1 (hch a hmem.1).2
      · exact visitFold_total hv hvt args false_term c hch hI
  | xor args =>
    show ∃ u c', lit_collector_visit_xor v args c = (VRes.ok u, c')
    rw [hd] at hch
    simp only [childrenOf] at hch
    unfold lit_collector_visit_xor
    exact visitXorFold_total hv hvt args false c hch hI
  | bvArray args =>
    show ∃ u c', vbind (visitArgs v args (pushFrame c args.length))
      (fun a c => (VRes.ok (ctx.mkBvarray a), popFrame c)) = (VRes.ok u, c')
    rw [hd] at hch
    simp only [childrenOf] at hch
    obtain ⟨as, c1, has⟩ :=
      visitArgs_total hv hvt args (pushFrame c args.length) hch
        (InvOK_pushFrame hI _)
    rw [has]
    simp only [vbind]
    exact ⟨_, popFrame c1, rfl⟩
  | bvDiv a b =>
    show ∃ u c', lit_collector_visit_bvdiv ctx v t a b c = (VRes.ok u, c')
    rw [hd] at hch
    simp only [childrenOf] at hch
    obtain ⟨x, cx, hx⟩ := hvt a c hI (hch a (by simp)).1 (hch a (by simp)).2
    have hIx : InvOK ctx cx := by
      have h := (hv a c hI).1
      rw [hx] at h
      exact h
    obtain ⟨y, cy, hy⟩ := hvt b cx hIx (hch b (by simp)).1 (hch b (by simp)).2
    unfold lit_collector_visit_bvdiv visitBinRebuild
    rw [hx]
    simp only [vbind]
    rw [hy]
    simp only [vbind]
    exact ⟨_, cy, rfl⟩
  | bvRem a b =>
    show ∃ u c', lit_collector_visit_bvrem ctx v t a b c = (VRes.ok u, c')
    rw [hd] at hch
    simp only [childrenOf] at hch
    obtain ⟨x, cx, hx⟩ := hvt a c hI (hch a (by simp)).1 (hch a (by simp)).2
    have hIx : InvOK ctx cx := by
      have h := (hv a c hI).1
      rw [hx] at h
      exact h
    obtain ⟨y, cy, hy⟩ := hvt b cx hIx (hch b (by simp)).1 (hch b (by simp)).2
    unfold lit_collector_visit_bvrem visitBinRebuild
    rw [hx]
    simp only [vbind]
    rw [hy]
    simp only [vbind]
    exact ⟨_, cy, rfl⟩
  | bvSdiv a b =>
    show ∃ u c', lit_collector_visit_bvsdiv ctx v t a b c = (VRes.ok u, c')
    rw [hd] at hch
    simp only [childrenOf] at hch
    obtain ⟨x, cx, hx⟩ := hvt a c hI (hch a (by simp)).1 (hch a (by simp)).2
    have hIx : InvOK ctx cx := by
      have h := (hv a c hI).1
      rw [hx] at h
      exact h
    obtain ⟨y, cy, hy⟩ := hvt b cx hIx (hch b (by simp)).1 (hch b (by simp)).2
    unfold lit_collector_visit_bvsdiv visitBinRebuild
    rw [hx]
    simp only [vbind]
    rw [hy]
    simp only [vbind]
    exact ⟨_, cy, rfl⟩
  | bvSrem a b =>
    show ∃ u c', lit_collector_visit_bvsrem ctx v t a b c = (VRes.ok u, c')
    rw [hd] at hch
    simp only [childrenOf] at hch
    obtain ⟨x, cx, hx⟩ := hvt a c hI (hch a (by simp)).1 (hch a (by simp)).2
    have hIx : InvOK ctx cx := by
      have h := (hv a c hI).1
      rw [hx] at h
      exact h
    obtain ⟨y, cy, hy⟩ := hvt b cx hIx (hch b (by simp)).1 (hch b (by simp)).2
    unfold lit_collector_visit_bvsrem visitBinRebuild
    rw [hx]
    simp only [vbind]
    rw [hy]
    simp only [vbind]
    exact ⟨_, cy, rfl⟩
  | bvSmod a b =>
    show ∃ u c', lit_collector_visit_bvsmod ctx v t a b c = (VRes.ok u, c')
    rw [hd] at hch
    simp only [childrenOf] at hch
    obtain ⟨x, cx, hx⟩ := hvt a c hI (hch a (by simp)).1 (hch a (by simp)).2
    have hIx : InvOK ctx cx := by
      have h := (hv a c hI).1
      rw [hx] at h
      exact h
    obtain ⟨y, cy, hy⟩ := hvt b cx hIx (hch b (by simp)).1 (hch b (by simp)).2
    unfold lit_collector_visit_bvsmod visitBinRebuild
    rw [hx]
    simp only [vbind]
    rw [hy]
    simp only [vbind]
    exact ⟨_, cy, rfl⟩
  | bvShl a b =>
    show ∃ u c', lit_collector_visit_bvshl ctx v t a b c = (VRes.ok u, c')
    rw [hd] at hch
    simp only [childrenOf] at hch
    obtain ⟨x, cx, hx⟩ := hvt a c hI (hch a (by simp)).1 (hch a (by simp)).2
    have hIx : InvOK ctx cx := by
      have h := (hv a c hI).1
      rw [hx] at h
      exact h
    obtain ⟨y, cy, hy⟩ := hvt b cx hIx (hch b (by simp)).1 (hch b (by simp)).2
    unfold lit_collector_visit_bvshl visitBinRebuild
    rw [hx]
    simp only [vbind]
    rw [hy]
    simp only [vbind]
    exact ⟨_, cy, rfl⟩
  | bvLshr a b =>
    show ∃ u c', lit_collector_visit_bvlshr ctx v t a b c = (VRes.ok u, c')
    rw [hd] at hch
    simp only [childrenOf] at hch
    obtain ⟨x, cx, hx⟩ := hvt a c hI (hch a (by simp)).1 (hch a (by simp)).2
    have hIx : InvOK ctx cx := by
      have h := (hv a c hI).1
      rw [hx] at h
      exact h
    obtain ⟨y, cy, hy⟩ := hvt b cx hIx (hch b (by simp)).1 (hch b (by simp)).2
    unfold lit_collector_visit_bvlshr visitBinRebuild
    rw [hx]
    simp only [vbind]
    rw [hy]
    simp only [vbind]
    exact ⟨_, cy, rfl⟩
  | bvAshr a b =>
    show ∃ u c', lit_collector_visit_bvashr ctx v t a b c = (VRes.ok u, c')
    rw [hd] at hch
    simp only [childrenOf] at hch
    obtain ⟨x, cx, hx⟩ := hvt a c hI (hch a (by simp)).1 (hch a (by simp)).2
    have hIx : InvOK ctx cx := by
      have h := (hv a c hI).1
      rw [hx] at h
      exact h
    obtain ⟨y, cy, hy⟩ := hvt b cx hIx (hch b (by simp)).1 (hch b (by simp)).2
    unfold lit_collector_visit_bvashr visitBinRebuild
    rw [hx]
    simp only [vbind]
    rw [hy]
    simp only [vbind]
    exact ⟨_, cy, rfl⟩
  | select i u0 =>
    show ∃ u c', lit_collector_visit_select ctx v t i u0 c = (VRes.ok u, c')
    rw [hd] at hch
    simp only [childrenOf] at hch
    have hgu : GoodT ctx u0 := by
      have h := (hS.wf (index_of t)).1
      rw [hd] at h
      exact h u0 (by simp [childrenOf])
    have hco : ∀ w, ctx.evalT w = ctx.evalT u0 →
        ctx.evalT (ctx.mkSelect i w) = ctx.evalT (2 * index_of t) ∧
        ctx.isBool (index_of (ctx.mkSelect i w)) = ctx.isBool (index_of t) := by
      have h3 := hS.coh (index_of t)
      unfold evalCohAt at h3
      rw [hd] at h3
      exact h3
    rw [two_mul_index hp] at hco
    obtain ⟨w, c1, hw⟩ := hvt u0 c hI (hch u0 (by simp)).1 (hch u0 (by simp)).2
    have hresw : ResOK ctx u0 w := (hv u0 c hI).2 w (by rw [hw]) hgu
    simp only [lit_collector_visit_select]
    rw [hw]
    simp only [vbind]
    have key : ∀ t', evalB ctx t' = evalB ctx t →
        ctx.isBool (index_of t') = ctx.isBool (index_of t) →
        ∃ u c', (if ctx.isBool (index_of t') = true then
            register_atom ctx t' c1 else (VRes.ok t', c1)) = (VRes.ok u, c') := by
      intro t' h1 h2
      split
      · rename_i hbt'
        have hbt : ctx.isBool (index_of t) = true := by
          rw [← h2]
          exact hbt'
        have hne : evalB ctx t' ≠ none := by
          rw [h1]
          exact evalB_ne_none_of_evalT (hev hbt).1
        exact register_atom_total hne c1
      · exact ⟨t', c1, rfl⟩
    exact key (if w ≠ u0 then ctx.mkSelect i w else t)
      (by
        split
        · exact evalB_congr (hco w hresw.1).1
        · rfl)
      (by
        split
        · exact (hco w hresw.1).2
        · rfl)
  | bit i u0 =>
    show ∃ u c', lit_collector_visit_bit ctx v t i u0 c = (VRes.ok u, c')
    rw [hd] at hch
    simp only [childrenOf] at hch
    have hgu : GoodT ctx u0 := by
      have h := (hS.wf (index_of t)).1
      rw [hd] at h
      exact h u0 (by simp [childrenOf])
    have hb : ctx.isBool (index_of t) = true := by
      have h := (hS.wf (index_of t)).2.1
      rw [hd] at h
      exact h
    have hco : ∀ w, ctx.evalT w = ctx.evalT u0 →
        evalB ctx (ctx.mkBitextract w i) = evalB ctx (2 * index_of t) ∧
        ctx.isBool (index_of (ctx.mkBitextract w i)) = true := by
      have h3 := hS.coh (index_of t)
      unfold evalCohAt at h3
      rw [hd] at h3
      exact h3
    rw [two_mul_index hp] at hco
    obtain ⟨w, c1, hw⟩ := hvt u0 c hI (hch u0 (by simp)).1 (hch u0 (by simp)).2
    have hresw : ResOK ctx u0 w := (hv u0 c hI).2 w (by rw [hw]) hgu
    have hne : evalB ctx (if w ≠ u0 then ctx.mkBitextract w i else t) ≠ none := by
      split
      · rw [(hco w hresw.1).1]
        exact evalB_ne_none_of_evalT (hev hb).1
      · exact evalB_ne_none_of_evalT (hev hb).1
    unfold lit_collector_visit_bit
    rw [hw]
    simp only [vbind]
    exact register_atom_total hne c1
  | powProd vars =>
    show ∃ u c', lit_collector_visit_pprod ctx v t vars c = (VRes.ok u, c')
    rw [hd] at hch
    simp only [childrenOf] at hch
    obtain ⟨as, c1, has⟩ :=
      visitArgs_total hv hvt vars (pushFrame c vars.length) hch
        (InvOK_pushFrame hI _)
    simp only [lit_collector_visit_pprod]
    rw [has]
    simp only [vbind]
    exact ⟨_, popFrame c1, rfl⟩
  | arithPoly vars =>
    show ∃ u c', lit_collector_visit_poly ctx v t vars c = (VRes.ok u, c')
    rw [hd] at hch
    simp only [childrenOf] at hch
    unfold lit_collector_visit_poly visitPolyGeneric
    cases vars with
    | nil => exact ⟨t, _, rfl⟩
    | cons v0 rest =>
      simp only
      split
      · rename_i hv0
        have hch2 : ∀ a ∈ rest, 1 ≤ index_of a ∧ index_of a < index_of t := by
          intro a ha
          apply hch
          simpa [hv0] using ha
        obtain ⟨as, c1, has⟩ :=
          visitArgs_total hv hvt rest (pushFrame c (v0 :: rest).length) hch2
            (InvOK_pushFrame hI _)
        rw [has]
        simp only [vbind]
        exact ⟨_, popFrame c1, rfl⟩
      · rename_i hv0
        have hch2 : ∀ a ∈ v0 :: rest, 1 ≤ index_of a ∧ index_of a < index_of t := by
          intro a ha
          apply hch
          simpa [hv0] using ha
        obtain ⟨as, c1, has⟩ :=
          visitArgs_total hv hvt (v0 :: rest)
            (pushFrame c (v0 :: rest).length) hch2 (InvOK_pushFrame hI _)
        rw [has]
        simp only [vbind]
        exact ⟨_, popFrame c1, rfl⟩
  | bvPoly64 vars =>
    show ∃ u c', lit_collector_visit_bvpoly64 ctx v t vars c = (VRes.ok u, c')
    rw [hd] at hch
    simp only [childrenOf] at hch
    unfold lit_collector_visit_bvpoly64 visitPolyGeneric
    cases vars with
    | nil => exact ⟨t, _, rfl⟩
    | cons v0 rest =>
      simp only
      split
      · rename_i hv0
        have hch2 : ∀ a ∈ rest, 1 ≤ index_of a ∧ index_of a < index_of t := by
          intro a ha
          apply hch
          simpa [hv0] using ha
        obtain ⟨as, c1, has⟩ :=
          visitArgs_total hv hvt rest (pushFrame c (v0 :: rest).length) hch2
            (InvOK_pushFrame hI _)
        rw [has]
        simp only [vbind]
        exact ⟨_, popFrame c1, rfl⟩
      · rename_i hv0
        have hch2 : ∀ a ∈ v0 :: rest, 1 ≤ index_of a ∧ index_of a < index_of t := by
          intro a ha
          apply hch
          simpa [hv0] using ha
        obtain ⟨as, c1, has⟩ :=
          visitArgs_total hv hvt (v0 :: rest)
            (pushFrame c (v0 :: rest).length) hch2 (InvOK_pushFrame hI _)
        rw [has]
        simp only [vbind]
        exact ⟨_, popFrame c1, rfl⟩
  | bvPoly vars =>
    show ∃ u c', lit_collector_visit_bvpoly ctx v t vars c = (VRes.ok u, c')
    rw [hd] at hch
    simp only [childrenOf] at hch
    unfold lit_collector_visit_bvpoly visitPolyGeneric
    cases vars with
    | nil => exact ⟨t, _, rfl⟩
    | cons v0 rest =>
      simp only
      split
      · rename_i hv0
        have hch2 : ∀ a ∈ rest, 1 ≤ index_of a ∧ index_of a < index_of t := by
          intro a ha
          apply hch
          simpa [hv0] using ha
        obtain ⟨as, c1, has⟩ :=
          visitArgs_total hv hvt rest (pushFrame c (v0 :: rest).length) hch2
            (InvOK_pushFrame hI _)
        rw [has]
        simp only [vbind]
        exact ⟨_, popFrame c1, rfl⟩
      · rename_i hv0
        have hch2 : ∀ a ∈ v0 :: rest, 1 ≤ index_of a ∧ index_of a < index_of t := by
          intro a ha
          apply hch
          simpa [hv0] using ha
        obtain ⟨as, c1, has⟩ :=
          visitArgs_total hv hvt (v0 :: rest)
            (pushFrame c (v0 :: rest).length) hch2 (InvOK_pushFrame hI _)
        rw [has]
        simp only [vbind]
        exact ⟨_, popFrame c1, rfl⟩

/-- Totality: on an admissible table, the visitor succeeds on every term of
index in [1, n) given fuel above the index. -/
theorem visit_total (ctx : Ctx) (hS : SemOK ctx) {n : Nat}
    (hOK : OKBelow ctx n) :
    ∀ i t c fuel, index_of t = i → 1 ≤ i → i < n → i < fuel →
      InvOK ctx c →
      ∃ u c', lit_collector_visit ctx fuel t c = (VRes.ok u, c') := by
  intro i
  induction i using Nat.strong_induction_on with
  | _ i ih =>
    intro t c fuel hti h1 hn hfuel hI
    cases fuel with
    | zero => omega
    | succ f =>
      unfold lit_collector_visit
      simp only
      cases hc : lit_collector_find_cached_term c (unsigned_term t) with
      | some u0 => exact ⟨_, _, rfl⟩
      | none =>
        have hvt : VTot ctx (lit_collector_visit ctx f)
            (index_of (unsigned_term t)) := by
          intro a ca hIa h1a hna
          rw [index_unsigned, hti] at hna
          exact ih (index_of a) hna a ca f rfl h1a
            (Nat.lt_trans hna hn) (by omega) hIa
        obtain ⟨u, c2, hk⟩ := visitKind_total hS (visit_sound ctx hS f) hOK
          (unsigned_term t) c hvt (unsigned_polarity t)
          (by rw [index_unsigned, hti]; exact h1)
          (by rw [index_unsigned, hti]; exact hn) hI
        rw [hk]
        exact ⟨_, _, rfl⟩

/-! ## The concrete instance satisfies the coherence conditions -/

theorem descW_ge (i : Nat) (h : 11 ≤ i) : descW i = TermDesc.reserved := by
  unfold descW
  split
  all_goals first | rfl | omega

theorem isBoolW_ge (i : Nat) (h : 11 ≤ i) : isBoolW i = false := by
  unfold isBoolW
  split
  all_goals first | rfl | omega

theorem evalW_ge (t : Nat) (h : 22 ≤ t) : evalW t = none := by
  unfold evalW
  split
  all_goals first | rfl | omega

instance (ctx : Ctx) (t : Nat) : Decidable (GoodT ctx t) := by
  unfold GoodT
  infer_instance

instance (ctx : Ctx) (i : Nat) : Decidable (sortWFAt ctx i) := by
  unfold sortWFAt
  cases ctx.desc i <;>
    first
      | exact inferInstance
      | (dsimp only [childrenOf, boolOut]; infer_instance)

theorem semOK_ctxW : SemOK ctxW := by
  constructor
  case descOne => rfl
  case isBoolOne => rfl
  case evalTrue => rfl
  case evalFalse => rfl
  case boolCanon =>
    intro t hb hne
    by_cases ht : t < 22
    · interval_cases t <;> revert hb hne <;> decide
    · exfalso
      have hf : ctxW.isBool (index_of t) = false :=
        isBoolW_ge (index_of t) (by unfold index_of; omega)
      rw [hf] at hb
      cases hb
  case evalNeg =>
    intro t hb
    by_cases ht : t < 22
    · interval_cases t <;> revert hb <;> decide
    · exfalso
      have hf : ctxW.isBool (index_of t) = false :=
        isBoolW_ge (index_of t) (by unfold index_of; omega)
      rw [hf] at hb
      cases hb
  case wf =>
    intro i
    by_cases h : i < 11
    · interval_cases i <;> exact (by decide)
    · have hd : ctxW.desc i = TermDesc.reserved := descW_ge i (by omega)
      unfold sortWFAt
      rw [hd]
      exact ⟨by simp [childrenOf], trivial, trivial⟩
  case coh =>
    intro i
    by_cases h : i < 11
    · interval_cases i
      · trivial
      · trivial
      · trivial
      · trivial
      · trivial
      · trivial
      · -- i = 6 : tuple [8, 10]
        exact fun as h => rfl
      · -- i = 7 : eq 12 12
        intro x y h1 h2
        have hm : ctxW.mkEq x y = 14 := rfl
        rw [hm]
        exact ⟨rfl, by decide⟩
      · -- i = 8 : or [4, 6]
        constructor
        · intro hfalse
          exact absurd hfalse (by decide)
        · intro _
          exact ⟨4, by decide, by decide⟩
      · -- i = 9 : ite 4 8 10
        constructor
        · intro _
          decide
        · intro hfalse
          exact absurd hfalse (by decide)
      · -- i = 10 : or [6, 6]
        constructor
        · intro _ a ha
          have : a = 6 := by
            rcases List.mem_cons.mp ha with h | h
            · exact h
            · simpa using h
          subst this
          decide
        · intro htrue
          exact absurd htrue (by decide)
    · have hd : ctxW.desc i = TermDesc.reserved := descW_ge i (by omega)
      unfold evalCohAt
      rw [hd]
      trivial

theorem okBelow_ctxW : OKBelow ctxW 11 := by
  intro i h1 h2
  interval_cases i <;> exact ⟨by trivial, by decide, by decide⟩

/-! ## Auxiliary lemmas for the claim theorems -/

theorem term_is_true_eval {ctx : Ctx} {t : Nat} {b : Bool} (c : Collector)
    (h : evalB ctx t = some b) :
    term_is_true_in_model ctx t c = (VRes.ok b, c) := by
  unfold evalB at h
  unfold term_is_true_in_model
  cases he : ctx.evalT t with
  | none =>
    rw [he] at h
    simp at h
  | some w =>
    rw [he] at h
    have hb : ctx.isTrue w = b := by simpa using h
    show (VRes.ok (ctx.isTrue w), c) = (VRes.ok b, c)
    rw [hb]

theorem findTrueArg_first {ctx : Ctx} {a : Nat}
    (ha : evalB ctx a = some true) :
    ∀ (pre post : List Nat) (c : Collector),
      (∀ b ∈ pre, evalB ctx b = some false) →
      findTrueArg ctx (pre ++ a :: post) c = (VRes.ok (some a), c) := by
  intro pre
  induction pre with
  | nil =>
    intro post c hpre
    show findTrueArg ctx (a :: post) c = (VRes.ok (some a), c)
    unfold findTrueArg
    rw [term_is_true_eval c ha]
    rfl
  | cons b pre ih =>
    intro post c hpre
    show findTrueArg ctx (b :: (pre ++ a :: post)) c = (VRes.ok (some a), c)
    unfold findTrueArg
    rw [term_is_true_eval c (hpre b (by simp))]
    show findTrueArg ctx (pre ++ a :: post) c = (VRes.ok (some a), c)
    exact ih post c fun x hx => hpre x (by simp [hx])

theorem visitFold_last {ctx : Ctx}
    {v : Nat → Collector → VRes Nat × Collector}
    (hS : SemOK ctx) (hV : VIH ctx v) :
    ∀ (args : List Nat) (u0 : Nat) (c : Collector), InvOK ctx c →
      (∀ b ∈ args, ctx.isBool (index_of b) = true ∧
        evalB ctx b = some false) →
      ∀ u c2, visitFold v args u0 c = (VRes.ok u, c2) →
        (args = [] ∧ u = u0) ∨ u = false_term := by
  intro args
  induction args with
  | nil =>
    intro u0 c hI hall u c2 hf
    left
    have hf2 : (VRes.ok u0, c) = (VRes.ok u, c2) := hf
    have h1 := congrArg Prod.fst hf2
    injection h1 with h1
    exact ⟨rfl, h1.symm⟩
  | cons a rest ih =>
    intro u0 c hI hall u c2 hf
    right
    rcases hva : v a c with ⟨r1, c1⟩
    unfold visitFold at hf
    rw [hva] at hf
    cases r1 with
    | fail e =>
      have hf2 : ((VRes.fail e : VRes Nat), c1) = (VRes.ok u, c2) := hf
      simp at hf2
    | out =>
      have hf2 : ((VRes.out : VRes Nat), c1) = (VRes.ok u, c2) := hf
      simp at hf2
    | ok u1 =>
      have hf2 : visitFold v rest u1 c1 = (VRes.ok u, c2) := hf
      have hI1 : InvOK ctx c1 := by
        have h := (hV a c hI).1
        rw [hva] at h
        exact h
      have hres1 : ResOK ctx a u1 :=
        (hV a c hI).2 u1 (by rw [hva]) (Or.inr (hall a (by simp)).1)
      have hu1 : u1 = false_term :=
        resok_false_of hS hres1 (hall a (by simp)).1 (hall a (by simp)).2
      rcases ih u1 c1 hI1 (fun b hb => hall b (by simp [hb])) u c2 hf2 with
        ⟨hnil, hu⟩ | hu
      · rw [hu, hu1]
      · exact hu

theorem xor_flip (u p : Nat) (hp : p ≤ 1) :
    u ^^^ (1 - p) = u ^^^ p ^^^ 1 := by
  interval_cases p
  · simp
  · simp [Nat.xor_assoc]

/-! ## The claims -/

/-- C1: For a Boolean term t that is admissible below the bound
(supported kinds only, hence quantifier-free and lambda-free with no free
variables, and every Boolean subterm evaluable in the model),
lit_collector_visit returns the constant true_term when the model
satisfies t and false_term otherwise, and lit_collector_process returns
the same value. -/
theorem C1_visit_decides (ctx : Ctx) (hS : SemOK ctx) {n : Nat}
    (hOK : OKBelow ctx n) (t fuel : Nat)
    (h1 : 1 ≤ index_of t) (hn : index_of t < n) (hf : index_of t < fuel)
    (hb : ctx.isBool (index_of t) = true) :
    ∃ c2, lit_collector_visit ctx fuel t init_lit_collector =
        (VRes.ok (if evalB ctx t = some true then true_term else false_term),
          c2) ∧
      lit_collector_process ctx fuel t init_lit_collector =
        (VRes.ok (if evalB ctx t = some true then true_term else false_term),
          c2) := by
  obtain ⟨u, c2, hv⟩ := visit_total ctx hS hOK (index_of t) t
    init_lit_collector fuel rfl h1 hn hf (InvOK_init ctx)
  have hres : ResOK ctx t u :=
    (visit_sound ctx hS fuel t init_lit_collector (InvOK_init ctx)).2 u
      (by rw [hv]) (Or.inr hb)
  have hu : (if evalB ctx t = some true then true_term else false_term)
      = u := by
    rcases hres.2 hb with h | h
    · subst h
      have he : evalB ctx t = some true := by
        rw [← evalB_congr hres.1]
        exact hS.evalTrue
      rw [if_pos he]
    · subst h
      have he : evalB ctx t = some false := by
        rw [← evalB_congr hres.1]
        exact hS.evalFalse
      rw [if_neg (by rw [he]; simp)]
  refine ⟨c2, ?_, ?_⟩
  · rw [hu]
    exact hv
  · unfold lit_collector_process
    rw [hv, hu]

/-- The first claim exercised on the boolean term p of the concrete table,
true in its model. -/
theorem C1_visit_decides_witness :
    ∃ c2, lit_collector_visit ctxW 11 4 init_lit_collector =
        (VRes.ok (if evalB ctxW 4 = some true then true_term else false_term),
          c2) ∧
      lit_collector_process ctxW 11 4 init_lit_collector =
        (VRes.ok (if evalB ctxW 4 = some true then true_term else false_term),
          c2) :=
  C1_visit_decides ctxW semOK_ctxW okBelow_ctxW 4 11 (by decide) (by decide)
    (by decide) (by decide)

/-- C2: lit_collector_add_literal never inserts true_term, and every
literal that get_implicants adds to the output vector is true in the
model and distinct from true_term. -/
theorem C2_literals_true (ctx : Ctx) (hS : SemOK ctx) (fuel : Nat)
    (as v : List Nat) (r : Int) (out : List Nat)
    (hg : get_implicants ctx fuel as v = some (r, out)) :
    (∀ c, lit_collector_add_literal c true_term = c) ∧
    ∀ l ∈ out, l ∉ v → evalB ctx l = some true ∧ l ≠ true_term := by
  constructor
  · intro c
    unfold lit_collector_add_literal
    rw [if_pos rfl]
  · intro l hl hlv
    unfold get_implicants at hg
    rcases hp : processAll ctx fuel as init_lit_collector with ⟨pr, pc⟩
    rw [hp] at hg
    cases pr with
    | ok u =>
      have hg2 : some ((0 : Int), v ++ pc.lit_set) = some (r, out) := hg
      have hout : v ++ pc.lit_set = out :=
        congrArg Prod.snd (Option.some.inj hg2)
      have hI := processAll_InvOK hS fuel as init_lit_collector
        (InvOK_init ctx)
      rw [hp] at hI
      have hmem : l ∈ pc.lit_set := by
        rw [← hout] at hl
        rcases List.mem_append.mp hl with h | h
        · exact absurd h hlv
        · exact h
      exact hI.2 l hmem
    | fail e =>
      have hg2 : some (errCode e, v) = some (r, out) := hg
      have hout : v = out := congrArg Prod.snd (Option.some.inj hg2)
      rw [← hout] at hl
      exact absurd hl hlv
    | out =>
      have hg2 : (none : Option (Int × List Nat)) = some (r, out) := hg
      cases hg2

/-- The second claim exercised on the successful run that collects the
literals 14 and 4 of the concrete table. -/
theorem C2_literals_true_witness :
    (∀ c, lit_collector_add_literal c true_term = c) ∧
    ∀ l ∈ [14, 4], l ∉ ([] : List Nat) →
      evalB ctxW l = some true ∧ l ≠ true_term :=
  C2_literals_true ctxW semOK_ctxW 20 [14, 16] [] 0 [14, 4] (by decide)

/-- C3: Visiting an n-ary disjunction that is true in the model visits
only the first disjunct true in the model and returns true_term, touching
no later disjunct; visiting a disjunction false in the model visits every
disjunct in order and returns false_term. -/
theorem C3_or_policy (ctx : Ctx) (hS : SemOK ctx)
    {v : Nat → Collector → VRes Nat × Collector} (hV : VIH ctx v)
    (t : Nat) (args : List Nat) (c : Collector) (hI : InvOK ctx c)
    (hargs : ∀ a ∈ args, ctx.isBool (index_of a) = true) :
    (∀ a pre post, evalB ctx t = some true → args = pre ++ a :: post →
      (∀ b ∈ pre, evalB ctx b = some false) → evalB ctx a = some true →
      lit_collector_visit_or ctx v t args c = v a c ∧
      ∀ u c2, v a c = (VRes.ok u, c2) → u = true_term) ∧
    (evalB ctx t = some false →
      lit_collector_visit_or ctx v t args c = visitFold v args false_term c ∧
      ((∀ b ∈ args, evalB ctx b = some false) →
        ∀ u c2, visitFold v args false_term c = (VRes.ok u, c2) →
          u = false_term)) := by
  constructor
  · intro a pre post ht harg hpre ha
    have hmem : a ∈ args := by rw [harg]; simp
    constructor
    · unfold lit_collector_visit_or
      rw [term_is_true_eval c ht, harg]
      show (vbind (findTrueArg ctx (pre ++ a :: post) c) fun oa c =>
        match oa with
        | some a => v a c
        | none => (VRes.fail LitErr.internal, c)) = v a c
      rw [findTrueArg_first ha pre post c hpre]
      rfl
    · intro u c2 hva
      have hres : ResOK ctx a u :=
        (hV a c hI).2 u (by rw [hva]) (Or.inr (hargs a hmem))
      exact resok_true_of hS hres (hargs a hmem) ha
  · intro ht
    constructor
    · unfold lit_collector_visit_or
      rw [term_is_true_eval c ht]
      rfl
    · intro hall u c2 hf
      rcases visitFold_last hS hV args false_term c hI
        (fun b hb => ⟨hargs b hb, hall b hb⟩) u c2 hf with ⟨-, hu⟩ | hu
      · exact hu
      · exact hu

/-- The third claim exercised on the disjunction (or p q) of the concrete
table, true in its model through its first disjunct p. -/
theorem C3_or_policy_witness :
    lit_collector_visit_or ctxW (lit_collector_visit ctxW 10) 16 [4, 6]
        init_lit_collector = lit_collector_visit ctxW 10 4
        init_lit_collector ∧
    ∀ u c2, lit_collector_visit ctxW 10 4 init_lit_collector =
      (VRes.ok u, c2) → u = true_term :=
  (C3_or_policy ctxW semOK_ctxW (visit_sound ctxW semOK_ctxW 10) 16 [4, 6]
      init_lit_collector (InvOK_init ctxW) (by decide)).1 4 [] [6]
    (by decide) rfl (fun b hb => absurd hb (List.not_mem_nil b)) (by decide)

/-- C4: Visiting Ite(c,a,b) first visits the condition, whose result is a
boolean constant agreeing with its model value, then visits exactly the
selected branch starting from the state the condition visit produced and
returns that result; the other branch is never visited. -/
theorem C4_ite_branch (ctx : Ctx) (hS : SemOK ctx)
    {v : Nat → Collector → VRes Nat × Collector} (hV : VIH ctx v)
    (c1 a b : Nat) (c : Collector) (hI : InvOK ctx c)
    (hb1 : ctx.isBool (index_of c1) = true) :
    ∀ w cw, v c1 c = (VRes.ok w, cw) →
      BoolRes w ∧
      (evalB ctx c1 = some true → w = true_term) ∧
      (evalB ctx c1 = some false → w = false_term) ∧
      lit_collector_visit_ite v c1 a b c =
        v (if w = true_term then a else b) cw := by
  intro w cw hw
  have hres : ResOK ctx c1 w :=
    (hV c1 c hI).2 w (by rw [hw]) (Or.inr hb1)
  refine ⟨hres.2 hb1, fun ht => resok_true_of hS hres hb1 ht,
    fun hf => resok_false_of hS hres hb1 hf, ?_⟩
  unfold lit_collector_visit_ite
  rw [hw]
  rfl

/-- The fourth claim exercised on the conditional (ite p x y) of the
concrete table, whose condition p is true in its model. -/
theorem C4_ite_branch_witness :
    BoolRes true_term ∧
    (evalB ctxW 4 = some true → true_term = true_term) ∧
    (evalB ctxW 4 = some false → true_term = false_term) ∧
    lit_collector_visit_ite (lit_collector_visit ctxW 10) 4 8 10
        init_lit_collector =
      lit_collector_visit ctxW 10 (if true_term = true_term then 8 else 10)
        ⟨[(4, 2)], [4], []⟩ :=
  C4_ite_branch ctxW semOK_ctxW (visit_sound ctxW semOK_ctxW 10) 4 8 10
    init_lit_collector (InvOK_init ctxW) (by decide) true_term
    ⟨[(4, 2)], [4], []⟩ (by decide)

/-- C5: get_implicants forwards the first processing failure as that
negative error code and leaves the output vector untouched; on success it
returns 0 and appends the collected literal set to the output vector,
keeping every pre-existing element. -/
theorem C5_driver_io (ctx : Ctx) (fuel : Nat) (as v : List Nat) :
    (∀ e c, processAll ctx fuel as init_lit_collector = (VRes.fail e, c) →
      get_implicants ctx fuel as v = some (errCode e, v) ∧ errCode e < 0) ∧
    (∀ c, processAll ctx fuel as init_lit_collector = (VRes.ok (), c) →
      get_implicants ctx fuel as v = some (0, v ++ c.lit_set)) := by
  constructor
  · intro e c hp
    refine ⟨?_, errCode_neg e⟩
    unfold get_implicants
    rw [hp]
  · intro c hp
    unfold get_implicants
    rw [hp]

/-- The fifth claim exercised on a failing run: the assertion 22 has a
reserved kind, the run fails with the internal error code and the output
vector keeps exactly its previous content. -/
theorem C5_driver_io_witness :
    get_implicants ctxW 10 [22] [7] = some (errCode LitErr.internal, [7]) ∧
    errCode LitErr.internal < 0 :=
  (C5_driver_io ctxW 10 [22] [7]).1 LitErr.internal init_lit_collector
    (by decide)

/-- C6: lit_collector_process returns a negative code exactly when the
visit fails, in which case only the scratch stack is reset while the cache
and the literal set keep every entry added before the failure; on a
successful visit it returns the visit result unchanged. -/
theorem C6_process_failure (ctx : Ctx) (fuel t : Nat) (c : Collector) :
    (∀ e cv, lit_collector_visit ctx fuel t c = (VRes.fail e, cv) →
      lit_collector_process ctx fuel t c =
        (VRes.fail e, { cv with stack := [] }) ∧
      errCode e < 0 ∧
      (∃ l, cv.cache = l ++ c.cache) ∧
      (∃ l, cv.lit_set = c.lit_set ++ l)) ∧
    (∀ u cv, lit_collector_visit ctx fuel t c = (VRes.ok u, cv) →
      lit_collector_process ctx fuel t c = (VRes.ok u, cv)) := by
  constructor
  · intro e cv hv
    have hext := visit_CExt ctx fuel t c
    rw [hv] at hext
    refine ⟨?_, errCode_neg e, hext.1, hext.2⟩
    unfold lit_collector_process
    rw [hv]
  · intro u cv hv
    unfold lit_collector_process
    rw [hv]

/-- The sixth claim exercised on the failing visit of the reserved term
22 from the empty collector. -/
theorem C6_process_failure_witness :
    lit_collector_process ctxW 10 22 init_lit_collector =
      (VRes.fail LitErr.internal, { init_lit_collector with stack := [] }) ∧
    errCode LitErr.internal < 0 ∧
    (∃ l, init_lit_collector.cache = l ++ init_lit_collector.cache) ∧
    (∃ l, init_lit_collector.lit_set = init_lit_collector.lit_set ++ l) :=
  (C6_process_failure ctxW 10 22 init_lit_collector).1 LitErr.internal
    init_lit_collector (by decide)

/-- C7: Polarity law: visiting the negation of a term gives exactly the
negation of the result of visiting the term, with identical collector
state, because the visitor strips the polarity bit on entry, keys the
cache on the unsigned form, and XORs the computed result with the original
polarity on return. -/
theorem C7_polarity_law (ctx : Ctx) (fuel t : Nat) (c : Collector) :
    lit_collector_visit ctx fuel (opposite_term t) c =
      match lit_collector_visit ctx fuel t c with
      | (VRes.ok u, c2) => (VRes.ok (opposite_term u), c2)
      | other => other := by
  cases fuel with
  | zero => rfl
  | succ fuel =>
    unfold lit_collector_visit
    simp only
    rw [unsigned_opposite]
    cases hc : lit_collector_find_cached_term c (unsigned_term t) with
    | some u0 =>
      show (VRes.ok (u0 ^^^ polarity_of (opposite_term t)), c) =
        (VRes.ok (opposite_term (u0 ^^^ polarity_of t)), c)
      rw [polarity_opposite]
      unfold opposite_term
      rw [xor_flip u0 (polarity_of t) (by unfold polarity_of; omega)]
    | none =>
      rcases hk : visitKind ctx (lit_collector_visit ctx fuel)
          (unsigned_term t) c with ⟨rr, c2⟩
      cases rr with
      | ok u =>
        show (VRes.ok (u ^^^ polarity_of (opposite_term t)),
            lit_collector_cache_result c2 (unsigned_term t) u) =
          (VRes.ok (opposite_term (u ^^^ polarity_of t)),
            lit_collector_cache_result c2 (unsigned_term t) u)
        rw [polarity_opposite]
        unfold opposite_term
        rw [xor_flip u (polarity_of t) (by unfold polarity_of; omega)]
      | fail e => rfl
      | out => rfl

/-- Counterexample to the claim that the driver detects a non-true
process result: processing the assertion 6 (the boolean q, false in the
model) returns the non-negative value false_term, which differs from
true_term, yet get_implicants reports success with code 0 and emits the
collected literal set — the equality assert on the result is compiled out
in release builds, so nothing detects the violated precondition. -/
theorem C8_counterexample :
    lit_collector_process ctxW 10 6 init_lit_collector =
      (VRes.ok false_term, ⟨[(6, 3)], [7], []⟩) ∧
    false_term ≠ true_term ∧ (0 : Int) ≤ 3 ∧
    get_implicants ctxW 10 [6] [] = some (0, [7]) :=
  ⟨by decide, by decide, by decide, by decide⟩

/-- C8 (amended): the driver checks only for negative error codes; any
non-negative result of lit_collector_process, whether or not it equals
true_term, lets the assertion loop continue undetected. -/
theorem C8_driver_detect (ctx : Ctx) (fuel : Nat) (a : Nat)
    (rest : List Nat) (c : Collector) (u : Nat) (c2 : Collector)
    (hp : lit_collector_process ctx fuel a c = (VRes.ok u, c2)) :
    processAll ctx fuel (a :: rest) c = processAll ctx fuel rest c2 := by
  conv_lhs => unfold processAll
  rw [hp]

/-- The amended eighth claim exercised on the false assertion q: its
non-true result is accepted and the loop moves on. -/
theorem C8_driver_detect_witness :
    processAll ctxW 10 [6] init_lit_collector =
      processAll ctxW 10 [] ⟨[(6, 3)], [7], []⟩ :=
  C8_driver_detect ctxW 10 6 [] init_lit_collector false_term
    ⟨[(6, 3)], [7], []⟩ (by decide)

/-- Counterexample to the claim that the visitor is never invoked on a
tuple of arity at most 2: the concrete table satisfies every coherence
and admissibility condition, its term 6 is a tuple of arity 2, and
visiting the equality term 14 leads the visitor into that tuple, which is
processed and cached (entry (12, 12)) with no failure — the arity
assertion is compiled out in release builds and is violable. -/
theorem C9_counterexample :
    SemOK ctxW ∧ OKBelow ctxW 11 ∧
    descW 6 = TermDesc.tuple [8, 10] ∧ List.length [8, 10] ≤ 2 ∧
    lit_collector_visit ctxW 10 14 init_lit_collector =
      (VRes.ok true_term, ⟨[(14, 2), (12, 12), (10, 10), (8, 8)], [14], []⟩) :=
  ⟨semOK_ctxW, okBelow_ctxW, by decide, by decide, by decide⟩

/-- C9 (amended): the visitor accepts tuple terms of any arity — a tuple
of arity at most 2 occurring in a coherent, admissible table is visited
and the visit completes normally, since the arity assertion is compiled
out and lit_collector_visit_tuple simply visits all components. -/
theorem C9_tuple_arity (ctx : Ctx) (hS : SemOK ctx) {n : Nat}
    (hOK : OKBelow ctx n) (i : Nat) (args : List Nat)
    (_hd : ctx.desc i = TermDesc.tuple args) (_hlen : args.length ≤ 2)
    (h1 : 1 ≤ i) (hn : i < n) (fuel : Nat) (hf : i < fuel) :
    ∃ u c2, lit_collector_visit ctx fuel (2 * i) init_lit_collector =
      (VRes.ok u, c2) := by
  have hidx : index_of (2 * i) = i := by
    unfold index_of
    omega
  exact visit_total ctx hS hOK i (2 * i) init_lit_collector fuel hidx h1 hn
    hf (InvOK_init ctx)

/-- The amended ninth claim exercised on the arity-2 tuple at index 6 of
the concrete table. -/
theorem C9_tuple_arity_witness :
    ∃ u c2, lit_collector_visit ctxW 10 12 init_lit_collector =
      (VRes.ok u, c2) :=
  C9_tuple_arity ctxW semOK_ctxW okBelow_ctxW 6 [8, 10] (by decide)
    (by decide) (by decide) (by decide) 10 (by decide)

/-- C10: A cache hit is pure: the visit returns the cached value XORed
with the polarity of the term and leaves the collector exactly as it was;
consequently revisiting a term just visited returns the same result with
no further change, so each shared node is rewritten at most once and
reprocessing adds no literal. -/
theorem C10_cache_hit_pure (ctx : Ctx) (fuel t : Nat) (c : Collector)
    (hf : 0 < fuel) :
    (∀ u0, lit_collector_find_cached_term c (unsigned_term t) = some u0 →
      lit_collector_visit ctx fuel t c =
        (VRes.ok (u0 ^^^ polarity_of t), c)) ∧
    (∀ u c2, lit_collector_visit ctx fuel t c = (VRes.ok u, c2) →
      lit_collector_visit ctx fuel t c2 = (VRes.ok u, c2)) := by
  cases fuel with
  | zero => omega
  | succ fuel =>
    constructor
    · intro u0 hc
      unfold lit_collector_visit
      simp only
      rw [hc]
    · intro u c2 hv
      cases hc : lit_collector_find_cached_term c (unsigned_term t) with
      | some u0 =>
        have h1 : lit_collector_visit ctx (fuel + 1) t c =
            (VRes.ok (u0 ^^^ polarity_of t), c) := by
          unfold lit_collector_visit
          simp only
          rw [hc]
        rw [h1] at hv
        have h2 := congrArg Prod.fst hv
        have h3 : c = c2 := congrArg Prod.snd hv
        injection h2 with h2
        rw [← h3, ← h2]
        exact h1
      | none =>
        have hky : ∃ u1 c3, visitKind ctx (lit_collector_visit ctx fuel)
            (unsigned_term t) c = (VRes.ok u1, c3) ∧
            u = u1 ^^^ polarity_of t ∧
            c2 = lit_collector_cache_result c3 (unsigned_term t) u1 := by
          revert hv
          unfold lit_collector_visit
          simp only
          rw [hc]
          rcases hk : visitKind ctx (lit_collector_visit ctx fuel)
              (unsigned_term t) c with ⟨rr, c3⟩
          cases rr with
          | ok u1 =>
            intro hv
            have hv2 : (VRes.ok (u1 ^^^ polarity_of t),
                lit_collector_cache_result c3 (unsigned_term t) u1) =
                (VRes.ok u, c2) := hv
            have ha := congrArg Prod.fst hv2
            have hb := congrArg Prod.snd hv2
            injection ha with ha
            exact ⟨u1, c3, rfl, ha.symm, hb.symm⟩
          | fail e =>
            intro hv
            have hv2 : ((VRes.fail e : VRes Nat), c3) =
                (VRes.ok u, c2) := hv
            simp at hv2
          | out =>
            intro hv
            have hv2 : ((VRes.out : VRes Nat), c3) = (VRes.ok u, c2) := hv
            simp at hv2
        obtain ⟨u1, c3, hk, hu, hc2⟩ := hky
        subst hu hc2
        unfold lit_collector_visit
        simp only
        rw [show lit_collector_find_cached_term
            (lit_collector_cache_result c3 (unsigned_term t) u1)
            (unsigned_term t) = some u1 from assocFind_cons_self _ _ _]

/-- The tenth claim exercised on the negative literal 5 whose unsigned
form 4 is cached with value true_term in the starting collector. -/
theorem C10_cache_hit_pure_witness :
    (∀ u0, lit_collector_find_cached_term (⟨[(4, 2)], [4], []⟩ : Collector)
        (unsigned_term 5) = some u0 →
      lit_collector_visit ctxW 1 5 ⟨[(4, 2)], [4], []⟩ =
        (VRes.ok (u0 ^^^ polarity_of 5), ⟨[(4, 2)], [4], []⟩)) ∧
    (∀ u c2, lit_collector_visit ctxW 1 5 ⟨[(4, 2)], [4], []⟩ =
        (VRes.ok u, c2) →
      lit_collector_visit ctxW 1 5 c2 = (VRes.ok u, c2)) :=
  C10_cache_hit_pure ctxW 1 5 ⟨[(4, 2)], [4], []⟩ (by decide)
